import Mathlib

/-!
HumdrumLine: line classification, reference records, tokenization, track
analysis, timing, parameter import and CSV ingestion.

A shallow embedding of `src/src/HumdrumLine.cpp` (class `hum::HumdrumLine`).

Conventions of the embedding:

* a C++ `std::string` is a `List Char`, one list element per C++ `char`;
* `int` indices are `Int`; `std::string::find` returns `Option Nat`
  (`none` is `string::npos`) and the cast `(int)find(..)` sends `none` to `-1`;
  text lengths are taken to fit an `int`, as the source does at every
  `(int)size()`;
* an `int` has 32 bits: the track number parsed from a spine-info string
  and `maxtrack + 1` are reduced to the two's-complement range by `wrapInt`
  (what the compiled code computes on overflow); counts of tokens are taken
  to fit an `int`;
* memory allocation is taken to succeed, but a `resize` to more than
  `max_size()` elements throws and gives `none`;
* a `vector<int>` is a `List Int`, and reading or writing it out of range
  gives `none`, as does dereferencing a `NULL` token;
* the rational type `HumNum` is `ℚ`;
* a loop that may not end is run with fuel, and `none` stands for a loop
  that does not end;
* functions of classes outside `HumdrumLine.cpp` (`Convert`, `HumdrumToken`,
  `HumNum`, `HumHash`) that a member function calls are parameters of its
  embedding or are modelled from the spec, as their doc comments say;
* a token pointer `HTp` is an `Option HumdrumToken` (`none` is `NULL`);
* member functions take the line as an explicit argument and functions that
  mutate the line return the new line.
-/

namespace hum

/-- The text type: a C++ `std::string`, one element per `char`. -/
abbrev Str := List Char

/-- Embedding of `std::string::substr(pos, len)`; every call site in
`HumdrumLine.cpp` has `pos ≤ size()`, where it copies at most `len`
characters starting at `pos`. -/
def substr (s : Str) (pos len : Nat) : Str := (s.drop pos).take len

/-- Embedding of `std::string::substr(pos)`: the text from `pos` to the end. -/
def substrFrom (s : Str) (pos : Nat) : Str := s.drop pos

/-- Scan for the first position at or after which `needle` starts; `i` is the
index of the head of the remaining text. -/
def findFrom (needle : Str) : Str → Nat → Option Nat
  | [], i => if needle = [] then some i else none
  | c :: cs, i =>
    if needle.isPrefixOf (c :: cs) then some i else findFrom needle cs (i + 1)

/-- Embedding of `std::string::find(needle)`: the index of the first
occurrence of `needle`, `none` for `string::npos`. -/
def find (s needle : Str) : Option Nat := findFrom needle s 0

/-- The cast `(int)pos` of a `find` result: `string::npos` becomes `-1`. -/
def toInt : Option Nat → Int
  | none => -1
  | some n => (n : Int)

/-- The value `(int)string::npos`. -/
def npos : Int := toInt none

/-- Embedding of the conversion of a C string to `std::string`
(`string(const char*)`): the characters before the first NUL. -/
def fromCStr (s : Str) : Str := s.takeWhile (fun c => c != '\x00')

/-- Token of a line (class `HumdrumToken`, whose source is outside
`HumdrumLine.cpp`): its text together with the analysis fields that
`HumdrumLine` reads and writes through `getSpineInfo`, `setTrack`,
`setSubtrack` and `setSubtrackCount`. -/
structure HumdrumToken where
  text : Str
  spineInfo : Str := []
  track : Int := 0
  subtrack : Int := 0
  subtrackCount : Int := 0
  deriving DecidableEq, Repr

/-- A token pointer; `none` is `NULL`. -/
abbrev HTp := Option HumdrumToken

/-- Modelled from the spec: the rational duration type `HumNum` (a class
outside `HumdrumLine.cpp`), which the spec describes as exact fraction
arithmetic with zero and sign predicates. -/
abbrev HumNum := ℚ

/-- Modelled from the spec: `HumNum::isZero`, the zero predicate. -/
def HumNum.isZero (x : HumNum) : Bool := decide (x = 0)

/-- Modelled from the spec: `HumNum::isNonNegative`, the sign predicate. -/
def HumNum.isNonNegative (x : HumNum) : Bool := decide (0 ≤ x)

/-- Modelled from the spec: the owning file (class `HumdrumFile`, outside
`HumdrumLine.cpp`), of which a line reads `getScoreDuration()`. -/
structure HumdrumFile where
  scoreDuration : HumNum
  deriving DecidableEq, Repr

/-- Embedding of `HumdrumFile::getScoreDuration` as read through `owner`. -/
def HumdrumFile.getScoreDuration (f : HumdrumFile) : HumNum := f.scoreDuration

/-- Modelled from the spec: the namespaced parameter store `HumHash`, of
which only the declaration (`HumHash.h`) is among the sources: a map from
(namespace 1, namespace 2, key) to a value, held as a list of entries with
at most one entry for a triple. -/
structure HumHash where
  entries : List ((Str × Str × Str) × Str) := []
  deriving DecidableEq, Repr

/-- Modelled from the spec: `HumHash::setValue(ns1, ns2, key, value)`;
setting an existing triple overwrites its value. -/
def HumHash.setValue (h : HumHash) (ns1 ns2 key value : Str) : HumHash :=
  { entries := ((ns1, ns2, key), value)
      :: h.entries.filter (fun e => decide (e.1 ≠ (ns1, ns2, key))) }

/-- Modelled from the spec: `HumHash::getValue(ns1, ns2, key)`; an undefined
triple reads as the empty string. -/
def HumHash.getValue (h : HumHash) (ns1 ns2 key : Str) : Str :=
  match h.entries.find? (fun e => decide (e.1 = (ns1, ns2, key))) with
  | some e => e.2
  | none => []

/-- The state of a `HumdrumLine`: the inherited `std::string`, the `tokens`
vector, the `owner` pointer (`none` is `NULL`), the four timing fields and
the inherited parameter store `HumHash`.
The field defaults are those of a line written as a literal in the examples;
the constructors of the class are embedded separately. -/
structure HumdrumLine where
  text : Str
  tokens : List HTp := []
  owner : Option HumdrumFile := none
  duration : HumNum := -1
  durationFromStart : HumNum := -1
  durationFromBarline : HumNum := 0
  durationToBarline : HumNum := 0
  parameters : HumHash := {}
  deriving DecidableEq, Repr

/-- Embedding of `HumdrumLine::equalChar`. -/
def equalChar (l : HumdrumLine) (index : Int) (ch : Char) : Bool :=
  if (l.text.length : Int) ≤ index then false
  else if index < 0 then false
  else if l.text[index.toNat]? = some ch then true
  else false

/-- Embedding of `HumdrumLine::isEmpty`. -/
def isEmpty (l : HumdrumLine) : Bool :=
  if l.text.length = 0 then true else false

/-- Embedding of `HumdrumLine::isComment`. -/
def isComment (l : HumdrumLine) : Bool := equalChar l 0 '!'

/-- Embedding of `HumdrumLine::isCommentLocal`. -/
def isCommentLocal (l : HumdrumLine) : Bool :=
  equalChar l 0 '!' && !equalChar l 1 '!'

/-- Embedding of `HumdrumLine::isCommentGlobal`. -/
def isCommentGlobal (l : HumdrumLine) : Bool :=
  equalChar l 0 '!' && equalChar l 1 '!'

/-- Embedding of `HumdrumLine::isExclusive`. -/
def isExclusive (l : HumdrumLine) : Bool :=
  equalChar l 1 '*' && equalChar l 0 '*'

/-- Embedding of `HumdrumLine::isInterp`. -/
def isInterp (l : HumdrumLine) : Bool := equalChar l 0 '*'

/-- Embedding of `HumdrumLine::isBarline`. -/
def isBarline (l : HumdrumLine) : Bool := equalChar l 0 '='

/-- Embedding of `HumdrumLine::isData`. -/
def isData (l : HumdrumLine) : Bool :=
  if isComment l || isInterp l || isBarline l || isEmpty l then false
  else true

/-- Embedding of `HumdrumLine::hasSpines`. -/
def hasSpines (l : HumdrumLine) : Bool :=
  if isEmpty l || isCommentGlobal l then false else true

/-- Embedding of `HumdrumLine::isGlobal`. -/
def isGlobal (l : HumdrumLine) : Bool := !hasSpines l

/-- The number of the given flags that are set. -/
def countTrue (bs : List Bool) : Nat := (bs.filter (fun b => b)).length

/-- The conversion of an `int` to `size_t` (64 bits) at a call of `substr`:
a non-negative value is unchanged and a negative one wraps around. -/
def toSizeT (i : Int) : Nat := if 0 ≤ i then i.toNat else (i + 2 ^ 64).toNat

/-- Embedding of `HumdrumLine::isReference`. -/
def isReference (l : HumdrumLine) : Bool :=
  if l.text.length < 5 then false
  else if substr l.text 0 3 ≠ ['!', '!', '!'] then false
  else if l.text[3]? = some '!' then false
  else
    let spaceloc := toInt (find l.text [' '])
    let tabloc := toInt (find l.text ['\t'])
    let colloc := toInt (find l.text [':'])
    if colloc = npos then false
    else if spaceloc ≠ npos ∧ spaceloc < colloc then false
    else if tabloc ≠ npos ∧ tabloc < colloc then false
    else true

/-- Embedding of `HumdrumLine::getReferenceKey`. -/
def getReferenceKey (l : HumdrumLine) : Str :=
  if l.text.length < 5 then []
  else if substr l.text 0 3 ≠ ['!', '!', '!'] then []
  else if l.text[3]? = some '!' then []
  else
    let spaceloc := toInt (find l.text [' '])
    let tabloc := toInt (find l.text ['\t'])
    let colloc := toInt (find l.text [':'])
    if colloc = npos then []
    else if spaceloc ≠ npos ∧ spaceloc < colloc then []
    else if tabloc ≠ npos ∧ tabloc < colloc then []
    else substr l.text 3 (toSizeT (colloc - 3))

/-- Embedding of `HumdrumLine::getReferenceValue`; `trim` stands for
`Convert::trimWhiteSpace`, which is defined outside `HumdrumLine.cpp`. -/
def getReferenceValue (trim : Str → Str) (l : HumdrumLine) : Str :=
  if l.text.length < 5 then []
  else if substr l.text 0 3 ≠ ['!', '!', '!'] then []
  else if l.text[3]? = some '!' then []
  else
    let spaceloc := toInt (find l.text [' '])
    let tabloc := toInt (find l.text ['\t'])
    let colloc := toInt (find l.text [':'])
    if colloc = npos then []
    else if spaceloc ≠ npos ∧ spaceloc < colloc then []
    else if tabloc ≠ npos ∧ tabloc < colloc then []
    else trim (substrFrom l.text (toSizeT (colloc + 1)))

/-- The C `isspace` test in the default locale. -/
def isspace (c : Char) : Bool :=
  c = ' ' || c = '\t' || c = '\n' || c = '\x0b' || c = '\x0c' || c = '\r'

/-- Modelled from the spec: `Convert::trimWhiteSpace` (its source file
`Convert.cpp` is not part of the sources at hand), which the spec describes
as trimming: the text without its leading and trailing whitespace. -/
def trimWhiteSpace (s : Str) : Str :=
  ((s.dropWhile isspace).reverse.dropWhile isspace).reverse

/-- The three local variables of the reference branch of
`HumdrumLine::printXml` once the language marker has been split off. -/
structure ReferenceKeyParts where
  key : Str
  language : Str
  primaryLanguage : Str
  deriving DecidableEq, Repr

/-- Embedding of the reference-key splitting of `HumdrumLine::printXml`
(the statements between `string key = getReferenceKey();` and the output of
`<referenceKey`), as a function of the initial value of `key`. -/
def printXmlReferenceKey (key : Str) : ReferenceKeyParts :=
  match find key ['@', '@'] with
  | some loc =>
    { language := substrFrom key (loc + 2), key := substr key 0 loc,
      primaryLanguage := ['t', 'r', 'u', 'e'] }
  | none =>
    match find key ['@'] with
    | some loc =>
      { language := substrFrom key (loc + 1), key := substr key 0 loc,
        primaryLanguage := [] }
    | none => { language := [], key := key, primaryLanguage := [] }

/-- Embedding of `new HumdrumToken(tstring)` followed by `setOwner(this)`:
a fresh token with the given text. -/
def newToken (tstring : Str) : HTp := some { text := tstring }

/-- Embedding of the `for` loop of `HumdrumLine::createTokensFromLine` over
the characters of the line (`getChar(i)` for `0 ≤ i < size()` is the `i`-th
character); the state is the pending field `tstring` and the `tokens`
vector, and the result is their value when the loop ends. -/
def createTokensLoop : Str → Str → List HTp → Str × List HTp
  | [], tstring, tokens => (tstring, tokens)
  | ch :: rest, tstring, tokens =>
    if ch = '\t' then createTokensLoop rest [] (tokens ++ [newToken tstring])
    else createTokensLoop rest (tstring ++ [ch]) tokens

/-- Embedding of `HumdrumLine::createTokensFromLine`: the line with its new
`tokens` vector, and the returned token count. -/
def createTokensFromLine (l : HumdrumLine) : HumdrumLine × Int :=
  let st : Str × List HTp :=
    if l.text.length = 0 then ([], [newToken []])
    else if substr l.text 0 2 = ['!', '!'] then ([], [newToken (fromCStr l.text)])
    else createTokensLoop l.text [] []
  let tokens : List HTp :=
    if st.1.length > 0 then st.2 ++ [newToken st.1] else st.2
  ({ l with tokens := tokens }, (tokens.length : Int))

/-- Embedding of the `for` loop of `HumdrumLine::createLineFromTokens` over
the remaining tokens; `iline` is the text built so far, the test
`i < size() - 1` is that a token remains after the current one, and a `NULL`
token (which the source dereferences) gives `none`. -/
def createLineLoop : List HTp → Str → Option Str
  | [], iline => some iline
  | none :: _, _ => none
  | some tok :: rest, iline =>
    if rest.length > 0 then createLineLoop rest (iline ++ tok.text ++ ['\t'])
    else createLineLoop rest (iline ++ tok.text)

/-- Embedding of `HumdrumLine::createLineFromTokens`. -/
def createLineFromTokens (l : HumdrumLine) : Option HumdrumLine :=
  (createLineLoop l.tokens []).map (fun iline => { l with text := iline })

/-- The texts of a vector of non-`NULL` tokens. -/
def tokenTexts (toks : List HTp) : List Str :=
  toks.filterMap (fun t => t.map (fun tok => tok.text))

/-- The text `s` starts with `needle` at offset `pre.length`, and at no
smaller offset: `pre` is what stands before the first occurrence of `needle`
and `post` what stands after it. -/
def FirstOccurrence (needle s pre post : Str) : Prop :=
  s = pre ++ needle ++ post ∧
    ∀ pre2 post2 : Str, s = pre2 ++ needle ++ post2 → pre.length ≤ pre2.length

/-- Splitting a text on the tab character, with the field after the final
tab left out when it is empty. -/
def splitTabsDropEmptyLast (s : Str) : List Str :=
  if (s.splitOn '\t').getLast? = some [] then (s.splitOn '\t').dropLast
  else s.splitOn '\t'

/-- Turn a string literal into the text type. -/
def str (s : String) : Str := s.toList

/-- A line with the given text and no tokens. -/
def lineOf (s : String) : HumdrumLine := { text := str s }

/-! Construction and timing -/

/-- The removal of one trailing carriage return (0x0d) done by the
constructors that take a text. -/
def stripCarriageReturn (s : Str) : Str :=
  if s.length > 0 ∧ s.getLast? = some '\x0d' then s.take (s.length - 1) else s

/-- Embedding of the constructor `HumdrumLine::HumdrumLine(void)`;
`humNumDefault` is the value of a default-constructed `HumNum`, which the two
barline fields keep because the constructor does not assign them. -/
def mkHumdrumLine (humNumDefault : HumNum) : HumdrumLine :=
  { text := [], tokens := [], owner := none, duration := -1, durationFromStart := -1,
    durationFromBarline := humNumDefault, durationToBarline := humNumDefault }

/-- Embedding of the constructor `HumdrumLine::HumdrumLine(const string&)`. -/
def mkHumdrumLineFromString (humNumDefault : HumNum) (aString : Str) : HumdrumLine :=
  { text := stripCarriageReturn aString, tokens := [], owner := none, duration := -1,
    durationFromStart := -1, durationFromBarline := humNumDefault,
    durationToBarline := humNumDefault }

/-- Embedding of the constructor `HumdrumLine::HumdrumLine(const char*)`. -/
def mkHumdrumLineFromCStr (humNumDefault : HumNum) (aString : Str) : HumdrumLine :=
  { text := stripCarriageReturn (fromCStr aString), tokens := [], owner := none,
    duration := -1, durationFromStart := -1, durationFromBarline := humNumDefault,
    durationToBarline := humNumDefault }

/-- Embedding of `HumdrumLine::getDuration(void)`. -/
def getDuration (l : HumdrumLine) : HumNum := l.duration

/-- Embedding of `HumdrumLine::getDuration(HumNum scale)`. -/
def getDurationScaled (l : HumdrumLine) (scale : HumNum) : HumNum := l.duration * scale

/-- Embedding of `HumdrumLine::setDurationFromStart`. -/
def setDurationFromStart (l : HumdrumLine) (dur : HumNum) : HumdrumLine :=
  { l with durationFromStart := dur }

/-- Embedding of `HumdrumLine::getDurationFromStart(void)`. -/
def getDurationFromStart (l : HumdrumLine) : HumNum := l.durationFromStart

/-- Embedding of `HumdrumLine::getDurationFromStart(HumNum scale)`. -/
def getDurationFromStartScaled (l : HumdrumLine) (scale : HumNum) : HumNum :=
  l.durationFromStart * scale

/-- Embedding of `HumdrumLine::getDurationToEnd(void)`. -/
def getDurationToEnd (l : HumdrumLine) : HumNum :=
  match l.owner with
  | none => 0
  | some file => file.getScoreDuration - l.durationFromStart

/-- Embedding of `HumdrumLine::getDurationToEnd(HumNum scale)`. -/
def getDurationToEndScaled (l : HumdrumLine) (scale : HumNum) : HumNum :=
  match l.owner with
  | none => 0
  | some file => scale * (file.getScoreDuration - l.durationFromStart)

/-- Embedding of `HumdrumLine::getDurationFromBarline(void)`. -/
def getDurationFromBarline (l : HumdrumLine) : HumNum := l.durationFromBarline

/-- Embedding of `HumdrumLine::getDurationFromBarline(HumNum scale)`. -/
def getDurationFromBarlineScaled (l : HumdrumLine) (scale : HumNum) : HumNum :=
  l.durationFromBarline * scale

/-- Embedding of `HumdrumLine::setDurationFromBarline`. -/
def setDurationFromBarline (l : HumdrumLine) (dur : HumNum) : HumdrumLine :=
  { l with durationFromBarline := dur }

/-- Embedding of `HumdrumLine::getDurationToBarline(void)`. -/
def getDurationToBarline (l : HumdrumLine) : HumNum := l.durationToBarline

/-- Embedding of `HumdrumLine::getDurationToBarline(HumNum scale)`. -/
def getDurationToBarlineScaled (l : HumdrumLine) (scale : HumNum) : HumNum :=
  l.durationToBarline * scale

/-- Embedding of `HumdrumLine::setDurationToBarline`. -/
def setDurationToBarline (l : HumdrumLine) (dur : HumNum) : HumdrumLine :=
  { l with durationToBarline := dur }

/-- Embedding of `HumdrumLine::getBarlineDuration(void)`. -/
def getBarlineDuration (l : HumdrumLine) : HumNum :=
  if isBarline l then getDurationToBarline l
  else getDurationFromBarline l + getDurationToBarline l

/-- Embedding of `HumdrumLine::getBarlineDuration(HumNum scale)`. -/
def getBarlineDurationScaled (l : HumdrumLine) (scale : HumNum) : HumNum :=
  if isBarline l then getDurationToBarlineScaled l scale
  else getDurationFromBarlineScaled l scale + getDurationToBarlineScaled l scale

/-- Embedding of `HumdrumLine::getBeat(HumNum beatdur)`. -/
def getBeat (l : HumdrumLine) (beatdur : HumNum) : HumNum :=
  if beatdur.isZero then beatdur
  else (getDurationFromBarline l / beatdur) + 1

/-- Embedding of `HumdrumLine::setDuration`. -/
def setDuration (l : HumdrumLine) (aDur : HumNum) : HumdrumLine :=
  if aDur.isNonNegative then { l with duration := aDur }
  else { l with duration := 0 }

/-- An owning file whose score lasts `8`, for the examples. -/
def exampleFile : HumdrumFile := { scoreDuration := 8 }

/-- A data line owned by `exampleFile` that starts `3` after the start of
the score, for the examples. -/
def exampleOwnedLine : HumdrumLine :=
  { text := str "4c", owner := some exampleFile, durationFromStart := 3 }

/-! Track analysis -/

/-- Modelled from the spec: `HumdrumToken::getSpineInfo`, the spine-info
string carried by the token. -/
def HumdrumToken.getSpineInfo (t : HumdrumToken) : Str := t.spineInfo

/-- Modelled from the spec: `HumdrumToken::getTrack`, the resolved integer
track carried by the token. -/
def HumdrumToken.getTrack (t : HumdrumToken) : Int := t.track

/-- Modelled from the spec: `HumdrumToken::setTrack`, which records the
resolved integer track. -/
def HumdrumToken.setTrack (t : HumdrumToken) (track : Int) : HumdrumToken :=
  { t with track := track }

/-- Modelled from the spec: `HumdrumToken::setSubtrack`, which records the
subtrack. -/
def HumdrumToken.setSubtrack (t : HumdrumToken) (subtrack : Int) : HumdrumToken :=
  { t with subtrack := subtrack }

/-- Modelled from the spec: `HumdrumToken::setSubtrackCount`, which records
how many tokens of the line share the track. -/
def HumdrumToken.setSubtrackCount (t : HumdrumToken) (count : Int) : HumdrumToken :=
  { t with subtrackCount := count }

/-- The C `isdigit` test: one of the characters `0` to `9`. -/
def isdigit (c : Char) : Bool := decide ('0'.toNat ≤ c.toNat ∧ c.toNat ≤ '9'.toNat)

/-- The `int` value of `c - '0'`. -/
def digitValue (c : Char) : Int := (c.toNat : Int) - ('0'.toNat : Int)

/-- The value of a 32-bit two's-complement `int` that is assigned the
arithmetic result `x`: `x` itself from `-2147483648` to `2147483647`, and the
value in that range that differs from `x` by a multiple of `2^32`
otherwise. -/
def wrapInt (x : Int) : Int := (x + 2147483648) % 4294967296 - 2147483648

/-- Embedding of the innermost loop of `HumdrumLine::analyzeTracks` (over
`k`): the digits that follow the first one are accumulated into the `int`
`track` by `track = track * 10 + (info[k] - '0')` until a character that is
not a digit, or the end of `info`, is met. -/
def trackDigitsLoop : Str → Int → Int
  | [], track => track
  | c :: rest, track =>
    if isdigit c then trackDigitsLoop rest (wrapInt (track * 10 + digitValue c)) else track

/-- Embedding of the loop of `HumdrumLine::analyzeTracks` over `j`, entered
with `track = 0`: characters that are not digits are skipped, and the first
digit starts the number and ends the scan. -/
def trackScanLoop : Str → Int
  | [] => 0
  | c :: rest =>
    if !isdigit c then trackScanLoop rest
    else trackDigitsLoop rest (digitValue c)

/-- Read of `table[index]` in a `vector<int>`; `none` when the index is out
of range. -/
def tableGet (table : List Int) (index : Int) : Option Int :=
  if 0 ≤ index then table[index.toNat]? else none

/-- Embedding of `table[index]++` (and of `++table[index]`) on a
`vector<int>`: the table after the increment; `none` when the index is out
of range. -/
def tableIncrement (table : List Int) (index : Int) : Option (List Int) :=
  match tableGet table index with
  | none => none
  | some value => some (table.set index.toNat (value + 1))

/-- Embedding of `table.resize(n)` followed by the `fill` with `0`, on an
empty `vector<int>` and with an `int` argument `n`: a table of `n` zeros. A
negative `n` converts to a `size_t` above `max_size()`, for which `resize`
throws `std::length_error`: that is `none`. -/
def resizeTable (n : Int) : Option (List Int) :=
  if n < 0 then none else some (List.replicate (toSizeT n) 0)

/-- Embedding of the first loop of `HumdrumLine::analyzeTracks` over the
remaining tokens: each token gets the track parsed from its spine info and
`maxtrack` follows the largest track; the result is the tokens after the
loop and the final `maxtrack`, `none` when a token is `NULL`. -/
def analyzeTracksParseLoop : List HTp → Int → Option (List HTp × Int)
  | [], maxtrack => some ([], maxtrack)
  | none :: _, _ => none
  | some tok :: rest, maxtrack =>
    let track := trackScanLoop tok.getSpineInfo
    let maxtrack := if maxtrack < track then track else maxtrack
    match analyzeTracksParseLoop rest maxtrack with
    | none => none
    | some (done, m) => some (some (tok.setTrack track) :: done, m)

/-- Embedding of the loop `subtracks[tokens[i]->getTrack()]++` of
`HumdrumLine::analyzeTracks` over the remaining tokens. -/
def analyzeTracksCountLoop : List HTp → List Int → Option (List Int)
  | [], subtracks => some subtracks
  | none :: _, _ => none
  | some tok :: rest, subtracks =>
    match tableIncrement subtracks tok.getTrack with
    | none => none
    | some subtracks => analyzeTracksCountLoop rest subtracks

/-- Embedding of the last loop of `HumdrumLine::analyzeTracks` over the
remaining tokens, with the tables `subtracks` and `cursub`: the tokens after
the loop. -/
def analyzeTracksSubtrackLoop : List HTp → List Int → List Int → Option (List HTp)
  | [], _, _ => some []
  | none :: _, _, _ => none
  | some tok :: rest, subtracks, cursub =>
    let track := tok.getTrack
    match tableGet subtracks track with
    | none => none
    | some subtrack =>
      if subtrack > 1 then
        match tableIncrement cursub tok.getTrack with
        | none => none
        | some cursub =>
          match tableGet cursub tok.getTrack with
          | none => none
          | some value =>
            match analyzeTracksSubtrackLoop rest subtracks cursub with
            | none => none
            | some done =>
              some (some ((tok.setSubtrack value).setSubtrackCount subtrack) :: done)
      else
        match analyzeTracksSubtrackLoop rest subtracks cursub with
        | none => none
        | some done => some (some ((tok.setSubtrack 0).setSubtrackCount subtrack) :: done)

/-- Embedding of `HumdrumLine::analyzeTracks`: the line after the call and
the returned flag `!err.size()`; `err` is only read. The result is `none`
when a `NULL` token is dereferenced, a table is indexed out of range, or a
`resize` throws. -/
def analyzeTracks (l : HumdrumLine) (err : Str) : Option (HumdrumLine × Bool) :=
  if !hasSpines l then some (l, decide (err.length = 0))
  else
    match analyzeTracksParseLoop l.tokens 0 with
    | none => none
    | some (tokens, maxtrack) =>
      match resizeTable (wrapInt (maxtrack + 1)), resizeTable (wrapInt (maxtrack + 1)) with
      | some subtracks, some cursub =>
        match analyzeTracksCountLoop tokens subtracks with
        | none => none
        | some subtracks =>
          match analyzeTracksSubtrackLoop tokens subtracks cursub with
          | none => none
          | some tokens => some ({ l with tokens := tokens }, decide (err.length = 0))
      | _, _ => none

/-- The decimal value of a run of digit characters, most significant digit
first. -/
def decimalValue (run : Str) : Nat :=
  Nat.ofDigits 10 (run.reverse.map (fun c => c.toNat - '0'.toNat))

/-- The first maximal run of decimal digits met when scanning `info` from
left to right: the characters before the first digit are dropped and the
digits up to the next character that is not a digit are kept. It is empty
when `info` holds no digit. -/
def firstDigitRun (info : Str) : Str :=
  (info.dropWhile (fun c => !isdigit c)).takeWhile isdigit

/-- A token with the given spine-info string (and empty text). -/
def tokenWithSpineInfo (info : String) : HumdrumToken :=
  { text := [], spineInfo := str info }

/-- The tracks of a vector of non-`NULL` tokens. -/
def tokenTracks (toks : List HTp) : List Int :=
  toks.filterMap (fun t => t.map (fun tok => tok.track))

/-- The subtracks of a vector of non-`NULL` tokens. -/
def tokenSubtracks (toks : List HTp) : List Int :=
  toks.filterMap (fun t => t.map (fun tok => tok.subtrack))

/-- The subtrack counts of a vector of non-`NULL` tokens. -/
def tokenSubtrackCounts (toks : List HTp) : List Int :=
  toks.filterMap (fun t => t.map (fun tok => tok.subtrackCount))

/-- Five tokens that carry the spine-info strings `1`, `2`, `(2)a`, `(2)b`,
`3`. -/
def exampleTrackTokens : List HumdrumToken :=
  [tokenWithSpineInfo "1", tokenWithSpineInfo "2", tokenWithSpineInfo "(2)a",
    tokenWithSpineInfo "(2)b", tokenWithSpineInfo "3"]

/-- The example line of the track analysis: a data line with the tokens
`exampleTrackTokens`. -/
def exampleTrackLine : HumdrumLine :=
  { text := str "a\tb\tc\td\te", tokens := exampleTrackTokens.map some }

/-- A data line whose only token carries the spine-info string `1 (2)a` of
two merged spines. -/
def exampleMergedLine : HumdrumLine :=
  { text := str "a", tokens := [some (tokenWithSpineInfo "1 (2)a")] }

/-- Three tokens that carry the empty spine-info string, the string `ab`
without a digit, and the string `12`. -/
def exampleNoDigitTokens : List HumdrumToken :=
  [tokenWithSpineInfo "", tokenWithSpineInfo "ab", tokenWithSpineInfo "12"]

/-- A data line with the tokens `exampleNoDigitTokens`. -/
def exampleNoDigitLine : HumdrumLine :=
  { text := str "a\tb\tc", tokens := exampleNoDigitTokens.map some }

/-- A data line whose only token carries the spine-info string
`4294967297`, the decimal writing of `2^32 + 1`. -/
def exampleWrappedLine : HumdrumLine :=
  { text := str "a", tokens := [some (tokenWithSpineInfo "4294967297")] }

/-- A data line whose only token carries the spine-info string
`2147483648`, the decimal writing of `INT_MAX + 1`. -/
def exampleOverflowLine : HumdrumLine :=
  { text := str "a", tokens := [some (tokenWithSpineInfo "2147483648")] }

/-! Token queries and lifecycle -/

/-- Embedding of `HumdrumLine::getTokenCount`. -/
def getTokenCount (l : HumdrumLine) : Int := (l.tokens.length : Int)

/-- Embedding of `HumdrumLine::clear`: every token that is not `NULL` is
deleted and its pointer is set to `NULL`; the `tokens` vector is not
resized. -/
def clear (l : HumdrumLine) : HumdrumLine :=
  { l with tokens := l.tokens.map (fun t =>
      match t with
      | some _ => none
      | none => none) }

/-- Modelled from the spec: `HumdrumToken::isNull` (class outside
`HumdrumLine.cpp`), which the spec describes as the test for the null
markers `.`, `*` and `!`. -/
def HumdrumToken.isNull (t : HumdrumToken) : Bool :=
  decide (t.text = ['.'] ∨ t.text = ['*'] ∨ t.text = ['!'])

/-- Embedding of the loop of `HumdrumLine::isAllNull` over the remaining
tokens; `isNull` stands for `HumdrumToken::isNull`, and a `NULL` token that
is reached gives `none`. -/
def isAllNullLoop (isNull : HumdrumToken → Bool) : List HTp → Option Bool
  | [] => some true
  | none :: _ => none
  | some tok :: rest => if !isNull tok then some false else isAllNullLoop isNull rest

/-- Embedding of `HumdrumLine::isAllNull`. -/
def isAllNull (isNull : HumdrumToken → Bool) (l : HumdrumLine) : Option Bool :=
  if !hasSpines l then some false else isAllNullLoop isNull l.tokens

/-- A data line with the three tokens `.`, `.`, `.`. -/
def exampleNullLine : HumdrumLine :=
  { text := str ".\t.\t.",
    tokens := [some { text := ['.'] }, some { text := ['.'] }, some { text := ['.'] }] }

/-- The outcome of one call of `HumdrumToken::analyzeDuration(err)`: the
token after the call, the error message after the call and the returned
flag. -/
structure AnalyzeDurationResult where
  token : HumdrumToken
  err : Str
  ok : Bool
  deriving DecidableEq, Repr

/-- The outcome of `HumdrumLine::analyzeTokenDurations(err)`: the line and
the error message after the call, the returned flag, and the log of the
calls of `analyzeDuration` that were made, in the order they were made, each
with the index of the token and the flag the call returned. -/
structure AnalyzeTokenDurationsResult where
  line : HumdrumLine
  err : Str
  result : Bool
  calls : List (Nat × Bool)
  deriving DecidableEq, Repr

/-- Embedding of the loop of `HumdrumLine::analyzeTokenDurations` over the
remaining tokens, the first of which has index `i`; `analyzeDuration` stands
for `HumdrumToken::analyzeDuration`. The result is the tokens after the
loop, the error message and the log of the calls; a `NULL` token that is
reached gives `none`. -/
def analyzeTokenDurationsLoop (analyzeDuration : HumdrumToken → Str → AnalyzeDurationResult) :
    List HTp → Nat → Str → Option (List HTp × Str × List (Nat × Bool))
  | [], _, err => some ([], err, [])
  | none :: _, _, _ => none
  | some tok :: rest, i, err =>
    let r := analyzeDuration tok err
    if !r.ok then some (some r.token :: rest, r.err, [(i, false)])
    else
      match analyzeTokenDurationsLoop analyzeDuration rest (i + 1) r.err with
      | none => none
      | some (done, err2, calls) => some (some r.token :: done, err2, (i, true) :: calls)

/-- Embedding of `HumdrumLine::analyzeTokenDurations`; every exit returns
`!err.size()`. -/
def analyzeTokenDurations (analyzeDuration : HumdrumToken → Str → AnalyzeDurationResult)
    (l : HumdrumLine) (err : Str) : Option AnalyzeTokenDurationsResult :=
  if !hasSpines l then
    some { line := l, err := err, result := decide (err.length = 0), calls := [] }
  else
    match analyzeTokenDurationsLoop analyzeDuration l.tokens 0 err with
    | none => none
    | some (tokens, err2, calls) =>
      some { line := { l with tokens := tokens }, err := err2,
             result := decide (err2.length = 0), calls := calls }

/-- The error message after `analyzeDuration` has been called on the tokens
`toks` from left to right, the first call receiving `err` and every later
call the message left by the call before it. -/
def errAfterCalls (analyzeDuration : HumdrumToken → Str → AnalyzeDurationResult) :
    List HumdrumToken → Str → Str
  | [], err => err
  | t :: rest, err => errAfterCalls analyzeDuration rest (analyzeDuration t err).err

/-- A duration analysis for the examples: it fails on a token whose text is
`x`, appending `bad` to the error message, and succeeds on any other token
with the message untouched. -/
def exampleAnalyzeDuration (tok : HumdrumToken) (err : Str) : AnalyzeDurationResult :=
  if tok.text = ['x'] then { token := tok, err := err ++ str "bad", ok := false }
  else { token := tok, err := err, ok := true }

/-- The three tokens `4c`, `x`, `4e`. -/
def exampleDurationTokens : List HumdrumToken :=
  [{ text := str "4c" }, { text := ['x'] }, { text := str "4e" }]

/-- A data line with the three tokens `4c`, `x`, `4e`. -/
def exampleDurationLine : HumdrumLine :=
  { text := str "4c\tx\t4e",
    tokens := [some { text := str "4c" }, some { text := ['x'] }, some { text := str "4e" }] }

/-! Parameter import -/

/-- Modelled from the spec: `Convert::splitString(data, separator)` (its
source file `Convert.cpp` is not part of the sources at hand): the fields of
`data` delimited by `separator`. -/
def splitString (data : Str) (separator : Char) : List Str := data.splitOn separator

/-- Left-to-right replacement of the occurrences of `search` in the
remaining text; `skip` characters of an occurrence already replaced are
still to be passed over. -/
def replaceOccurrencesLoop (search replace : Str) : Nat → Str → Str
  | _, [] => []
  | skip + 1, _ :: cs => replaceOccurrencesLoop search replace skip cs
  | 0, c :: cs =>
    if search ≠ [] ∧ search.isPrefixOf (c :: cs) then
      replace ++ replaceOccurrencesLoop search replace (search.length - 1) cs
    else c :: replaceOccurrencesLoop search replace 0 cs

/-- Modelled from the spec: `Convert::replaceOccurrences(source, search,
replace)` (its source file `Convert.cpp` is not part of the sources at
hand): `source` with every occurrence of `search` replaced by `replace`. -/
def replaceOccurrences (source search replace : Str) : Str :=
  replaceOccurrencesLoop search replace 0 source

/-- Embedding of the loop of `HumdrumLine::setParameters(const string&)`
over the remaining pieces (those of index 2 and above), on the parameter
store; `replaceOcc` stands for `Convert::replaceOccurrences`. -/
def setParametersLoop (replaceOcc : Str → Str → Str → Str) (ns1 ns2 : Str) :
    List Str → HumHash → HumHash
  | [], store => store
  | piece :: rest, store =>
    let piece := replaceOcc piece (str "&colon;") [':']
    let loc := toInt (find piece ['='])
    if loc ≠ npos then
      let key := substr piece 0 (toSizeT loc)
      let value := substr piece (toSizeT (loc + 1)) piece.length
      setParametersLoop replaceOcc ns1 ns2 rest (store.setValue ns1 ns2 key value)
    else
      let key := piece
      let value := str "true"
      setParametersLoop replaceOcc ns1 ns2 rest (store.setValue ns1 ns2 key value)

/-- Embedding of `HumdrumLine::setParameters(const string& pdata)`; `split`
stands for `Convert::splitString` and `replaceOcc` for
`Convert::replaceOccurrences`. -/
def setParameters (split : Str → Char → List Str) (replaceOcc : Str → Str → Str → Str)
    (l : HumdrumLine) (pdata : Str) : HumdrumLine :=
  let pieces := split pdata ':'
  if pieces.length < 3 then l
  else
    match pieces with
    | ns1 :: ns2 :: rest =>
      { l with parameters := setParametersLoop replaceOcc ns1 ns2 rest l.parameters }
    | _ => l

/-- Embedding of `HumdrumLine::setParameters(HumdrumLine* pLine)`. -/
def setParametersFromLine (split : Str → Char → List Str)
    (replaceOcc : Str → Str → Str → Str) (l pLine : HumdrumLine) : HumdrumLine :=
  if pLine.text.length ≤ 2 then l
  else setParameters split replaceOcc l (substr pLine.text 2 (pLine.text.length - 2))

/-- The key and the value that a directive piece stands for: the text
before its first `=` and the text after it, or the whole piece and `true`
when it holds no `=`. -/
def parameterKeyValue (piece : Str) : Str × Str :=
  if '=' ∈ piece then
    (piece.takeWhile (fun c => c != '='), (piece.dropWhile (fun c => c != '=')).drop 1)
  else (piece, str "true")

/-! CSV ingestion -/

/-- Read of `s[i]` on a `std::string`: the character at index `i`, and the
NUL character at `i = size()`, which is the last index that the source
reads. -/
def charAt (s : Str) (i : Int) : Char :=
  if 0 ≤ i then s.getD i.toNat '\x00' else '\x00'

/-- The variables of the scanning loop of `HumdrumLine::setLineFromCsv`:
the index `i`, the flag `inquote` and the text `output`. -/
structure CsvState where
  i : Int
  inquote : Bool
  output : Str
  deriving DecidableEq, Repr

/-- Embedding of one iteration of the `for` loop of
`HumdrumLine::setLineFromCsv(const string&, const string&)`, the `i++` of
the loop header included. -/
def csvStep (newcsv separator : Str) (st : CsvState) : CsvState :=
  if charAt newcsv st.i = '"' ∧ st.inquote = false then
    { st with inquote := true, i := st.i + 1 }
  else if st.inquote = true ∧ charAt newcsv st.i = '"' ∧ charAt newcsv (st.i + 1) = '"'
      ∧ st.i < (newcsv.length : Int) - 1 then
    { st with output := st.output ++ ['"'], i := st.i + 1 + 1 }
  else if charAt newcsv st.i = '"' then
    { st with inquote := false, i := st.i + 1 }
  else if st.inquote = false ∧ substr newcsv (toSizeT st.i) separator.length = separator then
    { st with output := st.output ++ ['\t'], i := st.i + ((separator.length : Int) - 1) + 1 }
  else
    { st with output := st.output ++ [charAt newcsv st.i], i := st.i + 1 }

/-- Embedding of the `for` loop of `HumdrumLine::setLineFromCsv`, run for at
most `fuel` tests of its condition `i < (int)newcsv.size()`: the variables
when the loop ends, `none` when the fuel does not suffice. -/
def csvLoop (newcsv separator : Str) : Nat → CsvState → Option CsvState
  | 0, _ => none
  | fuel + 1, st =>
    if st.i < (newcsv.length : Int) then csvLoop newcsv separator fuel (csvStep newcsv separator st)
    else some st

/-- Embedding of `HumdrumLine::setLineFromCsv(const string& csv, const
string& separator)`. In `*this = newcsv` the left side is a `HumdrumLine`,
whose own (implicit) copy assignment hides `std::string::operator=`: the
string is first converted by the constructor `HumdrumLine(const string&)`
and the temporary line is then assigned member by member, so the line
becomes the freshly constructed one (`humNumDefault` is the value of a
default-constructed `HumNum`). The exit after the loop assigns through
`string& value = *this`, which changes the text only. The loop is given the
fuel `newcsv.size() + 1`, which suffices whenever every iteration advances
`i`; `none` stands for a loop that does not end. -/
def setLineFromCsv (humNumDefault : HumNum) (l : HumdrumLine) (csv separator : Str) :
    Option HumdrumLine :=
  if csv.length < 1 then some l
  else
    let newcsv : Str :=
      if csv.length > 0 ∧ csv.getLast? = some '\x0d' then csv.take (csv.length - 1) else csv
    if newcsv.length ≥ 2 ∧ charAt newcsv 0 = '!' ∧ charAt newcsv 1 = '!' then
      some (mkHumdrumLineFromString humNumDefault newcsv)
    else
      match csvLoop newcsv separator (newcsv.length + 1) { i := 0, inquote := false, output := [] } with
      | none => none
      | some st => some { l with text := st.output }

/-- The loop of `setLineFromCsv` gets from the variables `st` to the
variables `st2` in a number of iterations that is at most the advance of
`i`. -/
def CsvRuns (newcsv separator : Str) (st st2 : CsvState) : Prop :=
  ∃ n : Nat, (n : Int) + st.i ≤ st2.i ∧
    ∀ fuel : Nat, csvLoop newcsv separator (fuel + n) st = csvLoop newcsv separator fuel st2

/-- A field text with every double quote doubled. -/
def csvEscape : Str → Str
  | [] => []
  | c :: cs => if c = '"' then '"' :: '"' :: csvEscape cs else c :: csvEscape cs

/-- A field text as a quoted CSV field: wrapped in double quotes, with
every inner double quote doubled. -/
def csvQuote (field : Str) : Str := ['"'] ++ csvEscape field ++ ['"']

/-- The CSV text of a list of field texts: the quoted fields joined by
commas. -/
def csvEncode (fields : List Str) : Str := [','].intercalate (fields.map csvQuote)

/-- Embedding of `HumdrumLine::setLineFromCsv(const char* csv, const
string& separator)`: the C string is copied into the string `temp` and the
other overload is called as `setLineFromCsv(temp)`, with one argument: its
second parameter takes the default value, which the comment above the
function gives as `separator = ","`. The parameter `separator` of this
overload is never read. -/
def setLineFromCsvCStr (humNumDefault : HumNum) (l : HumdrumLine) (csv _separator : Str) :
    Option HumdrumLine :=
  let temp := fromCStr csv
  setLineFromCsv humNumDefault l temp [',']

/-! Terminators and lazy tokens -/

/-- Embedding of the loop of `HumdrumLine::isTerminator` over the remaining
tokens; `isTerminatorToken` stands for `HumdrumToken::isTerminator`, and a
`NULL` token that is reached gives `none`. -/
def isTerminatorLoop (isTerminatorToken : HumdrumToken → Bool) : List HTp → Option Bool
  | [] => some true
  | none :: _ => none
  | some tok :: rest =>
    if !isTerminatorToken tok then some false
    else isTerminatorLoop isTerminatorToken rest

/-- Embedding of `HumdrumLine::isTerminator`. -/
def isTerminator (isTerminatorToken : HumdrumToken → Bool) (l : HumdrumLine) : Option Bool :=
  if getTokenCount l = 0 then some (equalChar l 1 '!' && equalChar l 0 '*')
  else isTerminatorLoop isTerminatorToken l.tokens

/-- A terminator test for the examples: the token text is `*-`. -/
def exampleIsTerminatorToken (tok : HumdrumToken) : Bool := decide (tok.text = ['*', '-'])

/-- An interpretation line with the two parsed tokens `*-`, `*-`. -/
def exampleTerminatorLine : HumdrumLine :=
  { text := str "*-\t*-", tokens := [some { text := str "*-" }, some { text := str "*-" }] }

/-- Embedding of `HumdrumLine::getTokens(vector<HTp>& list)`: the line after
the call and the value given to `list`. -/
def getTokens (l : HumdrumLine) : HumdrumLine × List HTp :=
  let l2 := if l.tokens.length = 0 then (createTokensFromLine l).1 else l
  (l2, l2.tokens)

end hum

namespace hum

/-! ## Classification -/

theorem equalChar_nil (l : HumdrumLine) (h : l.text = []) (index : Int) (ch : Char) :
    equalChar l index ch = false := by
  unfold equalChar
  rw [h]
  split
  · rfl
  · split
    · rfl
    · simp

theorem equalChar_zero_cons (l : HumdrumLine) (c : Char) (cs : Str) (h : l.text = c :: cs)
    (ch : Char) : equalChar l 0 ch = decide (c = ch) := by
  unfold equalChar
  rw [h]
  simp

theorem equalChar_one_single (l : HumdrumLine) (c : Char) (h : l.text = [c]) (ch : Char) :
    equalChar l 1 ch = false := by
  unfold equalChar
  rw [h]
  simp

theorem equalChar_one_cons (l : HumdrumLine) (c d : Char) (cs : Str)
    (h : l.text = c :: d :: cs) (ch : Char) : equalChar l 1 ch = decide (d = ch) := by
  unfold equalChar
  rw [h]
  simp

/-- C1: for every line text exactly one of the five predicates `isEmpty`,
`isComment`, `isInterp`, `isBarline`, `isData` holds. -/
theorem classification_exactly_one (l : HumdrumLine) :
    countTrue [isEmpty l, isComment l, isInterp l, isBarline l, isData l] = 1 := by
  cases htext : l.text with
  | nil =>
    simp [countTrue, isEmpty, isComment, isInterp, isBarline, isData,
      equalChar_nil l htext, htext]
  | cons c cs =>
    simp only [countTrue, isEmpty, isComment, isInterp, isBarline, isData,
      equalChar_zero_cons l c cs htext, htext]
    by_cases h1 : c = '!'
    · subst h1; simp
    · by_cases h2 : c = '*'
      · subst h2; simp
      · by_cases h3 : c = '='
        · subst h3; simp
        · simp [h1, h2, h3]

/-! ## `std::string::find` for a one-character needle -/

theorem findFrom_single (c : Char) (s : Str) (k : Nat) :
    findFrom [c] s k =
      if c ∈ s then some (k + (s.takeWhile (fun x => x != c)).length) else none := by
  induction s generalizing k with
  | nil => simp [findFrom]
  | cons x xs ih =>
    unfold findFrom
    by_cases hx : c = x
    · subst hx
      simp [List.isPrefixOf]
    · have hx2 : ¬ x = c := fun h => hx h.symm
      simp only [List.isPrefixOf, beq_iff_eq, hx, Bool.false_and, Bool.false_eq_true,
        if_false, ih, List.mem_cons, false_or]
      by_cases hm : c ∈ xs
      · simp [hm, List.takeWhile_cons, hx2, hx]
        omega
      · simp [hm, hx]

theorem find_single (c : Char) (s : Str) :
    find s [c] =
      if c ∈ s then some (s.takeWhile (fun x => x != c)).length else none := by
  unfold find
  rw [findFrom_single]
  simp

theorem toInt_find_single_mem (c : Char) (s : Str) (h : c ∈ s) :
    toInt (find s [c]) = ((s.takeWhile (fun x => x != c)).length : Int) := by
  rw [find_single, if_pos h]
  rfl

theorem toInt_find_single_not_mem (c : Char) (s : Str) (h : c ∉ s) :
    toInt (find s [c]) = npos := by
  rw [find_single, if_neg h]
  rfl

theorem toInt_find_single_eq_npos (c : Char) (s : Str) :
    toInt (find s [c]) = npos ↔ c ∉ s := by
  constructor
  · intro h hm
    rw [toInt_find_single_mem c s hm] at h
    simp [npos, toInt] at h
  · exact toInt_find_single_not_mem c s

/-- A character `c` occurs before the first `d` exactly when the index of
its first occurrence is smaller than that of `d`. -/
theorem mem_takeWhile_iff_lt (c d : Char) (hcd : c ≠ d) (s : Str) (hd : d ∈ s) :
    c ∈ s.takeWhile (fun x => x != d) ↔
      (c ∈ s ∧ (s.takeWhile (fun x => x != c)).length
        < (s.takeWhile (fun x => x != d)).length) := by
  induction s with
  | nil => simp at hd
  | cons x xs ih =>
    by_cases hxd : x = d
    · subst hxd
      simp [List.takeWhile_cons]
    · by_cases hxc : x = c
      · subst hxc
        simp [List.takeWhile_cons, hxd]
      · have hd2 : d ∈ xs := by
          rcases List.mem_cons.mp hd with h | h
          · exact absurd h.symm hxd
          · exact h
        have hcx : ¬ c = x := fun h => hxc h.symm
        simp [List.takeWhile_cons, hxd, hxc, hcx, ih hd2]

/-- The guard of `isReference` on the position of a blank `c` relative to
the colon: it fires exactly when `c` occurs before the first colon. -/
theorem blank_guard_iff (c : Char) (hc : c ≠ ':') (s : Str) (hd : ':' ∈ s) :
    (toInt (find s [c]) ≠ npos ∧ toInt (find s [c]) < toInt (find s [':'])) ↔
      c ∈ s.takeWhile (fun x => x != ':') := by
  rw [mem_takeWhile_iff_lt c ':' hc s hd, toInt_find_single_mem ':' s hd]
  by_cases hm : c ∈ s
  · rw [toInt_find_single_mem c s hm]
    simp [npos, toInt, hm]
  · simp [toInt_find_single_not_mem c s hm, hm]

/-! ## Reference records -/

theorem toSizeT_natCast (n : Nat) : toSizeT (n : Int) = n := by
  simp [toSizeT]

/-- The guards shared by `isReference`, `getReferenceKey` and
`getReferenceValue` pass exactly under the stated conditions on the text. -/
theorem isReference_true_iff (l : HumdrumLine) :
    isReference l = true ↔
      (5 ≤ l.text.length ∧ l.text.take 3 = ['!', '!', '!'] ∧ l.text[3]? ≠ some '!' ∧
        ':' ∈ l.text ∧
        ∀ c ∈ l.text.takeWhile (fun x => x != ':'), c ≠ ' ' ∧ c ≠ '\t') := by
  unfold isReference
  by_cases h5 : l.text.length < 5
  · simp only [h5, if_true]
    constructor
    · intro h; exact absurd h (by simp)
    · rintro ⟨h, _⟩; omega
  · rw [if_neg h5]
    by_cases h3 : substr l.text 0 3 = ['!', '!', '!']
    · have h3b : l.text.take 3 = ['!', '!', '!'] := by simpa [substr] using h3
      rw [if_neg (not_not.mpr h3)]
      by_cases h4 : l.text[3]? = some '!'
      · simp [h4]
      · rw [if_neg h4]
        by_cases hc : ':' ∈ l.text
        · have hsp := blank_guard_iff ' ' (by decide) l.text hc
          have htb := blank_guard_iff '\t' (by decide) l.text hc
          have hnp : ¬ toInt (find l.text [':']) = npos := by
            rw [toInt_find_single_eq_npos]; exact not_not.mpr hc
          simp only [hnp, if_false, hsp, htb]
          constructor
          · intro h
            refine ⟨by omega, h3b, h4, hc, ?_⟩
            intro c hmem
            constructor
            · rintro rfl
              simp [hmem] at h
            · rintro rfl
              by_cases hs : ' ' ∈ l.text.takeWhile (fun x => x != ':')
              · simp [hs] at h
              · simp [hs, hmem] at h
          · rintro ⟨_, _, _, _, h⟩
            have hs : ' ' ∉ l.text.takeWhile (fun x => x != ':') :=
              fun hm => (h _ hm).1 rfl
            have ht : '\t' ∉ l.text.takeWhile (fun x => x != ':') :=
              fun hm => (h _ hm).2 rfl
            simp [hs, ht]
        · have hnp : toInt (find l.text [':']) = npos :=
            toInt_find_single_not_mem ':' l.text hc
          simp [hnp, hc]
    · have h3b : ¬ l.text.take 3 = ['!', '!', '!'] := by simpa [substr] using h3
      simp [h3, h3b]

theorem getReferenceKey_eq (l : HumdrumLine) :
    getReferenceKey l =
      if isReference l = true then
        substr l.text 3 (toSizeT (toInt (find l.text [':']) - 3))
      else [] := by
  unfold getReferenceKey isReference
  by_cases h1 : l.text.length < 5
  · simp only [if_pos h1]; rfl
  · by_cases h2 : substr l.text 0 3 ≠ ['!', '!', '!']
    · simp only [if_neg h1, if_pos h2]; rfl
    · by_cases h3 : l.text[3]? = some '!'
      · simp only [if_neg h1, if_neg h2, if_pos h3]; rfl
      · by_cases h4 : toInt (find l.text [':']) = npos
        · simp only [if_neg h1, if_neg h2, if_neg h3, if_pos h4]; rfl
        · by_cases h5 : toInt (find l.text [' ']) ≠ npos ∧
              toInt (find l.text [' ']) < toInt (find l.text [':'])
          · simp only [if_neg h1, if_neg h2, if_neg h3, if_neg h4, if_pos h5]; rfl
          · by_cases h6 : toInt (find l.text ['\t']) ≠ npos ∧
                toInt (find l.text ['\t']) < toInt (find l.text [':'])
            · simp only [if_neg h1, if_neg h2, if_neg h3, if_neg h4, if_neg h5, if_pos h6]; rfl
            · simp only [if_neg h1, if_neg h2, if_neg h3, if_neg h4, if_neg h5, if_neg h6]; rfl

theorem getReferenceValue_eq (trim : Str → Str) (l : HumdrumLine) :
    getReferenceValue trim l =
      if isReference l = true then
        trim (substrFrom l.text (toSizeT (toInt (find l.text [':']) + 1)))
      else [] := by
  unfold getReferenceValue isReference
  by_cases h1 : l.text.length < 5
  · simp only [if_pos h1]; rfl
  · by_cases h2 : substr l.text 0 3 ≠ ['!', '!', '!']
    · simp only [if_neg h1, if_pos h2]; rfl
    · by_cases h3 : l.text[3]? = some '!'
      · simp only [if_neg h1, if_neg h2, if_pos h3]; rfl
      · by_cases h4 : toInt (find l.text [':']) = npos
        · simp only [if_neg h1, if_neg h2, if_neg h3, if_pos h4]; rfl
        · by_cases h5 : toInt (find l.text [' ']) ≠ npos ∧
              toInt (find l.text [' ']) < toInt (find l.text [':'])
          · simp only [if_neg h1, if_neg h2, if_neg h3, if_neg h4, if_pos h5]; rfl
          · by_cases h6 : toInt (find l.text ['\t']) ≠ npos ∧
                toInt (find l.text ['\t']) < toInt (find l.text [':'])
            · simp only [if_neg h1, if_neg h2, if_neg h3, if_neg h4, if_neg h5, if_pos h6]; rfl
            · simp only [if_neg h1, if_neg h2, if_neg h3, if_neg h4, if_neg h5, if_neg h6]; rfl

/-- A reference record splits as `!!!`, a colon-free key, the colon and the
rest, and the position found for the colon is the end of the key. -/
theorem reference_shape (l : HumdrumLine) (h : isReference l = true) :
    ∃ key rest : Str, l.text = ['!', '!', '!'] ++ key ++ [':'] ++ rest ∧ ':' ∉ key ∧
      toInt (find l.text [':']) = ((3 + key.length : Nat) : Int) := by
  obtain ⟨h5, h3, _, hc, _⟩ := (isReference_true_iff l).mp h
  revert h5 h3 hc
  generalize l.text = text
  intro h5 h3 hc
  match text, h5, h3, hc with
  | a :: b :: c :: s, _, h3, hc =>
    simp only [List.take_succ_cons, List.take_zero, List.cons.injEq, and_true] at h3
    obtain ⟨rfl, rfl, rfl⟩ := h3
    have hc2 : ':' ∈ s := by simpa using hc
    refine ⟨s.takeWhile (fun x => x != ':'), (s.dropWhile (fun x => x != ':')).tail, ?_, ?_, ?_⟩
    · have hd : s.dropWhile (fun x => x != ':') ≠ [] := by
        intro hnil
        have := List.takeWhile_append_dropWhile (fun x => x != ':') s
        rw [hnil, List.append_nil] at this
        have hmem : ':' ∈ s.takeWhile (fun x => x != ':') := by rw [this]; exact hc2
        have := List.mem_takeWhile_imp hmem
        simp at this
      have hhead : ∃ r, s.dropWhile (fun x => x != ':') = ':' :: r := by
        cases hdw : s.dropWhile (fun x => x != ':') with
        | nil => exact absurd hdw hd
        | cons y r =>
          have hy := List.head_dropWhile_not (fun x => x != ':') s (by rw [hdw]; simp)
          simp only [hdw, List.head_cons] at hy
          have : y = ':' := by simpa using hy
          exact ⟨r, by rw [this]⟩
      obtain ⟨r, hr⟩ := hhead
      have hsplit := List.takeWhile_append_dropWhile (fun x => x != ':') s
      rw [hr] at hsplit ⊢
      simp only [List.tail_cons, List.cons_append, List.nil_append, List.append_assoc,
        List.cons.injEq, true_and]
      exact hsplit.symm
    · intro hmem
      have := List.mem_takeWhile_imp hmem
      simp at this
    · rw [toInt_find_single_mem ':' _ hc]
      simp [List.takeWhile_cons]
      omega

/-! ## `std::string::find` for an arbitrary needle -/

theorem findFrom_some (needle : Str) (s : Str) (k j : Nat)
    (h : findFrom needle s k = some j) :
    ∃ pre post : Str, FirstOccurrence needle s pre post ∧ j = k + pre.length := by
  induction s generalizing k with
  | nil =>
    unfold findFrom at h
    by_cases hn : needle = []
    · subst hn
      simp only [if_true, Option.some.injEq] at h
      refine ⟨[], [], ⟨by simp, ?_⟩, by simp [h]⟩
      intro pre2 post2 _
      simp
    · simp [hn] at h
  | cons c cs ih =>
    unfold findFrom at h
    by_cases hp : needle.isPrefixOf (c :: cs) = true
    · rw [if_pos hp] at h
      simp only [Option.some.injEq] at h
      obtain ⟨t, ht⟩ := List.isPrefixOf_iff_prefix.mp hp
      refine ⟨[], t, ⟨by simp [ht], ?_⟩, by simp [h]⟩
      intro pre2 post2 _
      simp
    · rw [if_neg hp] at h
      obtain ⟨pre, post, ⟨heq, hmin⟩, hj⟩ := ih (k + 1) h
      refine ⟨c :: pre, post, ⟨by simp [heq], ?_⟩, by simp [hj]; omega⟩
      intro pre2 post2 h2
      cases pre2 with
      | nil =>
        exfalso
        apply hp
        apply List.isPrefixOf_iff_prefix.mpr
        exact ⟨post2, by simpa using h2.symm⟩
      | cons d p =>
        simp only [List.cons_append, List.cons.injEq] at h2
        have := hmin p post2 h2.2
        simp
        omega

theorem findFrom_none (needle : Str) (s : Str) (k : Nat)
    (h : findFrom needle s k = none) (pre post : Str) : s ≠ pre ++ needle ++ post := by
  induction s generalizing k pre with
  | nil =>
    unfold findFrom at h
    by_cases hn : needle = []
    · simp [hn] at h
    · intro h2
      have : needle = [] := by
        have h3 := congrArg List.length h2
        simp at h3
        exact List.length_eq_zero.mp (by omega)
      exact hn this
  | cons c cs ih =>
    unfold findFrom at h
    by_cases hp : needle.isPrefixOf (c :: cs) = true
    · simp [hp] at h
    · rw [if_neg hp] at h
      intro h2
      cases pre with
      | nil =>
        apply hp
        apply List.isPrefixOf_iff_prefix.mpr
        exact ⟨post, by simpa using h2.symm⟩
      | cons d p =>
        simp only [List.cons_append, List.cons.injEq] at h2
        exact ih (k + 1) h p h2.2

theorem find_some (s needle : Str) (j : Nat) (h : find s needle = some j) :
    ∃ pre post : Str, FirstOccurrence needle s pre post ∧ j = pre.length := by
  obtain ⟨pre, post, hf, hj⟩ := findFrom_some needle s 0 j h
  exact ⟨pre, post, hf, by omega⟩

theorem find_none (s needle : Str) (h : find s needle = none) (pre post : Str) :
    s ≠ pre ++ needle ++ post :=
  findFrom_none needle s 0 h pre post

/-- The split performed by `printXml` at a marker found at `pre.length`. -/
theorem substr_of_split (pre needle post : Str) :
    substr (pre ++ needle ++ post) 0 pre.length = pre ∧
      substrFrom (pre ++ needle ++ post) (pre.length + needle.length) = post := by
  constructor
  · simp [substr, List.append_assoc]
  · simp only [substrFrom, List.append_assoc]
    rw [← List.append_assoc, show pre.length + needle.length = (pre ++ needle).length by simp]
    exact List.drop_left _ _

/-! ## Refinement of the classification predicates -/

theorem isCommentGlobal_of_isReference (l : HumdrumLine) (h : isReference l = true) :
    isCommentGlobal l = true := by
  obtain ⟨key, rest, htext, _, _⟩ := reference_shape l h
  have htext2 : l.text = '!' :: '!' :: ('!' :: (key ++ [':'] ++ rest)) := by
    simpa using htext
  simp [isCommentGlobal, equalChar_zero_cons l _ _ htext2, equalChar_one_cons l _ _ _ htext2]

/-- C5: the classification predicates refine one another: a reference
record is a global comment, a global comment is a comment, an exclusive
interpretation is an interpretation, and a line is a comment iff exactly one
of `isCommentLocal` and `isCommentGlobal` holds. -/
theorem classification_refinement (l : HumdrumLine) :
    (isReference l = true → isCommentGlobal l = true) ∧
    (isCommentGlobal l = true → isComment l = true) ∧
    (isExclusive l = true → isInterp l = true) ∧
    (isComment l = true ↔ countTrue [isCommentLocal l, isCommentGlobal l] = 1) := by
  refine ⟨isCommentGlobal_of_isReference l, ?_, ?_, ?_⟩
  · simp only [isCommentGlobal, isComment, Bool.and_eq_true]
    exact fun h => h.1
  · simp only [isExclusive, isInterp, Bool.and_eq_true]
    exact fun h => h.2
  · simp only [isComment, isCommentLocal, isCommentGlobal, countTrue]
    cases equalChar l 0 '!' <;> cases equalChar l 1 '!' <;> simp

/-- Witness of C5 on the reference record `!!!OTL: Title`. -/
theorem classification_refinement_witness :
    isReference (lineOf "!!!OTL: Title") = true ∧
      isCommentGlobal (lineOf "!!!OTL: Title") = true :=
  ⟨by decide, (classification_refinement (lineOf "!!!OTL: Title")).1 (by decide)⟩

/-- C6: `hasSpines` holds iff the line is neither empty nor a global
comment, `isGlobal` is its negation, and a line with spines is exactly one of
local comment, interpretation, barline or data. -/
theorem hasSpines_characterisation (l : HumdrumLine) :
    (hasSpines l = true ↔ (isEmpty l = false ∧ isCommentGlobal l = false)) ∧
    isGlobal l = !hasSpines l ∧
    (hasSpines l = true →
      countTrue [isCommentLocal l, isInterp l, isBarline l, isData l] = 1) := by
  refine ⟨?_, rfl, ?_⟩
  · unfold hasSpines
    cases isEmpty l <;> cases isCommentGlobal l <;> simp
  · match htext : l.text with
    | [] => simp [hasSpines, isEmpty, htext]
    | [c] =>
      simp only [hasSpines, countTrue, isEmpty, isComment, isCommentLocal, isCommentGlobal,
        isInterp, isBarline, isData, equalChar_zero_cons l c [] htext,
        equalChar_one_single l c htext, htext]
      by_cases h1 : c = '!'
      · subst h1; simp
      · by_cases h2 : c = '*'
        · subst h2; simp
        · by_cases h3 : c = '='
          · subst h3; simp
          · simp [h1, h2, h3]
    | c :: d :: cs =>
      simp only [hasSpines, countTrue, isEmpty, isComment, isCommentLocal, isCommentGlobal,
        isInterp, isBarline, isData, equalChar_zero_cons l c (d :: cs) htext,
        equalChar_one_cons l c d cs htext, htext]
      by_cases h1 : c = '!'
      · subst h1
        by_cases h4 : d = '!'
        · subst h4; simp
        · simp [h4]
      · by_cases h2 : c = '*'
        · subst h2; simp
        · by_cases h3 : c = '='
          · subst h3; simp
          · simp [h1, h2, h3]

/-- Witness of C6 on the data line `4c` followed by a tab and `4d`. -/
theorem hasSpines_characterisation_witness :
    hasSpines (lineOf "4c\t4d") = true ∧
      countTrue [isCommentLocal (lineOf "4c\t4d"), isInterp (lineOf "4c\t4d"),
        isBarline (lineOf "4c\t4d"), isData (lineOf "4c\t4d")] = 1 :=
  ⟨by decide, (hasSpines_characterisation (lineOf "4c\t4d")).2.2 (by decide)⟩

/-! ## Reference records: the claims -/

/-- C2 (as stated): on the four-character line `!!!:` the stated conditions
hold (it starts with `!!!`, its fourth character is not `!`, it contains a
colon and nothing stands before it but `!!!`), yet `isReference` is false. -/
theorem isReference_stated_fails :
    ¬ (isReference (lineOf "!!!:") = true ↔
        ((lineOf "!!!:").text.take 3 = ['!', '!', '!'] ∧
          (lineOf "!!!:").text[3]? ≠ some '!' ∧ ':' ∈ (lineOf "!!!:").text ∧
          ∀ c ∈ (lineOf "!!!:").text.takeWhile (fun x => x != ':'),
            c ≠ ' ' ∧ c ≠ '\t')) := by
  intro h
  have hfalse : isReference (lineOf "!!!:") = false := by decide
  rw [hfalse] at h
  have := h.mpr ⟨by decide, by decide, by decide, by decide⟩
  exact absurd this (by decide)

/-- C2 (amended): `isReference` is true iff the text has at least five
characters, starts with `!!!`, its fourth character is not `!`, it contains
a colon, and no space or tab occurs before the first colon; and
`!!!bad line without colon` is not a reference record. -/
theorem isReference_iff (l : HumdrumLine) :
    (isReference l = true ↔
      (5 ≤ l.text.length ∧ l.text.take 3 = ['!', '!', '!'] ∧ l.text[3]? ≠ some '!' ∧
        ':' ∈ l.text ∧
        ∀ c ∈ l.text.takeWhile (fun x => x != ':'), c ≠ ' ' ∧ c ≠ '\t')) ∧
    isReference (lineOf "!!!bad line without colon") = false :=
  ⟨isReference_true_iff l, by decide⟩

/-- C3: on a reference record `getReferenceKey` is the text between the
leading `!!!` and the first colon and `getReferenceValue` is the trimmed text
after that colon; on any other line both are empty; `!!!OTL: Title` has key
`OTL` and value `Title`. -/
theorem reference_key_value (trim : Str → Str) (l : HumdrumLine) :
    (isReference l = true →
      ∃ key rest : Str, l.text = ['!', '!', '!'] ++ key ++ [':'] ++ rest ∧ ':' ∉ key ∧
        getReferenceKey l = key ∧ getReferenceValue trim l = trim rest) ∧
    (isReference l = false →
      getReferenceKey l = [] ∧ getReferenceValue trim l = []) ∧
    (getReferenceKey (lineOf "!!!OTL: Title") = str "OTL" ∧
      getReferenceValue trimWhiteSpace (lineOf "!!!OTL: Title") = str "Title") := by
  refine ⟨?_, ?_, by decide, by decide⟩
  · intro h
    obtain ⟨key, rest, htext, hkey, hloc⟩ := reference_shape l h
    refine ⟨key, rest, htext, hkey, ?_, ?_⟩
    · rw [getReferenceKey_eq, if_pos h, hloc, htext]
      have : ((3 + key.length : Nat) : Int) - 3 = (key.length : Int) := by omega
      rw [this, toSizeT_natCast]
      simp [substr]
    · rw [getReferenceValue_eq, if_pos h, hloc, htext]
      have : ((3 + key.length : Nat) : Int) + 1 = ((3 + key.length + 1 : Nat) : Int) := by
        omega
      rw [this, toSizeT_natCast]
      simp only [substrFrom]
      congr 1
      have hlen : 3 + key.length + 1 = (['!', '!', '!'] ++ key ++ [':']).length := by
        simp
        omega
      rw [hlen]
      exact List.drop_left _ _
  · intro h
    rw [getReferenceKey_eq, getReferenceValue_eq]
    simp [h]

/-- Witness of C3 on the reference record `!!!OTL: Title`. -/
theorem reference_key_value_witness :
    isReference (lineOf "!!!OTL: Title") = true ∧
      ∃ key rest : Str, (lineOf "!!!OTL: Title").text
          = ['!', '!', '!'] ++ key ++ [':'] ++ rest ∧ ':' ∉ key ∧
        getReferenceKey (lineOf "!!!OTL: Title") = key ∧
        getReferenceValue trimWhiteSpace (lineOf "!!!OTL: Title") = trimWhiteSpace rest :=
  ⟨by decide, (reference_key_value trimWhiteSpace (lineOf "!!!OTL: Title")).1 (by decide)⟩

/-- The split of `printXml` for an arbitrary key text that contains `@`. -/
theorem printXmlReferenceKey_split (key : Str) (hat : '@' ∈ key) :
    (∃ pre post : Str, FirstOccurrence ['@', '@'] key pre post ∧
        (printXmlReferenceKey key).key = pre ∧
        (printXmlReferenceKey key).language = post) ∨
    ((∀ pre post : Str, key ≠ pre ++ ['@', '@'] ++ post) ∧
      ∃ pre post : Str, FirstOccurrence ['@'] key pre post ∧
        (printXmlReferenceKey key).key = pre ∧
        (printXmlReferenceKey key).language = post) := by
  unfold printXmlReferenceKey
  cases h2 : find key ['@', '@'] with
  | some loc =>
    left
    obtain ⟨pre, post, hf, hloc⟩ := find_some key _ loc h2
    refine ⟨pre, post, hf, ?_, ?_⟩
    · simp only
      rw [hloc, hf.1]
      exact (substr_of_split pre _ post).1
    · simp only
      rw [hloc, hf.1]
      exact (substr_of_split pre ['@', '@'] post).2
  | none =>
    right
    refine ⟨find_none key _ h2, ?_⟩
    cases h1 : find key ['@'] with
    | some loc =>
      obtain ⟨pre, post, hf, hloc⟩ := find_some key _ loc h1
      refine ⟨pre, post, hf, ?_, ?_⟩
      · simp only
        rw [hloc, hf.1]
        exact (substr_of_split pre _ post).1
      · simp only
        rw [hloc, hf.1]
        exact (substr_of_split pre ['@'] post).2
    | none =>
      exfalso
      obtain ⟨pre, post, hsplit⟩ := List.append_of_mem hat
      exact find_none key _ h1 pre post (by simp [hsplit])

/-- C4: for `!!!OTL@en: Title` the reported key is `OTL` and the language
is `en`; for every reference record whose key text contains `@`, the
reported key is the part before the first `@@` (before the first `@` when
there is no `@@`) and the language is the part after that marker. -/
theorem reference_language_split :
    ((printXmlReferenceKey (getReferenceKey (lineOf "!!!OTL@en: Title"))).key = str "OTL" ∧
      (printXmlReferenceKey (getReferenceKey (lineOf "!!!OTL@en: Title"))).language
        = str "en") ∧
    ∀ l : HumdrumLine, isReference l = true → '@' ∈ getReferenceKey l →
      ((∃ pre post : Str, FirstOccurrence ['@', '@'] (getReferenceKey l) pre post ∧
          (printXmlReferenceKey (getReferenceKey l)).key = pre ∧
          (printXmlReferenceKey (getReferenceKey l)).language = post) ∨
       ((∀ pre post : Str, getReferenceKey l ≠ pre ++ ['@', '@'] ++ post) ∧
        ∃ pre post : Str, FirstOccurrence ['@'] (getReferenceKey l) pre post ∧
          (printXmlReferenceKey (getReferenceKey l)).key = pre ∧
          (printXmlReferenceKey (getReferenceKey l)).language = post)) :=
  ⟨⟨by decide, by decide⟩, fun l _ hat => printXmlReferenceKey_split (getReferenceKey l) hat⟩

/-- Witness of C4 on the reference record `!!!OTL@@en: Title`. -/
theorem reference_language_split_witness :
    isReference (lineOf "!!!OTL@@en: Title") = true ∧
    '@' ∈ getReferenceKey (lineOf "!!!OTL@@en: Title") ∧
    ((∃ pre post : Str,
        FirstOccurrence ['@', '@'] (getReferenceKey (lineOf "!!!OTL@@en: Title")) pre post ∧
        (printXmlReferenceKey (getReferenceKey (lineOf "!!!OTL@@en: Title"))).key = pre ∧
        (printXmlReferenceKey (getReferenceKey (lineOf "!!!OTL@@en: Title"))).language
          = post) ∨
     ((∀ pre post : Str,
        getReferenceKey (lineOf "!!!OTL@@en: Title") ≠ pre ++ ['@', '@'] ++ post) ∧
      ∃ pre post : Str,
        FirstOccurrence ['@'] (getReferenceKey (lineOf "!!!OTL@@en: Title")) pre post ∧
        (printXmlReferenceKey (getReferenceKey (lineOf "!!!OTL@@en: Title"))).key = pre ∧
        (printXmlReferenceKey (getReferenceKey (lineOf "!!!OTL@@en: Title"))).language
          = post)) :=
  ⟨by decide, by decide,
    reference_language_split.2 (lineOf "!!!OTL@@en: Title") (by decide) (by decide)⟩

/-! ## Tokenization -/

theorem modifyHead_nil_append (L : List Str) :
    L.modifyHead (fun x => ([] : Str) ++ x) = L := by
  cases L <;> simp [List.modifyHead]

theorem modifyHead_append_cons (ts : Str) (c : Char) (L : List Str) :
    (L.modifyHead (fun x => c :: x)).modifyHead (fun x => ts ++ x)
      = L.modifyHead (fun x => (ts ++ [c]) ++ x) := by
  cases L <;> simp [List.modifyHead]

theorem splitOn_tab_cons (c : Char) (cs : Str) :
    (c :: cs).splitOn '\t' =
      if c = '\t' then [] :: cs.splitOn '\t'
      else (cs.splitOn '\t').modifyHead (fun x => c :: x) := by
  simp only [List.splitOn, List.splitOnP_cons]
  by_cases h : c = '\t'
  · simp [h]
  · simp [h]

/-- The loop of `createTokensFromLine` splits the text on tabs: the fields
before the last tab become tokens (the first one prefixed by the pending
`tstring`) and the field after the last tab is left in `tstring`. -/
theorem createTokensLoop_spec (s ts : Str) (toks : List HTp) :
    ∃ (init : List Str) (last : Str),
      (s.splitOn '\t').modifyHead (fun x => ts ++ x) = init ++ [last] ∧
      createTokensLoop s ts toks = (last, toks ++ init.map newToken) := by
  induction s generalizing ts toks with
  | nil => exact ⟨[], ts, by simp [List.splitOn, List.modifyHead], by simp [createTokensLoop]⟩
  | cons c cs ih =>
    unfold createTokensLoop
    rw [splitOn_tab_cons]
    by_cases h : c = '\t'
    · rw [if_pos h, if_pos h]
      obtain ⟨init, last, hsplit, hloop⟩ := ih [] (toks ++ [newToken ts])
      rw [modifyHead_nil_append] at hsplit
      refine ⟨ts :: init, last, by simp [List.modifyHead, hsplit], ?_⟩
      rw [hloop]
      simp
    · rw [if_neg h, if_neg h]
      obtain ⟨init, last, hsplit, hloop⟩ := ih (ts ++ [c]) toks
      exact ⟨init, last, by rw [modifyHead_append_cons, hsplit], hloop⟩

theorem splitOn_tab_ne_nil (s : Str) : s.splitOn '\t' ≠ [] :=
  List.splitOnP_ne_nil _ _

theorem length_modifyHead_cons (c : Char) (L : List Str) :
    (L.modifyHead (fun x => c :: x)).length = L.length := by
  cases L <;> simp [List.modifyHead]

/-- Splitting on tabs yields one field more than there are tabs. -/
theorem length_splitOn_tab (s : Str) :
    (s.splitOn '\t').length = s.count '\t' + 1 := by
  induction s with
  | nil => simp [List.splitOn_nil]
  | cons c cs ih =>
    rw [splitOn_tab_cons]
    by_cases h : c = '\t'
    · subst h
      simp [ih]
    · have h2 : ¬ '\t' = c := fun e => h e.symm
      rw [if_neg h, length_modifyHead_cons, ih, List.count_cons]
      simp [h]

/-- The field after the last tab is empty exactly when the text is empty or
ends with a tab. -/
theorem getLast_splitOn_tab_nil_iff (s : Str) :
    (s.splitOn '\t').getLast? = some [] ↔ (s = [] ∨ s.getLast? = some '\t') := by
  induction s with
  | nil => simp [List.splitOn_nil]
  | cons c cs ih =>
    rw [splitOn_tab_cons]
    have hlen := length_splitOn_tab cs
    by_cases h : c = '\t'
    · subst h
      rw [if_pos rfl]
      cases hL : cs.splitOn '\t' with
      | nil => exact absurd hL (splitOn_tab_ne_nil cs)
      | cons p ps =>
        rw [List.getLast?_cons_cons, ← hL, ih]
        cases cs with
        | nil => simp
        | cons d ds => simp
    · rw [if_neg h]
      cases hL : cs.splitOn '\t' with
      | nil => exact absurd hL (splitOn_tab_ne_nil cs)
      | cons p ps =>
        cases ps with
        | nil =>
          rw [hL] at hlen
          have hcount : cs.count '\t' = 0 := by simpa using hlen.symm
          have hnot : '\t' ∉ cs := List.count_eq_zero.mp hcount
          simp only [List.modifyHead, List.getLast?_singleton, Option.some.injEq,
            reduceCtorEq, false_iff, not_or]
          refine ⟨by simp, ?_⟩
          intro hlast
          have hmem := List.mem_of_getLast?_eq_some hlast
          rcases List.mem_cons.mp hmem with h1 | h1
          · exact h h1.symm
          · exact hnot h1
        | cons q qs =>
          rw [hL] at hlen ih
          have hne : cs ≠ [] := by
            intro e
            subst e
            simp at hlen
          simp only [List.modifyHead, List.getLast?_cons_cons] at ih ⊢
          rw [ih]
          cases cs with
          | nil => exact absurd rfl hne
          | cons d ds => simp

theorem intercalate_tab_cons_cons (x y : Str) (ys : List Str) :
    ['\t'].intercalate (x :: y :: ys) = x ++ ['\t'] ++ ['\t'].intercalate (y :: ys) := by
  simp [List.intercalate, List.intersperse]

/-- The loop of `createLineFromTokens` on non-`NULL` tokens appends the
token texts joined by tabs. -/
theorem createLineLoop_some (toks : List HumdrumToken) (iline : Str) :
    createLineLoop (toks.map some) iline =
      some (iline ++ ['\t'].intercalate (toks.map (fun t => t.text))) := by
  induction toks generalizing iline with
  | nil => simp [createLineLoop, List.intercalate]
  | cons t rest ih =>
    cases rest with
    | nil => simp [createLineLoop, List.intercalate]
    | cons u us =>
      rw [List.map_cons, createLineLoop, if_pos (by simp), ih]
      simp only [List.map_cons]
      rw [intercalate_tab_cons_cons]
      simp

theorem map_newToken (L : List Str) :
    L.map newToken = (L.map (fun t => ({ text := t } : HumdrumToken))).map some := by
  simp [newToken]

/-- Joining the tokens made from a list of field texts gives the fields
joined by tabs. -/
theorem createLineLoop_newToken (L : List Str) :
    createLineLoop (L.map newToken) [] = some (['\t'].intercalate L) := by
  rw [map_newToken, createLineLoop_some]
  simp [Function.comp_def]

/-- A line whose tokens were made from the field texts `L` and whose text
is already these fields joined by tabs is left as it is. -/
theorem createLineFromTokens_self (r : HumdrumLine) (L : List Str)
    (htok : r.tokens = L.map newToken) (htext : r.text = ['\t'].intercalate L) :
    createLineFromTokens r = some r := by
  have hloop : createLineLoop r.tokens [] = some r.text := by
    rw [htok, createLineLoop_newToken, htext]
  unfold createLineFromTokens
  rw [hloop]
  rfl

/-- The tokens of a line that is neither empty nor starts with `!!`. -/
theorem createTokensFromLine_tokens (l : HumdrumLine) (hne : l.text ≠ [])
    (hnc : l.text.take 2 ≠ ['!', '!']) :
    (createTokensFromLine l).1.tokens = (splitTabsDropEmptyLast l.text).map newToken := by
  obtain ⟨init, last, hsplit, hloop⟩ := createTokensLoop_spec l.text [] []
  rw [modifyHead_nil_append] at hsplit
  have hlen : ¬ l.text.length = 0 := fun h => hne (List.length_eq_zero.mp h)
  have hnc2 : ¬ substr l.text 0 2 = ['!', '!'] := by simpa [substr] using hnc
  unfold createTokensFromLine splitTabsDropEmptyLast
  simp only [if_neg hlen, if_neg hnc2, hloop, hsplit, List.nil_append,
    List.getLast?_concat, Option.some.injEq, List.dropLast_concat]
  by_cases hl : last = []
  · simp [hl]
  · have : last.length > 0 := List.length_pos.mpr hl
    simp [hl, this]

/-- A text without a NUL character survives the passage through a C string. -/
theorem fromCStr_of_no_nul (s : Str) (h : '\x00' ∉ s) : fromCStr s = s := by
  unfold fromCStr
  rw [List.takeWhile_eq_self_iff]
  intro c hc
  have : c ≠ '\x00' := fun e => h (e ▸ hc)
  simpa using this

/-- On an empty line or a line that starts with `!!`, `createTokensFromLine`
makes exactly one token and returns 1; the token holds the line text up to
its first NUL character, hence the whole text when there is none. -/
theorem createTokensFromLine_single (l : HumdrumLine)
    (h : l.text = [] ∨ l.text.take 2 = ['!', '!']) :
    (createTokensFromLine l).1.tokens = [newToken (fromCStr l.text)] ∧
      (createTokensFromLine l).2 = 1 ∧
      ('\x00' ∉ l.text → (createTokensFromLine l).1.tokens = [newToken l.text]) := by
  have key : (createTokensFromLine l).1.tokens = [newToken (fromCStr l.text)] ∧
      (createTokensFromLine l).2 = 1 := by
    unfold createTokensFromLine
    by_cases h0 : l.text.length = 0
    · have hnil : l.text = [] := List.length_eq_zero.mp h0
      simp [h0, hnil, fromCStr]
    · have h2 : substr l.text 0 2 = ['!', '!'] := by
        rcases h with h | h
        · exact absurd (by simp [h]) h0
        · simpa [substr] using h
      simp [h0, h2]
  refine ⟨key.1, key.2, ?_⟩
  intro hnul
  rw [key.1, fromCStr_of_no_nul _ hnul]

/-- C7 (failing input): on the global comment `!!a`, NUL, `b` the single
token made by `createTokensFromLine` holds `!!a`, not the whole line text;
the function makes one token and returns 1 as claimed. -/
theorem createTokensFromLine_comment_nul :
    (lineOf "!!a\x00b").text.take 2 = ['!', '!'] ∧
    (createTokensFromLine (lineOf "!!a\x00b")).1.tokens = [newToken (str "!!a")] ∧
    (createTokensFromLine (lineOf "!!a\x00b")).2 = 1 ∧
    tokenTexts (createTokensFromLine (lineOf "!!a\x00b")).1.tokens
      ≠ [(lineOf "!!a\x00b").text] := by
  decide

/-- C8 (as stated): the line `a` followed by one tab is non-empty and does
not start with `!!`, yet its tokens are not the two fields of the split on
tab and the returned count is not the number of tabs plus one. -/
theorem createTokensFromLine_stated_fails :
    (lineOf "a\t").text ≠ [] ∧ (lineOf "a\t").text.take 2 ≠ ['!', '!'] ∧
    tokenTexts (createTokensFromLine (lineOf "a\t")).1.tokens
      ≠ (lineOf "a\t").text.splitOn '\t' ∧
    (createTokensFromLine (lineOf "a\t")).2
      ≠ (((lineOf "a\t").text.count '\t' + 1 : Nat) : Int) := by
  decide

/-- C8 (amended): on a non-empty line that does not start with `!!`,
`createTokensFromLine` makes one token per field of the split on tab, in
order, except that the field after the final tab is left out when it is
empty; the returned value is the token count, which is the number of tabs
plus one when the text does not end with a tab and the number of tabs when
it does. -/
theorem createTokensFromLine_fields (l : HumdrumLine) (hne : l.text ≠ [])
    (hnc : l.text.take 2 ≠ ['!', '!']) :
    (createTokensFromLine l).1.tokens = (splitTabsDropEmptyLast l.text).map newToken ∧
    (createTokensFromLine l).2 = ((createTokensFromLine l).1.tokens.length : Int) ∧
    (createTokensFromLine l).2 =
      if l.text.getLast? = some '\t' then ((l.text.count '\t' : Nat) : Int)
      else ((l.text.count '\t' + 1 : Nat) : Int) := by
  have htok := createTokensFromLine_tokens l hne hnc
  have hret : (createTokensFromLine l).2 = ((createTokensFromLine l).1.tokens.length : Int) :=
    rfl
  refine ⟨htok, hret, ?_⟩
  rw [hret, htok, List.length_map]
  unfold splitTabsDropEmptyLast
  have hiff := getLast_splitOn_tab_nil_iff l.text
  have hlen := length_splitOn_tab l.text
  by_cases ht : l.text.getLast? = some '\t'
  · rw [if_pos (hiff.mpr (Or.inr ht)), if_pos ht, List.length_dropLast, hlen]
    simp
  · have : ¬ (l.text.splitOn '\t').getLast? = some [] := by
      intro hh
      rcases hiff.mp hh with h1 | h1
      · exact hne h1
      · exact ht h1
    rw [if_neg this, if_neg ht, hlen]

/-- Witness of C8 (amended) on the line `a`, tab, `b`, tab. -/
theorem createTokensFromLine_fields_witness :
    (lineOf "a\tb\t").text ≠ [] ∧ (lineOf "a\tb\t").text.take 2 ≠ ['!', '!'] ∧
    (createTokensFromLine (lineOf "a\tb\t")).1.tokens
      = (splitTabsDropEmptyLast (lineOf "a\tb\t").text).map newToken ∧
    (createTokensFromLine (lineOf "a\tb\t")).2
      = ((createTokensFromLine (lineOf "a\tb\t")).1.tokens.length : Int) ∧
    (createTokensFromLine (lineOf "a\tb\t")).2 =
      if (lineOf "a\tb\t").text.getLast? = some '\t'
      then (((lineOf "a\tb\t").text.count '\t' : Nat) : Int)
      else (((lineOf "a\tb\t").text.count '\t' + 1 : Nat) : Int) :=
  ⟨by decide, by decide,
    createTokensFromLine_fields (lineOf "a\tb\t") (by decide) (by decide)⟩

/-- C9 (as stated): the line `a` followed by one tab is not a comment, yet
tokenizing it and rebuilding the text from the tokens gives `a`, which is
not the original text. -/
theorem roundtrip_stated_fails :
    isComment (lineOf "a\t") = false ∧
    (createLineFromTokens (createTokensFromLine (lineOf "a\t")).1).map (fun r => r.text)
      = some (str "a") ∧
    (createLineFromTokens (createTokensFromLine (lineOf "a\t")).1).map (fun r => r.text)
      ≠ some (lineOf "a\t").text := by
  decide

/-- C9 (amended): for every line text that is not a comment and has no tab
as its last character, `createTokensFromLine` followed by
`createLineFromTokens` succeeds and leaves the line text equal to the original text. -/
theorem tokens_roundtrip (l : HumdrumLine) (hc : isComment l = false)
    (ht : l.text.getLast? ≠ some '\t') :
    createLineFromTokens (createTokensFromLine l).1 = some (createTokensFromLine l).1 ∧
    (createTokensFromLine l).1.text = l.text := by
  refine ⟨?_, rfl⟩
  by_cases hne : l.text = []
  · have htok : (createTokensFromLine l).1.tokens = [([] : Str)].map newToken := by
      simp [createTokensFromLine, hne]
    exact createLineFromTokens_self _ _ htok (by simpa [List.intercalate] using hne)
  · have hnc : l.text.take 2 ≠ ['!', '!'] := by
      cases htext : l.text with
      | nil => exact absurd htext hne
      | cons c cs =>
        simp only [isComment, equalChar_zero_cons l c cs htext, decide_eq_false_iff_not] at hc
        intro h
        cases cs with
        | nil => simp at h
        | cons d ds =>
          simp only [List.take_succ_cons, List.take_zero, List.cons.injEq, and_true] at h
          exact hc h.1
    have htok := createTokensFromLine_tokens l hne hnc
    have hlast : ¬ (l.text.splitOn '\t').getLast? = some [] := by
      intro hh
      rcases (getLast_splitOn_tab_nil_iff l.text).mp hh with h1 | h1
      · exact hne h1
      · exact ht h1
    have hsplit : splitTabsDropEmptyLast l.text = l.text.splitOn '\t' := by
      unfold splitTabsDropEmptyLast
      rw [if_neg hlast]
    rw [hsplit] at htok
    exact createLineFromTokens_self _ _ htok (List.intercalate_splitOn l.text '\t').symm

/-- Witness of C9 (amended) on the data line `4c`, tab, `4d`. -/
theorem tokens_roundtrip_witness :
    isComment (lineOf "4c\t4d") = false ∧ (lineOf "4c\t4d").text.getLast? ≠ some '\t' ∧
    createLineFromTokens (createTokensFromLine (lineOf "4c\t4d")).1
      = some (createTokensFromLine (lineOf "4c\t4d")).1 ∧
    (createTokensFromLine (lineOf "4c\t4d")).1.text = (lineOf "4c\t4d").text :=
  ⟨by decide, by decide, tokens_roundtrip (lineOf "4c\t4d") (by decide) (by decide)⟩

/-- C10: for every list of tokens, `createLineFromTokens` sets the line text
to the token texts joined by single tabs in token order and leaves the
tokens unchanged; the empty list gives the empty text. -/
theorem createLineFromTokens_joins (l : HumdrumLine) (toks : List HumdrumToken) :
    createLineFromTokens { l with tokens := toks.map some } =
      some { l with text := ['\t'].intercalate (toks.map (fun t => t.text)),
                    tokens := toks.map some } ∧
    createLineFromTokens { l with tokens := [] } = some { l with text := [], tokens := [] } := by
  constructor
  · unfold createLineFromTokens
    simp only [createLineLoop_some, List.nil_append, Option.map_some']
  · simp [createLineFromTokens, createLineLoop]

end hum

namespace hum

/-! ## Timing -/

theorem isBarline_iff_head (l : HumdrumLine) :
    isBarline l = true ↔ l.text.head? = some '=' := by
  unfold isBarline
  cases htext : l.text with
  | nil => simp [equalChar_nil l htext]
  | cons c cs => simp [equalChar_zero_cons l c cs htext]

/-- C16: after `setDuration(d)`, `getDuration()` is `d` when `d` is not
negative and `0` when `d` is negative, so the stored duration is never
negative after a call of `setDuration`. -/
theorem setDuration_getDuration (l : HumdrumLine) (d : HumNum) :
    (0 ≤ d → getDuration (setDuration l d) = d) ∧
    (d < 0 → getDuration (setDuration l d) = 0) ∧
    0 ≤ getDuration (setDuration l d) := by
  unfold setDuration getDuration HumNum.isNonNegative
  by_cases h : 0 ≤ d
  · simp [h]
  · have h2 : d < 0 := lt_of_not_ge h
    simp [h, h2]

/-- Witness of C16 on the durations `3/4` and `-1/2`. -/
theorem setDuration_getDuration_witness :
    getDuration (setDuration (lineOf "4c") (3 / 4)) = 3 / 4 ∧
    getDuration (setDuration (lineOf "4c") (-1 / 2)) = 0 :=
  ⟨(setDuration_getDuration (lineOf "4c") (3 / 4)).1 (by norm_num),
   (setDuration_getDuration (lineOf "4c") (-1 / 2)).2.1 (by norm_num)⟩

/-- C17: `getBeat(b)` is `0` when `b` is zero and is otherwise
`durationFromBarline / b + 1`; with `durationFromBarline = 3/4` and
`b = 1/4` it is `4`. -/
theorem getBeat_value (l : HumdrumLine) (b : HumNum) :
    (b = 0 → getBeat l b = 0) ∧
    (b ≠ 0 → getBeat l b = getDurationFromBarline l / b + 1) ∧
    getBeat (setDurationFromBarline l (3 / 4)) (1 / 4) = 4 := by
  refine ⟨?_, ?_, ?_⟩
  · intro h
    simp [getBeat, HumNum.isZero, h]
  · intro h
    simp [getBeat, HumNum.isZero, h]
  · simp only [getBeat, HumNum.isZero, getDurationFromBarline, setDurationFromBarline]
    norm_num

/-- Witness of C17 on a line `7/2` after its barline with the beat `1/2`. -/
theorem getBeat_value_witness :
    getBeat (setDurationFromBarline (lineOf "4c") (7 / 2)) (1 / 2)
      = getDurationFromBarline (setDurationFromBarline (lineOf "4c") (7 / 2)) / (1 / 2) + 1 ∧
    getBeat (lineOf "4c") 0 = 0 :=
  ⟨(getBeat_value (setDurationFromBarline (lineOf "4c") (7 / 2)) (1 / 2)).2.1 (by norm_num),
   (getBeat_value (lineOf "4c") 0).1 rfl⟩

/-- C18: `getBarlineDuration` is `durationToBarline` when the line text
starts with `=` and `durationFromBarline + durationToBarline` for every other
line. -/
theorem getBarlineDuration_value (l : HumdrumLine) :
    (l.text.head? = some '=' → getBarlineDuration l = getDurationToBarline l) ∧
    (l.text.head? ≠ some '=' →
      getBarlineDuration l = getDurationFromBarline l + getDurationToBarline l) := by
  unfold getBarlineDuration
  constructor
  · intro h
    rw [if_pos ((isBarline_iff_head l).mpr h)]
  · intro h
    rw [if_neg (fun hb => h ((isBarline_iff_head l).mp hb))]

/-- Witness of C18 on the barline `=2` and the data line `4c`. -/
theorem getBarlineDuration_value_witness :
    getBarlineDuration (lineOf "=2") = getDurationToBarline (lineOf "=2") ∧
    getBarlineDuration (lineOf "4c")
      = getDurationFromBarline (lineOf "4c") + getDurationToBarline (lineOf "4c") :=
  ⟨(getBarlineDuration_value (lineOf "=2")).1 (by decide),
   (getBarlineDuration_value (lineOf "4c")).2 (by decide)⟩

/-- C19: `getDurationToEnd` is `0` for a line with no owner, and for a line
with an owner it is the score duration of the owner minus the
`durationFromStart` of the line. -/
theorem getDurationToEnd_value (l : HumdrumLine) :
    (l.owner = none → getDurationToEnd l = 0) ∧
    (∀ file : HumdrumFile, l.owner = some file →
      getDurationToEnd l = file.getScoreDuration - getDurationFromStart l) := by
  unfold getDurationToEnd getDurationFromStart
  constructor
  · intro h
    rw [h]
  · intro file h
    rw [h]

/-- Witness of C19 on a line without owner and on a line `3` after the start
of a score of duration `8`. -/
theorem getDurationToEnd_value_witness :
    getDurationToEnd (lineOf "4c") = 0 ∧
    getDurationToEnd exampleOwnedLine
      = exampleFile.getScoreDuration - getDurationFromStart exampleOwnedLine :=
  ⟨(getDurationToEnd_value (lineOf "4c")).1 rfl,
   (getDurationToEnd_value exampleOwnedLine).2 exampleFile rfl⟩

/-- C20: every scaled duration accessor is the unscaled accessor times the
scale, for every scale and every line state; on a freshly constructed line
(by any of the three constructors) `getDuration(s)` is `-s`. -/
theorem scaled_accessors (s : HumNum) (l : HumdrumLine) :
    getDurationScaled l s = getDuration l * s ∧
    getDurationFromStartScaled l s = getDurationFromStart l * s ∧
    getDurationFromBarlineScaled l s = getDurationFromBarline l * s ∧
    getDurationToBarlineScaled l s = getDurationToBarline l * s ∧
    getBarlineDurationScaled l s = getBarlineDuration l * s ∧
    getDurationToEndScaled l s = getDurationToEnd l * s ∧
    (∀ (humNumDefault : HumNum) (aString : Str),
      getDurationScaled (mkHumdrumLine humNumDefault) s = -s ∧
      getDurationScaled (mkHumdrumLineFromString humNumDefault aString) s = -s ∧
      getDurationScaled (mkHumdrumLineFromCStr humNumDefault aString) s = -s) := by
  refine ⟨rfl, rfl, rfl, rfl, ?_, ?_, ?_⟩
  · unfold getBarlineDurationScaled getBarlineDuration getDurationToBarlineScaled
      getDurationFromBarlineScaled getDurationToBarline getDurationFromBarline
    by_cases h : isBarline l = true
    · simp [h]
    · simp [h, add_mul]
  · unfold getDurationToEndScaled getDurationToEnd
    cases l.owner with
    | none => simp
    | some file => simp [mul_comm]
  · intro humNumDefault aString
    simp [getDurationScaled, mkHumdrumLine, mkHumdrumLineFromString, mkHumdrumLineFromCStr]

end hum

namespace hum

/-! ## Track analysis: parsing the track number -/

theorem digitValue_of_isdigit (c : Char) (h : isdigit c = true) :
    digitValue c = ((c.toNat - '0'.toNat : Nat) : Int) := by
  have h0 : '0'.toNat = 48 := rfl
  simp only [isdigit, h0, decide_eq_true_eq] at h
  unfold digitValue
  rw [h0]
  omega

theorem decimalValue_append_single (p : Str) (c : Char) :
    decimalValue (p ++ [c]) = (c.toNat - '0'.toNat) + 10 * decimalValue p := by
  simp [decimalValue, Nat.ofDigits_cons]

theorem decimalValue_single (c : Char) : decimalValue [c] = c.toNat - '0'.toNat := by
  simp [decimalValue]

theorem wrapInt_of_fits (x : Int) (h0 : -2147483648 ≤ x) (h1 : x ≤ 2147483647) :
    wrapInt x = x := by
  unfold wrapInt
  omega

theorem wrapInt_range (x : Int) : -2147483648 ≤ wrapInt x ∧ wrapInt x ≤ 2147483647 := by
  unfold wrapInt
  omega

/-- Reducing an intermediate value of the accumulation does not change the
reduced result. -/
theorem wrapInt_step (a d : Int) : wrapInt (wrapInt a * 10 + d) = wrapInt (a * 10 + d) := by
  unfold wrapInt
  omega

/-- The innermost loop, entered with the 32-bit value of the digits `p` read
so far, ends with the 32-bit value of `p` followed by the digits it reads. -/
theorem trackDigitsLoop_takeWhile (info p : Str) :
    trackDigitsLoop info (wrapInt (decimalValue p))
      = wrapInt (decimalValue (p ++ info.takeWhile isdigit)) := by
  induction info generalizing p with
  | nil => simp [trackDigitsLoop]
  | cons c cs ih =>
    by_cases hc : isdigit c = true
    · have hstep : wrapInt (wrapInt (decimalValue p) * 10 + digitValue c)
          = wrapInt ((decimalValue (p ++ [c]) : Nat) : Int) := by
        rw [wrapInt_step, digitValue_of_isdigit c hc, decimalValue_append_single]
        congr 1
        push_cast
        ring
      simp only [trackDigitsLoop, hc, if_true, List.takeWhile_cons]
      rw [hstep, ih (p ++ [c])]
      simp
    · simp [trackDigitsLoop, hc, List.takeWhile_cons]

/-- The scan of a spine-info string yields the 32-bit value of its first
maximal run of digits. -/
theorem trackScanLoop_eq (info : Str) :
    trackScanLoop info = wrapInt (decimalValue (firstDigitRun info)) := by
  induction info with
  | nil => decide
  | cons c cs ih =>
    by_cases hc : isdigit c = true
    · have hstart : digitValue c = wrapInt ((decimalValue [c] : Nat) : Int) := by
        have h0 : '0'.toNat = 48 := rfl
        have hd := digitValue_of_isdigit c hc
        rw [decimalValue_single, ← hd]
        simp only [isdigit, h0, decide_eq_true_eq] at hc
        have h9 : '9'.toNat = 57 := rfl
        rw [h9] at hc
        rw [wrapInt_of_fits] <;> rw [hd, h0] <;> omega
      simp only [trackScanLoop, hc, Bool.not_true, Bool.false_eq_true, if_false, firstDigitRun,
        List.dropWhile_cons, List.takeWhile_cons, if_true]
      rw [hstart, trackDigitsLoop_takeWhile cs [c]]
      simp
    · have hc2 : isdigit c = false := by simpa using hc
      simp only [trackScanLoop, hc2, Bool.not_false, if_true, firstDigitRun,
        List.dropWhile_cons]
      exact ih

/-- The first maximal run of digits of a text made of characters that are
not digits, then a non-empty run of digits, then a text that does not start
with a digit, is that run. -/
theorem firstDigitRun_of_split (pre run post : Str) (hpre : ∀ c ∈ pre, isdigit c = false)
    (hne : run ≠ []) (hrun : ∀ c ∈ run, isdigit c = true)
    (hpost : ∀ c, post.head? = some c → isdigit c = false) :
    firstDigitRun (pre ++ run ++ post) = run := by
  have htake : (run ++ post).takeWhile isdigit = run := by
    clear hne
    induction run with
    | nil =>
      cases post with
      | nil => rfl
      | cons c cs => simp [List.takeWhile_cons, hpost c rfl]
    | cons c r ih =>
      have hc : isdigit c = true := hrun c (List.mem_cons_self _ _)
      simp only [List.cons_append, List.takeWhile_cons, hc, if_true, List.cons.injEq, true_and]
      exact ih (fun d hd => hrun d (List.mem_cons_of_mem _ hd))
  induction pre with
  | nil =>
    cases run with
    | nil => exact absurd rfl hne
    | cons c r =>
      have hc : isdigit c = true := hrun c (List.mem_cons_self _ _)
      have hdrop : ((c :: r) ++ post).dropWhile (fun d => !isdigit d) = (c :: r) ++ post := by
        simp [List.dropWhile_cons, hc]
      simp only [List.nil_append, firstDigitRun]
      rw [hdrop, htake]
  | cons c cs ih =>
    have hc : isdigit c = false := hpre c (List.mem_cons_self _ _)
    have hcs : ∀ d ∈ cs, isdigit d = false := fun d hd => hpre d (List.mem_cons_of_mem _ hd)
    have := ih hcs
    simp only [firstDigitRun, List.cons_append, List.dropWhile_cons, hc, Bool.not_false,
      if_true] at this ⊢
    simpa using this

/-- The scan of a spine-info string yields the 32-bit value of its first
maximal run of digits, given as a split of the string. -/
theorem trackScanLoop_run (pre run post : Str) (hpre : ∀ c ∈ pre, isdigit c = false)
    (hne : run ≠ []) (hrun : ∀ c ∈ run, isdigit c = true)
    (hpost : ∀ c, post.head? = some c → isdigit c = false) :
    trackScanLoop (pre ++ run ++ post) = wrapInt (decimalValue run) := by
  rw [trackScanLoop_eq, firstDigitRun_of_split pre run post hpre hne hrun hpost]

/-- A spine-info string whose first run of digits has a value of at most
`2147483646` is parsed to that value. -/
theorem trackScanLoop_fits (info : Str) (h : decimalValue (firstDigitRun info) ≤ 2147483646) :
    trackScanLoop info = (decimalValue (firstDigitRun info) : Int) ∧
    0 ≤ trackScanLoop info ∧ trackScanLoop info ≤ 2147483646 := by
  have he : trackScanLoop info = (decimalValue (firstDigitRun info) : Int) := by
    rw [trackScanLoop_eq, wrapInt_of_fits] <;> omega
  refine ⟨he, ?_, ?_⟩ <;> rw [he] <;> omega

/-- The scan of a spine-info string without any digit yields `0`. -/
theorem trackScanLoop_no_digit (info : Str) (h : ∀ c ∈ info, isdigit c = false) :
    trackScanLoop info = 0 := by
  induction info with
  | nil => rfl
  | cons c cs ih =>
    have hc : isdigit c = false := h c (List.mem_cons_self _ _)
    simp only [trackScanLoop, hc, Bool.not_false, if_true]
    exact ih (fun d hd => h d (List.mem_cons_of_mem _ hd))

theorem digitValue_nonneg (c : Char) (h : isdigit c = true) : 0 ≤ digitValue c := by
  rw [digitValue_of_isdigit c h]
  exact Int.natCast_nonneg _

/-- The parsed track is an `int`: it is never above `2147483647`. -/
theorem trackScanLoop_le (info : Str) : trackScanLoop info ≤ 2147483647 := by
  rw [trackScanLoop_eq]
  exact (wrapInt_range _).2

end hum

namespace hum

/-! ## Track analysis: the count tables -/

theorem tableGet_set (table : List Int) (index v w : Int)
    (h : tableGet table index = some v) (j : Int) :
    tableGet (table.set index.toNat w) j
      = if j = index then some w else tableGet table j := by
  unfold tableGet at h ⊢
  by_cases hi : 0 ≤ index
  · rw [if_pos hi] at h
    have hlt : index.toNat < table.length := by
      rcases Nat.lt_or_ge index.toNat table.length with h1 | h1
      · exact h1
      · rw [List.getElem?_eq_none h1] at h
        exact absurd h (by simp)
    by_cases hj : 0 ≤ j
    · rw [if_pos hj, if_pos hj, List.getElem?_set]
      by_cases hji : j = index
      · subst hji
        simp [hlt]
      · have hne : ¬ index.toNat = j.toNat := by omega
        rw [if_neg hne, if_neg hji]
    · rw [if_neg hj, if_neg hj]
      have hji : ¬ j = index := by omega
      rw [if_neg hji]
  · rw [if_neg hi] at h
    exact absurd h (by simp)

/-- An increment at an index that is in range succeeds, adds one there and
leaves the other entries. -/
theorem tableIncrement_of_get (table : List Int) (index v : Int)
    (h : tableGet table index = some v) :
    ∃ table2 : List Int, tableIncrement table index = some table2 ∧
      ∀ j : Int, tableGet table2 j = if j = index then some (v + 1) else tableGet table j := by
  refine ⟨table.set index.toNat (v + 1), ?_, tableGet_set table index v (v + 1) h⟩
  unfold tableIncrement
  rw [h]

/-- A fresh table of `n + 1` zeros holds `0` at every index from `0` to `n`. -/
theorem tableGet_replicate (n index : Int) (h0 : 0 ≤ index) (hn : index ≤ n) :
    tableGet (List.replicate (toSizeT (n + 1)) (0 : Int)) index = some 0 := by
  unfold tableGet toSizeT
  rw [if_pos h0, if_pos (by omega)]
  apply List.getElem?_replicate_of_lt
  omega

/-- The first loop sets the track of every token to the parsed one, and the
final `maxtrack` bounds the initial one and every parsed track. -/
theorem analyzeTracksParseLoop_spec (toks : List HumdrumToken) (maxtrack : Int) :
    ∃ m : Int,
      analyzeTracksParseLoop (toks.map some) maxtrack
        = some ((toks.map (fun t => t.setTrack (trackScanLoop t.spineInfo))).map some, m) ∧
      maxtrack ≤ m ∧ ∀ t ∈ toks, trackScanLoop t.spineInfo ≤ m := by
  induction toks generalizing maxtrack with
  | nil => exact ⟨maxtrack, rfl, le_refl _, by simp⟩
  | cons t rest ih =>
    obtain ⟨m, hloop, hle, hall⟩ :=
      ih (if maxtrack < trackScanLoop t.spineInfo then trackScanLoop t.spineInfo else maxtrack)
    refine ⟨m, ?_, ?_, ?_⟩
    · simp only [List.map_cons, analyzeTracksParseLoop, HumdrumToken.getSpineInfo, hloop]
    · split at hle <;> omega
    · intro u hu
      rcases List.mem_cons.mp hu with h1 | h1
      · subst h1
        split at hle <;> omega
      · exact hall u h1

/-- The final `maxtrack` of the first loop is the initial one or the parsed
track of one of the tokens. -/
theorem analyzeTracksParseLoop_attained (toks : List HumdrumToken) (maxtrack : Int) :
    ∃ m : Int,
      analyzeTracksParseLoop (toks.map some) maxtrack
        = some ((toks.map (fun t => t.setTrack (trackScanLoop t.spineInfo))).map some, m) ∧
      (m = maxtrack ∨ ∃ t ∈ toks, trackScanLoop t.spineInfo = m) := by
  induction toks generalizing maxtrack with
  | nil => exact ⟨maxtrack, rfl, Or.inl rfl⟩
  | cons t rest ih =>
    obtain ⟨m, hloop, hm⟩ :=
      ih (if maxtrack < trackScanLoop t.spineInfo then trackScanLoop t.spineInfo else maxtrack)
    refine ⟨m, ?_, ?_⟩
    · simp only [List.map_cons, analyzeTracksParseLoop, HumdrumToken.getSpineInfo, hloop]
    · rcases hm with h | ⟨u, hu, h⟩
      · by_cases hlt : maxtrack < trackScanLoop t.spineInfo
        · rw [if_pos hlt] at h
          exact Or.inr ⟨t, List.mem_cons_self _ _, h.symm⟩
        · rw [if_neg hlt] at h
          exact Or.inl h
      · exact Or.inr ⟨u, List.mem_cons_of_mem _ hu, h⟩

/-- An increment keeps the length of the table. -/
theorem tableIncrement_length (table table2 : List Int) (index : Int)
    (h : tableIncrement table index = some table2) : table2.length = table.length := by
  unfold tableIncrement at h
  cases hg : tableGet table index with
  | none => rw [hg] at h; exact absurd h (by simp)
  | some v =>
    rw [hg] at h
    simp only [Option.some.injEq] at h
    rw [← h, List.length_set]

/-- The counting loop keeps the length of the table. -/
theorem analyzeTracksCountLoop_length (toks : List HTp) (table table2 : List Int)
    (h : analyzeTracksCountLoop toks table = some table2) : table2.length = table.length := by
  induction toks generalizing table with
  | nil =>
    simp only [analyzeTracksCountLoop, Option.some.injEq] at h
    rw [h]
  | cons t rest ih =>
    cases t with
    | none => simp [analyzeTracksCountLoop] at h
    | some tok =>
      simp only [analyzeTracksCountLoop] at h
      cases hi : tableIncrement table tok.getTrack with
      | none => rw [hi] at h; exact absurd h (by simp)
      | some table1 =>
        rw [hi] at h
        rw [ih table1 h, tableIncrement_length table table1 _ hi]

/-- A successful increment was made at an index that is in range. -/
theorem tableIncrement_range (table table2 : List Int) (index : Int)
    (h : tableIncrement table index = some table2) :
    0 ≤ index ∧ index < (table.length : Int) := by
  unfold tableIncrement at h
  cases hg : tableGet table index with
  | none => rw [hg] at h; exact absurd h (by simp)
  | some v =>
    unfold tableGet at hg
    by_cases h0 : 0 ≤ index
    · rw [if_pos h0] at hg
      have hlt : index.toNat < table.length := by
        rcases Nat.lt_or_ge index.toNat table.length with h1 | h1
        · exact h1
        · rw [List.getElem?_eq_none h1] at hg
          exact absurd hg (by simp)
      omega
    · rw [if_neg h0] at hg
      exact absurd hg (by simp)

/-- The counting loop returns only when the track of every token is an
index of the table. -/
theorem analyzeTracksCountLoop_range (toks : List HumdrumToken) (table table2 : List Int)
    (h : analyzeTracksCountLoop (toks.map some) table = some table2) :
    ∀ t ∈ toks, 0 ≤ t.track ∧ t.track < (table.length : Int) := by
  induction toks generalizing table with
  | nil => simp
  | cons t rest ih =>
    simp only [List.map_cons, analyzeTracksCountLoop, HumdrumToken.getTrack] at h
    cases hi : tableIncrement table t.track with
    | none => rw [hi] at h; exact absurd h (by simp)
    | some table1 =>
      rw [hi] at h
      have hlen := tableIncrement_length table table1 _ hi
      intro u hu
      rcases List.mem_cons.mp hu with h1 | h1
      · rw [h1]
        exact tableIncrement_range table table1 _ hi
      · have := ih table1 h u h1
        rw [hlen] at this
        exact this

/-- A table for a `maxtrack` from `0` to `2147483646` is made of
`maxtrack + 1` zeros. -/
theorem resizeTable_of_fits (m : Int) (h0 : 0 ≤ m) (h1 : m ≤ 2147483646) :
    resizeTable (wrapInt (m + 1)) = some (List.replicate (toSizeT (m + 1)) 0) := by
  rw [wrapInt_of_fits (m + 1) (by omega) (by omega)]
  unfold resizeTable
  rw [if_neg (by omega)]

/-- The first loop on live tokens: every token gets its parsed track, and
the final `maxtrack` is `0` or the largest parsed track, whichever is
larger. -/
theorem analyzeTracksParseLoop_max (toks : List HumdrumToken) :
    ∃ m : Int,
      analyzeTracksParseLoop (toks.map some) 0
        = some ((toks.map (fun t => t.setTrack (trackScanLoop t.spineInfo))).map some, m) ∧
      0 ≤ m ∧ m ≤ 2147483647 ∧ (∀ t ∈ toks, trackScanLoop t.spineInfo ≤ m) ∧
      (m = 0 ∨ ∃ t ∈ toks, trackScanLoop t.spineInfo = m) := by
  obtain ⟨m, hparse, hm0, hall⟩ := analyzeTracksParseLoop_spec toks 0
  obtain ⟨m2, hparse2, hatt⟩ := analyzeTracksParseLoop_attained toks 0
  have hmm : m2 = m := by
    rw [hparse] at hparse2
    simp only [Option.some.injEq, Prod.mk.injEq, true_and] at hparse2
    exact hparse2.symm
  rw [hmm] at hatt
  refine ⟨m, hparse, hm0, ?_, hall, hatt⟩
  rcases hatt with h | ⟨t, _, h⟩
  · omega
  · rw [← h]
    exact trackScanLoop_le _

/-- The counting loop adds to every entry the number of tokens whose track
is its index. -/
theorem analyzeTracksCountLoop_spec (toks : List HumdrumToken) (table : List Int)
    (h : ∀ t ∈ toks, ∃ v, tableGet table t.track = some v) :
    ∃ table2 : List Int, analyzeTracksCountLoop (toks.map some) table = some table2 ∧
      ∀ (j v : Int), tableGet table j = some v →
        tableGet table2 j
          = some (v + ((toks.countP (fun t => decide (t.track = j)) : Nat) : Int)) := by
  induction toks generalizing table with
  | nil => exact ⟨table, rfl, by simp⟩
  | cons t rest ih =>
    obtain ⟨v0, hv0⟩ := h t (List.mem_cons_self _ _)
    obtain ⟨table1, hincr, hget1⟩ := tableIncrement_of_get table t.track v0 hv0
    have hrest : ∀ u ∈ rest, ∃ v, tableGet table1 u.track = some v := by
      intro u hu
      obtain ⟨w, hw⟩ := h u (List.mem_cons_of_mem _ hu)
      rw [hget1]
      by_cases hut : u.track = t.track
      · exact ⟨v0 + 1, by rw [if_pos hut]⟩
      · exact ⟨w, by rw [if_neg hut, hw]⟩
    obtain ⟨table2, hloop, hget2⟩ := ih table1 hrest
    refine ⟨table2, ?_, ?_⟩
    · simp only [List.map_cons, analyzeTracksCountLoop, HumdrumToken.getTrack, hincr, hloop]
    · intro j v hv
      have h1 := hget1 j
      by_cases hjt : j = t.track
      · rw [if_pos hjt] at h1
        have hvv : v = v0 := by
          rw [hjt, hv0] at hv
          exact (Option.some.inj hv).symm
        rw [hget2 j (v0 + 1) h1, List.countP_cons, hvv]
        have : decide (t.track = j) = true := by simp [hjt]
        simp only [this, if_true]
        push_cast
        congr 1
        ring
      · rw [if_neg hjt, hv] at h1
        rw [hget2 j v h1, List.countP_cons]
        have : ¬ t.track = j := fun e => hjt e.symm
        simp [this]

end hum

namespace hum

/-- The last loop, run with the population table `subtracks` and the
counters `cursub`: a token whose track has a population above one gets the
counter of its track plus one plus the number of tokens of that track on its
left, any other token gets `0`, and every token gets the population of its
track as `subtrackCount`. -/
theorem analyzeTracksSubtrackLoop_spec (toks : List HumdrumToken) (subtracks cursub : List Int)
    (hS : ∀ t ∈ toks, ∃ s, tableGet subtracks t.track = some s)
    (hC : ∀ t ∈ toks, ∃ c, tableGet cursub t.track = some c) :
    ∃ out : List HumdrumToken,
      analyzeTracksSubtrackLoop (toks.map some) subtracks cursub = some (out.map some) ∧
      out.length = toks.length ∧
      ∀ (i : Nat) (t : HumdrumToken) (s c : Int), toks[i]? = some t →
        tableGet subtracks t.track = some s → tableGet cursub t.track = some c →
        out[i]? = some ((t.setSubtrack
          (if s > 1 then
            c + 1 + (((toks.take i).countP (fun u => decide (u.track = t.track)) : Nat) : Int)
           else 0)).setSubtrackCount s) := by
  induction toks generalizing cursub with
  | nil => exact ⟨[], rfl, rfl, by simp⟩
  | cons t0 rest ih =>
    obtain ⟨s0, hs0⟩ := hS t0 (List.mem_cons_self _ _)
    obtain ⟨c0, hc0⟩ := hC t0 (List.mem_cons_self _ _)
    have hSrest : ∀ u ∈ rest, ∃ s, tableGet subtracks u.track = some s :=
      fun u hu => hS u (List.mem_cons_of_mem _ hu)
    by_cases hgt : s0 > 1
    · obtain ⟨cursub1, hincr, hget1⟩ := tableIncrement_of_get cursub t0.track c0 hc0
      have hval : tableGet cursub1 t0.track = some (c0 + 1) := by
        rw [hget1, if_pos rfl]
      have hCrest : ∀ u ∈ rest, ∃ c, tableGet cursub1 u.track = some c := by
        intro u hu
        obtain ⟨w, hw⟩ := hC u (List.mem_cons_of_mem _ hu)
        rw [hget1]
        by_cases hut : u.track = t0.track
        · exact ⟨c0 + 1, by rw [if_pos hut]⟩
        · exact ⟨w, by rw [if_neg hut, hw]⟩
      obtain ⟨out, hloop, hlen, hidx⟩ := ih cursub1 hSrest hCrest
      refine ⟨(t0.setSubtrack (c0 + 1)).setSubtrackCount s0 :: out, ?_, by simp [hlen], ?_⟩
      · simp only [List.map_cons, analyzeTracksSubtrackLoop, HumdrumToken.getTrack, hs0, hgt,
          if_true, hincr, hval, hloop]
      · intro i t s c hi hs hc
        cases i with
        | zero =>
          simp only [List.getElem?_cons_zero, Option.some.injEq] at hi
          subst hi
          rw [hs0] at hs
          rw [hc0] at hc
          have e1 : s0 = s := Option.some.inj hs
          have e2 : c0 = c := Option.some.inj hc
          subst e1 e2
          simp [hgt]
        | succ k =>
          simp only [List.getElem?_cons_succ] at hi
          have hc1 := hget1 t.track
          by_cases htt : t.track = t0.track
          · rw [if_pos htt] at hc1
            have e2 : c0 = c := by
              rw [htt, hc0] at hc
              exact Option.some.inj hc
            rw [List.getElem?_cons_succ, hidx k t s (c0 + 1) hi hs hc1]
            have hd : decide (t0.track = t.track) = true := by simp [htt]
            simp only [List.take_succ_cons, List.countP_cons, hd, if_true, e2]
            congr 2
            split
            · push_cast
              congr 1
              omega
            · rfl
          · rw [if_neg htt, hc] at hc1
            rw [List.getElem?_cons_succ, hidx k t s c hi hs hc1]
            have hd : ¬ t0.track = t.track := fun e => htt e.symm
            simp [List.countP_cons, hd]
    · obtain ⟨out, hloop, hlen, hidx⟩ :=
        ih cursub hSrest (fun u hu => hC u (List.mem_cons_of_mem _ hu))
      refine ⟨(t0.setSubtrack 0).setSubtrackCount s0 :: out, ?_, by simp [hlen], ?_⟩
      · simp only [List.map_cons, analyzeTracksSubtrackLoop, HumdrumToken.getTrack, hs0, hgt,
          if_false, hloop]
      · intro i t s c hi hs hc
        cases i with
        | zero =>
          simp only [List.getElem?_cons_zero, Option.some.injEq] at hi
          subst hi
          rw [hs0] at hs
          have e1 : s0 = s := Option.some.inj hs
          subst e1
          simp [hgt]
        | succ k =>
          simp only [List.getElem?_cons_succ] at hi
          rw [List.getElem?_cons_succ, hidx k t s c hi hs hc]
          by_cases hsgt : s > 1
          · have hd : ¬ t0.track = t.track := by
              intro e
              rw [← e, hs0] at hs
              have : s0 = s := Option.some.inj hs
              omega
            simp [List.countP_cons, hd]
          · simp [hsgt]

end hum

namespace hum

/-! ## Track analysis: the whole function -/

/-- On a line with spines whose tokens are all live and have a parsed track
from `0` to `2147483646`, `analyzeTracks` returns and gives every token its
parsed track, the population of that track as `subtrackCount`, and as
`subtrack` one plus the number of tokens of that track on its left when the
population is above one, `0` otherwise. -/
theorem analyzeTracks_spec (l : HumdrumLine) (err : Str) (toks : List HumdrumToken)
    (hs : hasSpines l = true) (ht : l.tokens = toks.map some)
    (hfit : ∀ t ∈ toks, 0 ≤ trackScanLoop t.spineInfo ∧ trackScanLoop t.spineInfo ≤ 2147483646) :
    ∃ out : List HumdrumToken,
      analyzeTracks l err
        = some ({ l with tokens := out.map some }, decide (err.length = 0)) ∧
      out.length = toks.length ∧
      ∀ (i : Nat) (t : HumdrumToken), toks[i]? = some t →
        out[i]? = some (((t.setTrack (trackScanLoop t.spineInfo)).setSubtrack
          (if ((toks.countP (fun u =>
                decide (trackScanLoop u.spineInfo = trackScanLoop t.spineInfo)) : Nat) : Int) > 1
           then 1 + (((toks.take i).countP (fun u =>
                decide (trackScanLoop u.spineInfo = trackScanLoop t.spineInfo)) : Nat) : Int)
           else 0)).setSubtrackCount
          ((toks.countP (fun u =>
                decide (trackScanLoop u.spineInfo = trackScanLoop t.spineInfo)) : Nat) : Int)) := by
  obtain ⟨m, hparse, hm0, _, hall, hatt⟩ := analyzeTracksParseLoop_max toks
  have hm1 : m ≤ 2147483646 := by
    rcases hatt with h | ⟨t, htmem, h⟩
    · omega
    · rw [← h]
      exact (hfit t htmem).2
  have hresize := resizeTable_of_fits m hm0 hm1
  have hrange : ∀ u ∈ toks.map (fun t => t.setTrack (trackScanLoop t.spineInfo)),
      tableGet (List.replicate (toSizeT (m + 1)) (0 : Int)) u.track = some 0 := by
    intro u hu
    obtain ⟨t, htmem, rfl⟩ := List.mem_map.mp hu
    exact tableGet_replicate m _ (hfit t htmem).1 (hall t htmem)
  obtain ⟨subtracks, hcount, hpop⟩ := analyzeTracksCountLoop_spec
    (toks.map (fun t => t.setTrack (trackScanLoop t.spineInfo)))
    (List.replicate (toSizeT (m + 1)) (0 : Int)) (fun u hu => ⟨0, hrange u hu⟩)
  obtain ⟨out, hsub, hlen, hidx⟩ := analyzeTracksSubtrackLoop_spec
    (toks.map (fun t => t.setTrack (trackScanLoop t.spineInfo))) subtracks
    (List.replicate (toSizeT (m + 1)) (0 : Int))
    (fun u hu => ⟨_, hpop u.track 0 (hrange u hu)⟩) (fun u hu => ⟨0, hrange u hu⟩)
  refine ⟨out, ?_, by simpa using hlen, ?_⟩
  · unfold analyzeTracks
    simp only [hs, Bool.not_true, Bool.false_eq_true, if_false, ht, hparse, hresize, hcount,
      hsub]
  · intro i t hi
    have hmem : t ∈ toks := List.getElem?_mem hi
    have hi1 : (toks.map (fun t => t.setTrack (trackScanLoop t.spineInfo)))[i]?
        = some (t.setTrack (trackScanLoop t.spineInfo)) := by
      rw [List.getElem?_map, hi]
      rfl
    have h0 := hrange _ (List.mem_map_of_mem _ hmem)
    have hres := hidx i _ _ 0 hi1 (hpop _ 0 h0) h0
    rw [hres]
    simp only [List.countP_map, ← List.map_take, HumdrumToken.setTrack, Function.comp_def,
      zero_add]

/-- On a line with spines and live tokens `analyzeTracks` returns only when
the parsed track of every token is from `0` to `2147483646`. -/
theorem analyzeTracks_some_fits (l : HumdrumLine) (err : Str) (toks : List HumdrumToken)
    (hs : hasSpines l = true) (ht : l.tokens = toks.map some) (r : HumdrumLine × Bool)
    (h : analyzeTracks l err = some r) :
    ∀ t ∈ toks, 0 ≤ trackScanLoop t.spineInfo ∧ trackScanLoop t.spineInfo ≤ 2147483646 := by
  obtain ⟨m, hparse, hm0, hm1, hall, _⟩ := analyzeTracksParseLoop_max toks
  unfold analyzeTracks at h
  simp only [hs, Bool.not_true, Bool.false_eq_true, if_false, ht, hparse] at h
  cases hr : resizeTable (wrapInt (m + 1)) with
  | none => simp [hr] at h
  | some table =>
    simp only [hr] at h
    cases hc : analyzeTracksCountLoop
        ((toks.map (fun t => t.setTrack (trackScanLoop t.spineInfo))).map some) table with
    | none =>
      rw [hc] at h
      exact absurd h (by simp)
    | some subtracks =>
      have hrange := analyzeTracksCountLoop_range _ table subtracks hc
      have hlen : (table.length : Int) = wrapInt (m + 1) ∧ 0 ≤ wrapInt (m + 1) := by
        unfold resizeTable at hr
        by_cases hneg : wrapInt (m + 1) < 0
        · rw [if_pos hneg] at hr
          exact absurd hr (by simp)
        · rw [if_neg hneg] at hr
          simp only [Option.some.injEq] at hr
          rw [← hr, List.length_replicate]
          unfold toSizeT
          rw [if_pos (by omega)]
          omega
      have hm2 : m ≤ 2147483646 := by
        have := hlen.2
        unfold wrapInt at this
        omega
      intro t htmem
      have h1 := hrange (t.setTrack (trackScanLoop t.spineInfo))
        (List.mem_map.mpr ⟨t, htmem, rfl⟩)
      have h2 := hall t htmem
      simp only [HumdrumToken.setTrack] at h1
      exact ⟨h1.1, by omega⟩

end hum

namespace hum

/-- More than one element of a list satisfies `p` exactly when, besides a
given element that satisfies it, another position holds one. -/
theorem one_lt_countP_iff {α : Type} (p : α → Bool) (xs : List α) (i : Nat) (u : α)
    (hi : xs[i]? = some u) (hu : p u = true) :
    1 < xs.countP p ↔ ∃ (j : Nat) (v : α), j ≠ i ∧ xs[j]? = some v ∧ p v = true := by
  induction xs generalizing i with
  | nil => simp at hi
  | cons x r ih =>
    cases i with
    | zero =>
      simp only [List.getElem?_cons_zero, Option.some.injEq] at hi
      subst hi
      rw [List.countP_cons, if_pos hu]
      constructor
      · intro h
        have hpos : 0 < r.countP p := by omega
        obtain ⟨a, ha, hpa⟩ := List.countP_pos_iff.mp hpos
        obtain ⟨k, hk⟩ := List.mem_iff_getElem?.mp ha
        exact ⟨k + 1, a, by omega, by simpa using hk, hpa⟩
      · rintro ⟨j, v, hj, hv, hpv⟩
        cases j with
        | zero => exact absurd rfl hj
        | succ k =>
          simp only [List.getElem?_cons_succ] at hv
          have hpos : 0 < r.countP p := List.countP_pos_iff.mpr ⟨v, List.getElem?_mem hv, hpv⟩
          omega
    | succ k =>
      simp only [List.getElem?_cons_succ] at hi
      have hposr : 0 < r.countP p := List.countP_pos_iff.mpr ⟨u, List.getElem?_mem hi, hu⟩
      rw [List.countP_cons]
      by_cases hx : p x = true
      · rw [if_pos hx]
        constructor
        · intro _
          exact ⟨0, x, by omega, by simp, hx⟩
        · intro _
          omega
      · rw [if_neg hx, Nat.add_zero, ih k hi]
        constructor
        · rintro ⟨j, v, hj, hv, hpv⟩
          exact ⟨j + 1, v, by omega, by simpa using hv, hpv⟩
        · rintro ⟨j, v, hj, hv, hpv⟩
          cases j with
          | zero =>
            simp only [List.getElem?_cons_zero, Option.some.injEq] at hv
            subst hv
            exact absurd hpv hx
          | succ j2 =>
            simp only [List.getElem?_cons_succ] at hv
            exact ⟨j2, v, by omega, hv, hpv⟩

/-- When every element that satisfies `p` carries one plus the number of
such elements on its left, the elements that satisfy `p` carry, from left to
right, the numbers from one up to their count. -/
theorem filter_map_rank {α : Type} (p : α → Bool) (f : α → Int) (xs : List α)
    (h : ∀ (i : Nat) (u : α), xs[i]? = some u → p u = true →
      f u = 1 + (((xs.take i).countP p : Nat) : Int)) :
    (xs.filter p).map f = (List.range' 1 (xs.countP p)).map (fun (n : Nat) => (n : Int)) := by
  induction xs using List.reverseRecOn with
  | nil => simp
  | append_singleton ys x ih =>
    have hys : ∀ (i : Nat) (u : α), ys[i]? = some u → p u = true →
        f u = 1 + (((ys.take i).countP p : Nat) : Int) := by
      intro i u hi hu
      have hlt : i < ys.length := (List.getElem?_eq_some.mp hi).1
      have h1 := h i u (by rw [List.getElem?_append_left hlt]; exact hi) hu
      rw [List.take_append_of_le_length (Nat.le_of_lt hlt)] at h1
      exact h1
    have hlast := h ys.length x (by simp)
    rw [List.filter_append, List.map_append, ih hys, List.countP_append]
    by_cases hx : p x = true
    · have hfx := hlast hx
      rw [List.take_left' rfl] at hfx
      simp only [List.filter_cons, hx, if_true, List.filter_nil, List.map_cons, List.map_nil,
        List.countP_cons, List.countP_nil, Nat.zero_add, hfx]
      rw [List.range'_concat, List.map_append]
      simp
    · simp [hx]

end hum

namespace hum

theorem countP_of_map_eq {α β γ : Type} (f : α → γ) (g : β → γ) (q : γ → Bool)
    (xs : List α) (ys : List β) (h : xs.map f = ys.map g) :
    xs.countP (fun a => q (f a)) = ys.countP (fun b => q (g b)) := by
  have h1 := List.countP_map q f xs
  have h2 := List.countP_map q g ys
  simp only [Function.comp_def] at h1 h2
  rw [← h1, ← h2, h]

/-- The result of `analyzeTracks` on a line with spines and live tokens, in
terms of the tokens after the call: every token keeps its text and spine
info, gets its parsed track, and gets its `subtrackCount` and `subtrack` from
the number of tokens that share its track. -/
theorem analyzeTracks_result (l : HumdrumLine) (err : Str) (toks : List HumdrumToken)
    (hs : hasSpines l = true) (ht : l.tokens = toks.map some)
    (hfit : ∀ t ∈ toks, 0 ≤ trackScanLoop t.spineInfo ∧ trackScanLoop t.spineInfo ≤ 2147483646) :
    ∃ out : List HumdrumToken,
      analyzeTracks l err
        = some ({ l with tokens := out.map some }, decide (err.length = 0)) ∧
      out.length = toks.length ∧
      ∀ (i : Nat) (t : HumdrumToken), toks[i]? = some t →
        ∃ u : HumdrumToken, out[i]? = some u ∧ u.text = t.text ∧
          u.spineInfo = t.spineInfo ∧ u.track = trackScanLoop t.spineInfo ∧
          u.subtrackCount = ((out.countP (fun v => decide (v.track = u.track)) : Nat) : Int) ∧
          u.subtrack =
            if ((out.countP (fun v => decide (v.track = u.track)) : Nat) : Int) > 1
            then 1 + (((out.take i).countP (fun v => decide (v.track = u.track)) : Nat) : Int)
            else 0 := by
  obtain ⟨out, hrun, hlen, hidx⟩ := analyzeTracks_spec l err toks hs ht hfit
  have hmap : out.map (fun v => v.track) = toks.map (fun t => trackScanLoop t.spineInfo) := by
    apply List.ext_getElem?
    intro n
    rw [List.getElem?_map, List.getElem?_map]
    cases hn : toks[n]? with
    | none =>
      have : out[n]? = none := by
        rw [List.getElem?_eq_none_iff] at hn ⊢
        omega
      rw [this]
      rfl
    | some t =>
      rw [hidx n t hn]
      rfl
  refine ⟨out, hrun, hlen, ?_⟩
  intro i t hi
  have hcount : ∀ x : Int, out.countP (fun v => decide (v.track = x))
      = toks.countP (fun w => decide (trackScanLoop w.spineInfo = x)) :=
    fun x => countP_of_map_eq (fun v => v.track) (fun w => trackScanLoop w.spineInfo)
      (fun y => decide (y = x)) out toks hmap
  have hmapTake : (out.take i).map (fun v => v.track)
      = (toks.take i).map (fun t => trackScanLoop t.spineInfo) := by
    rw [List.map_take, List.map_take, hmap]
  have hcountTake : ∀ x : Int, (out.take i).countP (fun v => decide (v.track = x))
      = (toks.take i).countP (fun w => decide (trackScanLoop w.spineInfo = x)) :=
    fun x => countP_of_map_eq (fun v => v.track) (fun w => trackScanLoop w.spineInfo)
      (fun y => decide (y = x)) (out.take i) (toks.take i) hmapTake
  refine ⟨_, hidx i t hi, rfl, rfl, rfl, ?_, ?_⟩
  · simp only [HumdrumToken.setSubtrackCount, HumdrumToken.setSubtrack, HumdrumToken.setTrack,
      hcount]
  · simp only [HumdrumToken.setSubtrackCount, HumdrumToken.setSubtrack, HumdrumToken.setTrack,
      hcount, hcountTake]

end hum

namespace hum

/-! ## Track analysis: the claims -/

/-- C11 (as stated): the only token of a data line carries the spine-info
string `4294967297`, which is one run of digits of decimal value
`4294967297`; `analyzeTracks` returns and sets the track of the token to `1`,
not to that value. -/
theorem analyzeTracks_track_stated_fails :
    hasSpines exampleWrappedLine = true ∧
    exampleWrappedLine.tokens = [some (tokenWithSpineInfo "4294967297")] ∧
    (tokenWithSpineInfo "4294967297").spineInfo = str "4294967297" ∧
    (∀ c ∈ str "4294967297", isdigit c = true) ∧
    decimalValue (str "4294967297") = 4294967297 ∧
    (analyzeTracks exampleWrappedLine []).map (fun r => tokenTracks r.1.tokens) = some [1] ∧
    (analyzeTracks exampleWrappedLine []).map (fun r => tokenTracks r.1.tokens)
      ≠ some [4294967297] := by
  decide

/-- C11 (amended): on a line with spines on which the first maximal run of
digits of every spine-info string has a decimal value of at most
`2147483646`, `analyzeTracks` returns and sets the track of every token to
the decimal value of the first maximal run of digits of its spine-info
string, and to `0` when the spine info has no digit; the spine info `1 (2)a`
gives track `1`. -/
theorem analyzeTracks_track (l : HumdrumLine) (err : Str) (toks : List HumdrumToken)
    (hs : hasSpines l = true) (ht : l.tokens = toks.map some)
    (hfit : ∀ t ∈ toks, decimalValue (firstDigitRun t.spineInfo) ≤ 2147483646) :
    (∃ out : List HumdrumToken,
      analyzeTracks l err
        = some ({ l with tokens := out.map some }, decide (err.length = 0)) ∧
      out.length = toks.length ∧
      ∀ (i : Nat) (t u : HumdrumToken), toks[i]? = some t → out[i]? = some u →
        u.track = (decimalValue (firstDigitRun t.spineInfo) : Int) ∧
        ((∀ c ∈ t.spineInfo, isdigit c = false) → u.track = 0) ∧
        (∀ pre run post : Str, t.spineInfo = pre ++ run ++ post →
          (∀ c ∈ pre, isdigit c = false) → run ≠ [] → (∀ c ∈ run, isdigit c = true) →
          (∀ c, post.head? = some c → isdigit c = false) →
          u.track = (decimalValue run : Int))) ∧
    (analyzeTracks exampleMergedLine []).map (fun r => tokenTracks r.1.tokens) = some [1] := by
  refine ⟨?_, by decide⟩
  have hfit2 : ∀ t ∈ toks,
      0 ≤ trackScanLoop t.spineInfo ∧ trackScanLoop t.spineInfo ≤ 2147483646 :=
    fun t htmem => (trackScanLoop_fits t.spineInfo (hfit t htmem)).2
  obtain ⟨out, hrun, hlen, hidx⟩ := analyzeTracks_result l err toks hs ht hfit2
  refine ⟨out, hrun, hlen, ?_⟩
  intro i t u hi hu
  obtain ⟨u2, hu2, _, _, htrack, _, _⟩ := hidx i t hi
  rw [hu2] at hu
  have e : u2 = u := Option.some.inj hu
  subst e
  have hval := (trackScanLoop_fits t.spineInfo (hfit t (List.getElem?_mem hi))).1
  refine ⟨by rw [htrack, hval], ?_, ?_⟩
  · intro hno
    rw [htrack, trackScanLoop_no_digit _ hno]
  · intro pre run post hsplit hpre hne hdig hpost
    rw [htrack, hval, hsplit, firstDigitRun_of_split pre run post hpre hne hdig hpost]

/-- Witness of C11 (amended) on the example line with the spine infos `1`,
`2`, `(2)a`, `(2)b`, `3`. -/
theorem analyzeTracks_track_witness :
    hasSpines exampleTrackLine = true ∧
    exampleTrackLine.tokens = exampleTrackTokens.map some ∧
    (∀ t ∈ exampleTrackTokens, decimalValue (firstDigitRun t.spineInfo) ≤ 2147483646) ∧
    ∃ out : List HumdrumToken,
      analyzeTracks exampleTrackLine []
        = some ({ exampleTrackLine with tokens := out.map some },
            decide (([] : Str).length = 0)) ∧
      out.length = exampleTrackTokens.length ∧
      ∀ (i : Nat) (t u : HumdrumToken), exampleTrackTokens[i]? = some t → out[i]? = some u →
        u.track = (decimalValue (firstDigitRun t.spineInfo) : Int) ∧
        ((∀ c ∈ t.spineInfo, isdigit c = false) → u.track = 0) ∧
        (∀ pre run post : Str, t.spineInfo = pre ++ run ++ post →
          (∀ c ∈ pre, isdigit c = false) → run ≠ [] → (∀ c ∈ run, isdigit c = true) →
          (∀ c, post.head? = some c → isdigit c = false) →
          u.track = (decimalValue run : Int)) :=
  ⟨by decide, rfl, by decide,
    (analyzeTracks_track exampleTrackLine [] exampleTrackTokens (by decide) rfl
      (by decide)).1⟩

/-- C12: whenever `analyzeTracks` returns on a line with spines, a token
that shares its track with another token of the line has as subtrack one plus
the number of tokens with that track on its left, and any other token has
subtrack `0`; so the subtracks of a track held by `n > 1` tokens are
`1, 2, ..., n` from left to right. It returns whenever the first run of
digits of every spine-info string has a value of at most `2147483646`. -/
theorem analyzeTracks_subtrack (l : HumdrumLine) (err : Str) (toks : List HumdrumToken)
    (hs : hasSpines l = true) (ht : l.tokens = toks.map some) :
    (∀ r : HumdrumLine × Bool, analyzeTracks l err = some r →
      ∃ out : List HumdrumToken,
        r = ({ l with tokens := out.map some }, decide (err.length = 0)) ∧
        out.length = toks.length ∧
        (∀ (i : Nat) (u : HumdrumToken), out[i]? = some u →
          ((∃ (j : Nat) (v : HumdrumToken), j ≠ i ∧ out[j]? = some v ∧ v.track = u.track) →
            u.subtrack
              = 1 + (((out.take i).countP (fun v => decide (v.track = u.track)) : Nat) : Int)) ∧
          ((¬ ∃ (j : Nat) (v : HumdrumToken), j ≠ i ∧ out[j]? = some v ∧ v.track = u.track) →
            u.subtrack = 0)) ∧
        (∀ k : Int, 1 < out.countP (fun v => decide (v.track = k)) →
          (out.filter (fun v => decide (v.track = k))).map (fun v => v.subtrack)
            = (List.range' 1 (out.countP (fun v => decide (v.track = k)))).map
                (fun (n : Nat) => (n : Int)))) ∧
    ((∀ t ∈ toks, decimalValue (firstDigitRun t.spineInfo) ≤ 2147483646) →
      ∃ r : HumdrumLine × Bool, analyzeTracks l err = some r) := by
  constructor
  · intro r hr
    have hfit := analyzeTracks_some_fits l err toks hs ht r hr
    obtain ⟨out, hrun, hlen, hidx⟩ := analyzeTracks_result l err toks hs ht hfit
    have hsub : ∀ (i : Nat) (u : HumdrumToken), out[i]? = some u →
        u.subtrack =
          if ((out.countP (fun v => decide (v.track = u.track)) : Nat) : Int) > 1
          then 1 + (((out.take i).countP (fun v => decide (v.track = u.track)) : Nat) : Int)
          else 0 := by
      intro i u hu
      have hlt : i < toks.length := by
        have := (List.getElem?_eq_some.mp hu).1
        omega
      obtain ⟨u2, hu2, _, _, _, _, hsub2⟩ := hidx i toks[i] (List.getElem?_eq_getElem hlt)
      rw [hu2] at hu
      have e : u2 = u := Option.some.inj hu
      subst e
      exact hsub2
    rw [hrun] at hr
    refine ⟨out, (Option.some.inj hr).symm, hlen, ?_, ?_⟩
    · intro i u hu
      have hiff := one_lt_countP_iff (fun v => decide (v.track = u.track)) out i u hu (by simp)
      simp only [decide_eq_true_eq] at hiff
      constructor
      · intro hex
        have h1 : 1 < out.countP (fun v => decide (v.track = u.track)) := hiff.mpr hex
        rw [hsub i u hu, if_pos (by exact_mod_cast h1)]
      · intro hnex
        have h1 : ¬ 1 < out.countP (fun v => decide (v.track = u.track)) :=
          fun h => hnex (hiff.mp h)
        rw [hsub i u hu, if_neg (by exact_mod_cast h1)]
    · intro k hk
      apply filter_map_rank
      intro i u hu hp
      have hk2 : u.track = k := by simpa using hp
      rw [hsub i u hu, hk2, if_pos (by exact_mod_cast hk)]
  · intro hfit
    obtain ⟨out, hrun, _, _⟩ := analyzeTracks_spec l err toks hs ht
      (fun t htmem => (trackScanLoop_fits t.spineInfo (hfit t htmem)).2)
    exact ⟨_, hrun⟩

/-- Witness of C12 on the example line with the spine infos `1`, `2`,
`(2)a`, `(2)b`, `3`, on which `analyzeTracks` returns. -/
theorem analyzeTracks_subtrack_witness :
    hasSpines exampleTrackLine = true ∧
    exampleTrackLine.tokens = exampleTrackTokens.map some ∧
    (∃ r : HumdrumLine × Bool, analyzeTracks exampleTrackLine [] = some r) ∧
    (∀ r : HumdrumLine × Bool, analyzeTracks exampleTrackLine [] = some r →
      ∃ out : List HumdrumToken,
        r = ({ exampleTrackLine with tokens := out.map some },
              decide (([] : Str).length = 0)) ∧
        out.length = exampleTrackTokens.length ∧
        (∀ (i : Nat) (u : HumdrumToken), out[i]? = some u →
          ((∃ (j : Nat) (v : HumdrumToken), j ≠ i ∧ out[j]? = some v ∧ v.track = u.track) →
            u.subtrack
              = 1 + (((out.take i).countP (fun v => decide (v.track = u.track)) : Nat) : Int)) ∧
          ((¬ ∃ (j : Nat) (v : HumdrumToken), j ≠ i ∧ out[j]? = some v ∧ v.track = u.track) →
            u.subtrack = 0)) ∧
        (∀ k : Int, 1 < out.countP (fun v => decide (v.track = k)) →
          (out.filter (fun v => decide (v.track = k))).map (fun v => v.subtrack)
            = (List.range' 1 (out.countP (fun v => decide (v.track = k)))).map
                (fun (n : Nat) => (n : Int)))) :=
  ⟨by decide, rfl,
    (analyzeTracks_subtrack exampleTrackLine [] exampleTrackTokens (by decide) rfl).2
      (by decide),
    (analyzeTracks_subtrack exampleTrackLine [] exampleTrackTokens (by decide) rfl).1⟩

/-- C13: whenever `analyzeTracks` returns on a line with spines, the
`subtrackCount` of every token is the number of tokens of the line that have
its track (itself included), and its subtrack is `0` iff its `subtrackCount`
is `1`. It returns whenever the first run of digits of every spine-info
string has a value of at most `2147483646`. -/
theorem analyzeTracks_subtrackCount (l : HumdrumLine) (err : Str)
    (toks : List HumdrumToken) (hs : hasSpines l = true) (ht : l.tokens = toks.map some) :
    (∀ r : HumdrumLine × Bool, analyzeTracks l err = some r →
      ∃ out : List HumdrumToken,
        r = ({ l with tokens := out.map some }, decide (err.length = 0)) ∧
        out.length = toks.length ∧
        ∀ (i : Nat) (u : HumdrumToken), out[i]? = some u →
          u.subtrackCount = ((out.countP (fun v => decide (v.track = u.track)) : Nat) : Int) ∧
          (u.subtrack = 0 ↔ u.subtrackCount = 1)) ∧
    ((∀ t ∈ toks, decimalValue (firstDigitRun t.spineInfo) ≤ 2147483646) →
      ∃ r : HumdrumLine × Bool, analyzeTracks l err = some r) := by
  constructor
  · intro r hr
    have hfit := analyzeTracks_some_fits l err toks hs ht r hr
    obtain ⟨out, hrun, hlen, hidx⟩ := analyzeTracks_result l err toks hs ht hfit
    rw [hrun] at hr
    refine ⟨out, (Option.some.inj hr).symm, hlen, ?_⟩
    intro i u hu
    have hlt : i < toks.length := by
      have := (List.getElem?_eq_some.mp hu).1
      omega
    obtain ⟨u2, hu2, _, _, _, hcnt, hsub⟩ := hidx i toks[i] (List.getElem?_eq_getElem hlt)
    rw [hu2] at hu
    have e : u2 = u := Option.some.inj hu
    subst e
    have hpos : 0 < out.countP (fun v => decide (v.track = u2.track)) :=
      List.countP_pos_iff.mpr ⟨u2, List.getElem?_mem hu2, by simp⟩
    refine ⟨hcnt, ?_⟩
    rw [hsub, hcnt]
    by_cases h1 : ((out.countP (fun v => decide (v.track = u2.track)) : Nat) : Int) > 1
    · rw [if_pos h1]
      constructor
      · intro h0
        omega
      · intro h0
        omega
    · rw [if_neg h1]
      constructor
      · intro _
        omega
      · intro _
        rfl
  · intro hfit
    obtain ⟨out, hrun, _, _⟩ := analyzeTracks_spec l err toks hs ht
      (fun t htmem => (trackScanLoop_fits t.spineInfo (hfit t htmem)).2)
    exact ⟨_, hrun⟩

/-- Witness of C13 on the example line with the spine infos `1`, `2`,
`(2)a`, `(2)b`, `3`, on which `analyzeTracks` returns. -/
theorem analyzeTracks_subtrackCount_witness :
    hasSpines exampleTrackLine = true ∧
    exampleTrackLine.tokens = exampleTrackTokens.map some ∧
    (∃ r : HumdrumLine × Bool, analyzeTracks exampleTrackLine [] = some r) ∧
    (∀ r : HumdrumLine × Bool, analyzeTracks exampleTrackLine [] = some r →
      ∃ out : List HumdrumToken,
        r = ({ exampleTrackLine with tokens := out.map some },
              decide (([] : Str).length = 0)) ∧
        out.length = exampleTrackTokens.length ∧
        ∀ (i : Nat) (u : HumdrumToken), out[i]? = some u →
          u.subtrackCount = ((out.countP (fun v => decide (v.track = u.track)) : Nat) : Int) ∧
          (u.subtrack = 0 ↔ u.subtrackCount = 1)) :=
  ⟨by decide, rfl,
    (analyzeTracks_subtrackCount exampleTrackLine [] exampleTrackTokens (by decide) rfl).2
      (by decide),
    (analyzeTracks_subtrackCount exampleTrackLine [] exampleTrackTokens (by decide) rfl).1⟩

end hum

namespace hum

/-- C14 (as stated): on the example line, whose five tokens carry the spine
infos `1`, `2`, `(2)a`, `(2)b`, `3`, the tracks are `[1,2,2,2,3]` as stated,
but the subtracks are not `[0,0,1,2,0]` and the subtrack counts are not
`[1,1,2,2,1]`. -/
theorem analyzeTracks_example_stated_fails :
    hasSpines exampleTrackLine = true ∧
    exampleTrackTokens.map (fun t => t.spineInfo)
      = [str "1", str "2", str "(2)a", str "(2)b", str "3"] ∧
    (analyzeTracks exampleTrackLine []).map (fun r => tokenTracks r.1.tokens)
      = some [1, 2, 2, 2, 3] ∧
    (analyzeTracks exampleTrackLine []).map (fun r => tokenSubtracks r.1.tokens)
      ≠ some [0, 0, 1, 2, 0] ∧
    (analyzeTracks exampleTrackLine []).map (fun r => tokenSubtrackCounts r.1.tokens)
      ≠ some [1, 1, 2, 2, 1] := by
  decide

/-- C14 (amended): for a line with spines whose five tokens carry the spine
infos `1`, `2`, `(2)a`, `(2)b`, `3`, `analyzeTracks` yields the tracks
`[1,2,2,2,3]`, the subtracks `[0,1,2,3,0]` and the subtrack counts
`[1,3,3,3,1]`: the three tokens of track 2 are numbered together. -/
theorem analyzeTracks_example (l : HumdrumLine) (err : Str) (toks : List HumdrumToken)
    (hs : hasSpines l = true) (ht : l.tokens = toks.map some)
    (hinfo : toks.map (fun t => t.spineInfo)
      = [str "1", str "2", str "(2)a", str "(2)b", str "3"]) :
    (analyzeTracks l err).map (fun r => tokenTracks r.1.tokens) = some [1, 2, 2, 2, 3] ∧
    (analyzeTracks l err).map (fun r => tokenSubtracks r.1.tokens) = some [0, 1, 2, 3, 0] ∧
    (analyzeTracks l err).map (fun r => tokenSubtrackCounts r.1.tokens)
      = some [1, 3, 3, 3, 1] := by
  obtain ⟨t0, t1, t2, t3, t4, rfl⟩ : ∃ t0 t1 t2 t3 t4, toks = [t0, t1, t2, t3, t4] := by
    rcases toks with _ | ⟨t0, _ | ⟨t1, _ | ⟨t2, _ | ⟨t3, _ | ⟨t4, _ | ⟨t5, r⟩⟩⟩⟩⟩⟩ <;>
      simp at hinfo
    exact ⟨t0, t1, t2, t3, t4, rfl⟩
  simp only [List.map_cons, List.map_nil, List.cons.injEq, and_true] at hinfo
  obtain ⟨h0, h1, h2, h3, h4⟩ := hinfo
  have e0 : trackScanLoop t0.spineInfo = 1 := by rw [h0]; decide
  have e1 : trackScanLoop t1.spineInfo = 2 := by rw [h1]; decide
  have e2 : trackScanLoop t2.spineInfo = 2 := by rw [h2]; decide
  have e3 : trackScanLoop t3.spineInfo = 2 := by rw [h3]; decide
  have e4 : trackScanLoop t4.spineInfo = 3 := by rw [h4]; decide
  have hres : resizeTable (wrapInt 4) = some [0, 0, 0, 0] := by decide
  have hrun : analyzeTracks l err = some ({ l with tokens :=
      [some { t0 with track := 1, subtrack := 0, subtrackCount := 1 },
       some { t1 with track := 2, subtrack := 1, subtrackCount := 3 },
       some { t2 with track := 2, subtrack := 2, subtrackCount := 3 },
       some { t3 with track := 2, subtrack := 3, subtrackCount := 3 },
       some { t4 with track := 3, subtrack := 0, subtrackCount := 1 }] },
      decide (err.length = 0)) := by
    unfold analyzeTracks
    simp [hs, ht, analyzeTracksParseLoop, analyzeTracksCountLoop, analyzeTracksSubtrackLoop,
      HumdrumToken.getSpineInfo, HumdrumToken.getTrack, HumdrumToken.setTrack,
      HumdrumToken.setSubtrack, HumdrumToken.setSubtrackCount, e0, e1, e2, e3, e4, hres,
      tableIncrement, tableGet]
  rw [hrun]
  simp [tokenTracks, tokenSubtracks, tokenSubtrackCounts]

/-- Witness of C14 (amended) on the example line. -/
theorem analyzeTracks_example_witness :
    hasSpines exampleTrackLine = true ∧
    exampleTrackLine.tokens = exampleTrackTokens.map some ∧
    exampleTrackTokens.map (fun t => t.spineInfo)
      = [str "1", str "2", str "(2)a", str "(2)b", str "3"] ∧
    (analyzeTracks exampleTrackLine (str "e")).map (fun r => tokenTracks r.1.tokens)
      = some [1, 2, 2, 2, 3] ∧
    (analyzeTracks exampleTrackLine (str "e")).map (fun r => tokenSubtracks r.1.tokens)
      = some [0, 1, 2, 3, 0] ∧
    (analyzeTracks exampleTrackLine (str "e")).map (fun r => tokenSubtrackCounts r.1.tokens)
      = some [1, 3, 3, 3, 1] :=
  ⟨by decide, rfl, by decide,
    analyzeTracks_example exampleTrackLine (str "e") exampleTrackTokens (by decide) rfl
      (by decide)⟩

/-- C15 (as stated): the global comment `!!x` has no spines, yet
`analyzeTracks` called with the non-empty error message `e` returns `false`
and not success. -/
theorem analyzeTracks_no_spines_stated_fails :
    hasSpines (lineOf "!!x") = false ∧
    (analyzeTracks (lineOf "!!x") (str "e")).map (fun r => r.2) = some false := by
  decide

/-- C15 (amended): for every line without spines, `analyzeTracks` returns,
leaves the line (hence the track, subtrack and subtrack count of every
token) unchanged, and reports success exactly when the error message passed
in is empty; in particular it reports success when called with an empty
error message. -/
theorem analyzeTracks_no_spines (l : HumdrumLine) (err : Str) (hs : hasSpines l = false) :
    analyzeTracks l err = some (l, decide (err.length = 0)) ∧
    analyzeTracks l [] = some (l, true) := by
  unfold analyzeTracks
  simp [hs]

/-- Witness of C15 (amended) on the global comment `!!x`. -/
theorem analyzeTracks_no_spines_witness :
    hasSpines (lineOf "!!x") = false ∧
    analyzeTracks (lineOf "!!x") (str "e")
      = some (lineOf "!!x", decide ((str "e").length = 0)) ∧
    analyzeTracks (lineOf "!!x") [] = some (lineOf "!!x", true) :=
  ⟨by decide, analyzeTracks_no_spines (lineOf "!!x") (str "e") (by decide)⟩

end hum

namespace hum

/-! ## Construction, token queries and lifecycle -/

/-- C21 (as stated): with a default-constructed `HumNum` equal to zero, the
line made by `HumdrumLine(void)` reads `0`, not `-1`, for
`durationFromBarline` and `durationToBarline`. -/
theorem fresh_line_stated_fails :
    getDurationFromBarline (mkHumdrumLine 0) ≠ -1 ∧
    getDurationToBarline (mkHumdrumLine 0) ≠ -1 := by
  constructor <;> norm_num [getDurationFromBarline, getDurationToBarline, mkHumdrumLine]

/-- C21 (amended): on a line freshly made by any of the three constructors,
`duration` and `durationFromStart` read as the sentinel `-1`, and
`durationFromBarline` and `durationToBarline`, which no constructor assigns,
read as a default-constructed `HumNum`. -/
theorem fresh_line_sentinels (humNumDefault : HumNum) (aString : Str) :
    (getDuration (mkHumdrumLine humNumDefault) = -1 ∧
      getDurationFromStart (mkHumdrumLine humNumDefault) = -1 ∧
      getDurationFromBarline (mkHumdrumLine humNumDefault) = humNumDefault ∧
      getDurationToBarline (mkHumdrumLine humNumDefault) = humNumDefault) ∧
    (getDuration (mkHumdrumLineFromString humNumDefault aString) = -1 ∧
      getDurationFromStart (mkHumdrumLineFromString humNumDefault aString) = -1 ∧
      getDurationFromBarline (mkHumdrumLineFromString humNumDefault aString) = humNumDefault ∧
      getDurationToBarline (mkHumdrumLineFromString humNumDefault aString) = humNumDefault) ∧
    (getDuration (mkHumdrumLineFromCStr humNumDefault aString) = -1 ∧
      getDurationFromStart (mkHumdrumLineFromCStr humNumDefault aString) = -1 ∧
      getDurationFromBarline (mkHumdrumLineFromCStr humNumDefault aString) = humNumDefault ∧
      getDurationToBarline (mkHumdrumLineFromCStr humNumDefault aString) = humNumDefault) :=
  ⟨⟨rfl, rfl, rfl, rfl⟩, ⟨rfl, rfl, rfl, rfl⟩, ⟨rfl, rfl, rfl, rfl⟩⟩

theorem stripCarriageReturn_eq (s : Str) :
    stripCarriageReturn s = if s.getLast? = some '\x0d' then s.dropLast else s := by
  unfold stripCarriageReturn
  by_cases h : s.getLast? = some '\x0d'
  · have hpos : s.length > 0 := by
      cases s with
      | nil => simp at h
      | cons c cs => simp
    rw [if_pos ⟨hpos, h⟩, if_pos h, List.dropLast_eq_take]
  · rw [if_neg (fun hh => h hh.2), if_neg h]

/-- C29: the line constructed from a string `s` has the text `s` without its
final character when that character is a carriage return, and the text `s`
otherwise; of two trailing carriage returns only one is removed. The
constructor from a C string does the same (a C string holds no NUL). -/
theorem constructor_strips_one_cr (humNumDefault : HumNum) (s : Str) :
    (s.getLast? = some '\x0d' →
      (mkHumdrumLineFromString humNumDefault s).text = s.dropLast) ∧
    (s.getLast? ≠ some '\x0d' → (mkHumdrumLineFromString humNumDefault s).text = s) ∧
    (mkHumdrumLineFromString humNumDefault (s ++ ['\x0d', '\x0d'])).text = s ++ ['\x0d'] ∧
    ('\x00' ∉ s →
      (mkHumdrumLineFromCStr humNumDefault s).text
        = (mkHumdrumLineFromString humNumDefault s).text) := by
  refine ⟨?_, ?_, ?_, ?_⟩
  · intro h
    simp only [mkHumdrumLineFromString, stripCarriageReturn_eq, if_pos h]
  · intro h
    simp only [mkHumdrumLineFromString, stripCarriageReturn_eq, if_neg h]
  · have h : (s ++ ['\x0d', '\x0d']).getLast? = some '\x0d' := by simp
    simp only [mkHumdrumLineFromString, stripCarriageReturn_eq, if_pos h]
    rw [show s ++ ['\x0d', '\x0d'] = (s ++ ['\x0d']) ++ ['\x0d'] by simp, List.dropLast_concat]
  · intro h
    simp only [mkHumdrumLineFromCStr, mkHumdrumLineFromString, fromCStr_of_no_nul s h]

/-- Witness of C29 on the texts `4c` and `4c` followed by a carriage
return. -/
theorem constructor_strips_one_cr_witness :
    (mkHumdrumLineFromString 0 (str "4c\r")).text = (str "4c\r").dropLast ∧
    (mkHumdrumLineFromString 0 (str "4c")).text = str "4c" ∧
    (mkHumdrumLineFromCStr 0 (str "4c\r")).text
      = (mkHumdrumLineFromString 0 (str "4c\r")).text :=
  ⟨(constructor_strips_one_cr 0 (str "4c\r")).1 (by decide),
   (constructor_strips_one_cr 0 (str "4c")).2.1 (by decide),
   (constructor_strips_one_cr 0 (str "4c\r")).2.2.2 (by decide)⟩

/-- C30 (failing input): after `clear()` on the line `a`, tab, `b` with its
two tokens, `getTokenCount()` is still `2`, and in general `clear()` leaves
the token count as it was: it sets the pointers to `NULL` without resizing
the vector. -/
theorem clear_keeps_token_count :
    getTokenCount (createTokensFromLine (lineOf "a\tb")).1 = 2 ∧
    getTokenCount (clear (createTokensFromLine (lineOf "a\tb")).1) = 2 ∧
    (clear (createTokensFromLine (lineOf "a\tb")).1).tokens = [none, none] ∧
    ∀ l : HumdrumLine, getTokenCount (clear l) = getTokenCount l := by
  refine ⟨by decide, by decide, by decide, ?_⟩
  intro l
  simp [getTokenCount, clear]

/-! ## All-null lines -/

theorem isAllNullLoop_live (isNull : HumdrumToken → Bool) (toks : List HumdrumToken) :
    isAllNullLoop isNull (toks.map some) = some (toks.all isNull) := by
  induction toks with
  | nil => rfl
  | cons t rest ih =>
    simp only [List.map_cons, isAllNullLoop, List.all_cons]
    cases h : isNull t
    · simp
    · simp [ih]

/-- C22: on a line without spines `isAllNull` is false whatever the tokens
are; on a line with spines it is true iff every token is a null token; the
data line with the tokens `.`, `.`, `.` is all-null. -/
theorem isAllNull_value (isNull : HumdrumToken → Bool) (l : HumdrumLine) :
    (hasSpines l = false → isAllNull isNull l = some false) ∧
    (∀ toks : List HumdrumToken, hasSpines l = true → l.tokens = toks.map some →
      ∃ b : Bool, isAllNull isNull l = some b ∧ (b = true ↔ ∀ t ∈ toks, isNull t = true)) ∧
    (isData exampleNullLine = true ∧
      isAllNull HumdrumToken.isNull exampleNullLine = some true) := by
  refine ⟨?_, ?_, by decide, by decide⟩
  · intro h
    simp [isAllNull, h]
  · intro toks hs ht
    refine ⟨toks.all isNull, ?_, ?_⟩
    · simp only [isAllNull, hs, Bool.not_true, Bool.false_eq_true, if_false, ht,
        isAllNullLoop_live]
    · simp [List.all_eq_true]

/-- Witness of C22 on the global comment `!!x` and on the data line with
the tokens `.`, `.`, `.`. -/
theorem isAllNull_value_witness :
    isAllNull HumdrumToken.isNull (lineOf "!!x") = some false ∧
    ∃ b : Bool, isAllNull HumdrumToken.isNull exampleNullLine = some b ∧
      (b = true ↔
        ∀ t ∈ [({ text := ['.'] } : HumdrumToken), { text := ['.'] }, { text := ['.'] }],
          HumdrumToken.isNull t = true) :=
  ⟨(isAllNull_value HumdrumToken.isNull (lineOf "!!x")).1 (by decide),
   (isAllNull_value HumdrumToken.isNull exampleNullLine).2.1
      [{ text := ['.'] }, { text := ['.'] }, { text := ['.'] }] (by decide) rfl⟩

end hum

namespace hum

/-! ## Token duration analysis -/

/-- The loop of `analyzeTokenDurations` on live tokens returns; its calls
are made on consecutive indices from the first one on, every call but the
last one made has succeeded, the loop stops before the end only after a call
that failed, and the tokens after the last call are untouched. -/
theorem analyzeTokenDurationsLoop_spec
    (analyzeDuration : HumdrumToken → Str → AnalyzeDurationResult)
    (toks : List HumdrumToken) (i : Nat) (err : Str) :
    ∃ (done : List HTp) (err2 : Str) (calls : List (Nat × Bool)),
      analyzeTokenDurationsLoop analyzeDuration (toks.map some) i err
        = some (done, err2, calls) ∧
      calls.map (fun c => c.1) = List.range' i calls.length ∧
      calls.length ≤ toks.length ∧
      (∀ k : Nat, k + 1 < calls.length → calls[k]?.map (fun c => c.2) = some true) ∧
      (calls.length < toks.length → calls.getLast?.map (fun c => c.2) = some false) ∧
      done.drop calls.length = (toks.map some).drop calls.length := by
  induction toks generalizing i err with
  | nil => exact ⟨[], err, [], rfl, rfl, le_refl _, by simp, by simp, rfl⟩
  | cons t rest ih =>
    by_cases hok : (analyzeDuration t err).ok = true
    · obtain ⟨done, err2, calls, hloop, hidx, hlen, hall, hlast, hdrop⟩ :=
        ih (i + 1) (analyzeDuration t err).err
      refine ⟨some (analyzeDuration t err).token :: done, err2, (i, true) :: calls,
        ?_, ?_, ?_, ?_, ?_, ?_⟩
      · simp only [List.map_cons, analyzeTokenDurationsLoop, hok, Bool.not_true,
          Bool.false_eq_true, if_false, hloop]
      · simp only [List.map_cons, List.length_cons, hidx]
        rfl
      · simp only [List.length_cons]
        omega
      · intro k hk
        cases k with
        | zero => simp
        | succ k2 =>
          simp only [List.length_cons] at hk
          simp only [List.getElem?_cons_succ]
          exact hall k2 (by omega)
      · intro hlt
        simp only [List.length_cons] at hlt
        have h1 := hlast (by omega)
        cases calls with
        | nil => simp at h1
        | cons c cs => simpa using h1
      · simpa using hdrop
    · have hok2 : (analyzeDuration t err).ok = false := by simpa using hok
      refine ⟨some (analyzeDuration t err).token :: rest.map some, (analyzeDuration t err).err,
        [(i, false)], ?_, rfl, ?_, ?_, ?_, ?_⟩
      · simp only [List.map_cons, analyzeTokenDurationsLoop, hok2, Bool.not_false, if_true]
      · simp
      · intro k hk
        simp at hk
      · intro _
        rfl
      · simp

/-- The loop of `analyzeTokenDurations` on live tokens: the `j`-th call is
the call of `analyzeDuration` on the `j`-th token with the error message left
by the calls before it; the log holds its flag, the token is replaced by the
one it leaves, and the final message is the one left by the last call. -/
theorem analyzeTokenDurationsLoop_calls
    (analyzeDuration : HumdrumToken → Str → AnalyzeDurationResult)
    (toks : List HumdrumToken) (i : Nat) (err : Str) :
    ∃ (done : List HTp) (err2 : Str) (calls : List (Nat × Bool)),
      analyzeTokenDurationsLoop analyzeDuration (toks.map some) i err
        = some (done, err2, calls) ∧
      (∀ (j : Nat) (t : HumdrumToken), toks[j]? = some t → j < calls.length →
        calls[j]? = some (i + j,
          (analyzeDuration t (errAfterCalls analyzeDuration (toks.take j) err)).ok) ∧
        done[j]? = some (some
          (analyzeDuration t (errAfterCalls analyzeDuration (toks.take j) err)).token)) ∧
      err2 = errAfterCalls analyzeDuration (toks.take calls.length) err := by
  induction toks generalizing i err with
  | nil => exact ⟨[], err, [], rfl, by simp, rfl⟩
  | cons t rest ih =>
    by_cases hok : (analyzeDuration t err).ok = true
    · obtain ⟨done, err2, calls, hloop, hpt, herr⟩ := ih (i + 1) (analyzeDuration t err).err
      refine ⟨some (analyzeDuration t err).token :: done, err2, (i, true) :: calls, ?_, ?_, ?_⟩
      · simp only [List.map_cons, analyzeTokenDurationsLoop, hok, Bool.not_true,
          Bool.false_eq_true, if_false, hloop]
      · intro j u hj hlt
        cases j with
        | zero =>
          simp only [List.getElem?_cons_zero, Option.some.injEq] at hj
          subst hj
          simp [errAfterCalls, hok]
        | succ k =>
          simp only [List.getElem?_cons_succ] at hj
          simp only [List.length_cons] at hlt
          have h1 := hpt k u hj (by omega)
          simp only [List.getElem?_cons_succ, List.take_succ_cons, errAfterCalls]
          rw [h1.1, h1.2]
          refine ⟨?_, rfl⟩
          congr 2
          omega
      · simp only [List.length_cons, List.take_succ_cons, errAfterCalls]
        exact herr
    · have hok2 : (analyzeDuration t err).ok = false := by simpa using hok
      refine ⟨some (analyzeDuration t err).token :: rest.map some, (analyzeDuration t err).err,
        [(i, false)], ?_, ?_, ?_⟩
      · simp only [List.map_cons, analyzeTokenDurationsLoop, hok2, Bool.not_false, if_true]
      · intro j u hj hlt
        simp only [List.length_cons, List.length_nil] at hlt
        have hj0 : j = 0 := by omega
        subst hj0
        simp only [List.getElem?_cons_zero, Option.some.injEq] at hj
        subst hj
        simp [errAfterCalls, hok2]
      · simp [errAfterCalls]

/-- C23: on a line with spines `analyzeTokenDurations` calls the duration
analysis of the tokens in left-to-right order: the call of index `j` is made
on the `j`-th token with the error message left by the calls before it, its
flag is logged and the token it leaves replaces the token; every call but the
last one made has succeeded and the loop stops before the last token only
after a call that failed, so no call is made after the first one that fails
and the tokens after it are untouched; the message on return is the one left
by the last call, and the result is true iff that message is empty. On a
line without spines no call is made and the line and the message are
unchanged. -/
theorem analyzeTokenDurations_calls
    (analyzeDuration : HumdrumToken → Str → AnalyzeDurationResult)
    (l : HumdrumLine) (err : Str) :
    (∀ toks : List HumdrumToken, hasSpines l = true → l.tokens = toks.map some →
      ∃ r : AnalyzeTokenDurationsResult,
        analyzeTokenDurations analyzeDuration l err = some r ∧
        r.calls.map (fun c => c.1) = List.range r.calls.length ∧
        r.calls.length ≤ toks.length ∧
        (∀ (j : Nat) (t : HumdrumToken), toks[j]? = some t → j < r.calls.length →
          r.calls[j]? = some (j,
            (analyzeDuration t (errAfterCalls analyzeDuration (toks.take j) err)).ok) ∧
          r.line.tokens[j]? = some (some
            (analyzeDuration t (errAfterCalls analyzeDuration (toks.take j) err)).token)) ∧
        (∀ (j : Nat) (t : HumdrumToken), toks[j]? = some t → j + 1 < r.calls.length →
          (analyzeDuration t (errAfterCalls analyzeDuration (toks.take j) err)).ok = true) ∧
        (r.calls.length < toks.length →
          ∃ (j : Nat) (t : HumdrumToken), j + 1 = r.calls.length ∧ toks[j]? = some t ∧
            (analyzeDuration t (errAfterCalls analyzeDuration (toks.take j) err)).ok = false) ∧
        (∀ k : Nat, k + 1 < r.calls.length → r.calls[k]?.map (fun c => c.2) = some true) ∧
        (r.calls.length < toks.length → r.calls.getLast?.map (fun c => c.2) = some false) ∧
        r.line.tokens.drop r.calls.length = l.tokens.drop r.calls.length ∧
        r.err = errAfterCalls analyzeDuration (toks.take r.calls.length) err ∧
        (r.result = true ↔ r.err = [])) ∧
    (hasSpines l = false →
      ∃ r : AnalyzeTokenDurationsResult,
        analyzeTokenDurations analyzeDuration l err = some r ∧ r.calls = [] ∧ r.line = l ∧
        r.err = err ∧ (r.result = true ↔ r.err = [])) := by
  constructor
  · intro toks hs ht
    obtain ⟨done, err2, calls, hloop, hidx, hlen, hall, hlast, hdrop⟩ :=
      analyzeTokenDurationsLoop_spec analyzeDuration toks 0 err
    obtain ⟨done2, err3, calls2, hloop2, hpt, herr⟩ :=
      analyzeTokenDurationsLoop_calls analyzeDuration toks 0 err
    rw [hloop] at hloop2
    simp only [Option.some.injEq, Prod.mk.injEq] at hloop2
    obtain ⟨hd, he, hc⟩ := hloop2
    subst hd he hc
    have hpt0 : ∀ (j : Nat) (t : HumdrumToken), toks[j]? = some t → j < calls.length →
        calls[j]? = some (j,
          (analyzeDuration t (errAfterCalls analyzeDuration (toks.take j) err)).ok) ∧
        done[j]? = some (some
          (analyzeDuration t (errAfterCalls analyzeDuration (toks.take j) err)).token) := by
      intro j t hj hlt
      have := hpt j t hj hlt
      simpa using this
    refine ⟨{ line := { l with tokens := done }, err := err2,
              result := decide (err2.length = 0), calls := calls }, ?_, ?_, hlen, hpt0, ?_, ?_,
              hall, hlast, ?_, herr, ?_⟩
    · simp only [analyzeTokenDurations, hs, Bool.not_true, Bool.false_eq_true, if_false, ht,
        hloop]
    · simp only [hidx, List.range_eq_range']
    · intro j t hj hlt
      dsimp only at hlt ⊢
      have h1 := (hpt0 j t hj (by omega)).1
      have h2 := hall j hlt
      rw [h1] at h2
      simpa using h2
    · intro hlt
      dsimp only at hlt ⊢
      have hpos : 0 < calls.length := by
        rcases Nat.eq_zero_or_pos calls.length with h0 | h0
        · have hnil : calls = [] := List.length_eq_zero.mp h0
          have := hlast hlt
          rw [hnil] at this
          simp at this
        · exact h0
      have hj : calls.length - 1 < toks.length := by omega
      refine ⟨calls.length - 1, toks[calls.length - 1], by omega,
        List.getElem?_eq_getElem hj, ?_⟩
      have h1 := (hpt0 (calls.length - 1) _ (List.getElem?_eq_getElem hj) (by omega)).1
      have h2 := hlast hlt
      rw [List.getLast?_eq_getElem?, h1] at h2
      simpa using h2
    · simp only [ht, hdrop]
    · simp [List.length_eq_zero]
  · intro hs
    refine ⟨{ line := l, err := err, result := decide (err.length = 0), calls := [] }, ?_, rfl,
      rfl, rfl, ?_⟩
    · simp [analyzeTokenDurations, hs]
    · simp [List.length_eq_zero]

/-- Witness of C23 on the data line `4c`, `x`, `4e` (the analysis of `x`
fails) and on the global comment `!!x`. -/
theorem analyzeTokenDurations_calls_witness :
    hasSpines exampleDurationLine = true ∧
    exampleDurationLine.tokens = exampleDurationTokens.map some ∧
    (analyzeTokenDurations exampleAnalyzeDuration exampleDurationLine []).map
        (fun r => (r.calls, r.err, r.result)) = some ([(0, true), (1, false)], str "bad", false) ∧
    (∃ r : AnalyzeTokenDurationsResult,
        analyzeTokenDurations exampleAnalyzeDuration exampleDurationLine [] = some r ∧
        r.calls.map (fun c => c.1) = List.range r.calls.length ∧
        r.calls.length ≤ exampleDurationTokens.length ∧
        (∀ (j : Nat) (t : HumdrumToken), exampleDurationTokens[j]? = some t →
          j < r.calls.length →
          r.calls[j]? = some (j, (exampleAnalyzeDuration t
            (errAfterCalls exampleAnalyzeDuration (exampleDurationTokens.take j) [])).ok) ∧
          r.line.tokens[j]? = some (some (exampleAnalyzeDuration t
            (errAfterCalls exampleAnalyzeDuration (exampleDurationTokens.take j) [])).token)) ∧
        (∀ (j : Nat) (t : HumdrumToken), exampleDurationTokens[j]? = some t →
          j + 1 < r.calls.length →
          (exampleAnalyzeDuration t
            (errAfterCalls exampleAnalyzeDuration (exampleDurationTokens.take j) [])).ok
              = true) ∧
        (r.calls.length < exampleDurationTokens.length →
          ∃ (j : Nat) (t : HumdrumToken), j + 1 = r.calls.length ∧
            exampleDurationTokens[j]? = some t ∧
            (exampleAnalyzeDuration t
              (errAfterCalls exampleAnalyzeDuration (exampleDurationTokens.take j) [])).ok
                = false) ∧
        (∀ k : Nat, k + 1 < r.calls.length → r.calls[k]?.map (fun c => c.2) = some true) ∧
        (r.calls.length < exampleDurationTokens.length →
          r.calls.getLast?.map (fun c => c.2) = some false) ∧
        r.line.tokens.drop r.calls.length = exampleDurationLine.tokens.drop r.calls.length ∧
        r.err = errAfterCalls exampleAnalyzeDuration
          (exampleDurationTokens.take r.calls.length) [] ∧
        (r.result = true ↔ r.err = [])) ∧
    (∃ r : AnalyzeTokenDurationsResult,
        analyzeTokenDurations exampleAnalyzeDuration (lineOf "!!x") [] = some r ∧
        r.calls = [] ∧ r.line = lineOf "!!x" ∧ r.err = [] ∧ (r.result = true ↔ r.err = [])) :=
  ⟨by decide, rfl, by decide,
   (analyzeTokenDurations_calls exampleAnalyzeDuration exampleDurationLine []).1
      exampleDurationTokens (by decide) rfl,
   (analyzeTokenDurations_calls exampleAnalyzeDuration (lineOf "!!x") []).2 (by decide)⟩

end hum

namespace hum

/-! ## Parameter import -/

theorem take_length_takeWhile (p : Char → Bool) (q : Str) :
    q.take (q.takeWhile p).length = q.takeWhile p := by
  induction q with
  | nil => rfl
  | cons c cs ih =>
    by_cases h : p c = true
    · simp [List.takeWhile_cons, h, ih]
    · simp [List.takeWhile_cons, h]

theorem drop_length_takeWhile (p : Char → Bool) (q : Str) :
    q.drop (q.takeWhile p).length = q.dropWhile p := by
  induction q with
  | nil => rfl
  | cons c cs ih =>
    by_cases h : p c = true
    · simp [List.takeWhile_cons, List.dropWhile_cons, h, ih]
    · simp [List.takeWhile_cons, List.dropWhile_cons, h]

/-- The key and value that the loop of `setParameters` computes from a piece
with `find` and `substr` are the text before the first `=` and the text after
it, or the piece and `true`. -/
theorem setParametersLoop_cons (replaceOcc : Str → Str → Str → Str) (ns1 ns2 piece : Str)
    (rest : List Str) (store : HumHash) :
    setParametersLoop replaceOcc ns1 ns2 (piece :: rest) store =
      setParametersLoop replaceOcc ns1 ns2 rest
        (store.setValue ns1 ns2
          (parameterKeyValue (replaceOcc piece (str "&colon;") [':'])).1
          (parameterKeyValue (replaceOcc piece (str "&colon;") [':'])).2) := by
  rw [setParametersLoop]
  generalize replaceOcc piece (str "&colon;") [':'] = q
  unfold parameterKeyValue
  by_cases hmem : '=' ∈ q
  · have hloc := toInt_find_single_mem '=' q hmem
    have hnp : toInt (find q ['=']) ≠ npos := by
      rw [Ne, toInt_find_single_eq_npos]
      exact not_not.mpr hmem
    have hkey : substr q 0 (toSizeT (toInt (find q ['=']))) = q.takeWhile (fun c => c != '=') := by
      rw [hloc, toSizeT_natCast]
      simp only [substr, List.drop_zero]
      exact take_length_takeWhile _ q
    have hval : substr q (toSizeT (toInt (find q ['=']) + 1)) q.length
        = (q.dropWhile (fun c => c != '=')).drop 1 := by
      have hcast : ((q.takeWhile (fun c => c != '=')).length : Int) + 1
          = (((q.takeWhile (fun c => c != '=')).length + 1 : Nat) : Int) := by omega
      rw [hloc, hcast, toSizeT_natCast]
      simp only [substr]
      rw [List.take_of_length_le (by simp)]
      rw [← drop_length_takeWhile (fun c => c != '=') q, List.drop_drop, Nat.add_comm]
    rw [if_pos hnp, if_pos hmem, hkey, hval]
  · have hnp : ¬ toInt (find q ['=']) ≠ npos := by
      rw [Ne, not_not]
      exact toInt_find_single_not_mem '=' q hmem
    rw [if_neg hnp, if_neg hmem]

theorem setParametersLoop_eq_foldl (replaceOcc : Str → Str → Str → Str) (ns1 ns2 : Str)
    (pieces : List Str) (store : HumHash) :
    setParametersLoop replaceOcc ns1 ns2 pieces store =
      pieces.foldl (fun st piece => st.setValue ns1 ns2
        (parameterKeyValue (replaceOcc piece (str "&colon;") [':'])).1
        (parameterKeyValue (replaceOcc piece (str "&colon;") [':'])).2) store := by
  induction pieces generalizing store with
  | nil => rfl
  | cons piece rest ih => rw [setParametersLoop_cons, ih, List.foldl_cons]

/-- Reading the store after a write: the written triple reads as the written
value and every other triple as before. -/
theorem getValue_setValue (h : HumHash) (ns1 ns2 key value a b k : Str) :
    (h.setValue ns1 ns2 key value).getValue a b k =
      if (ns1, ns2, key) = (a, b, k) then value else h.getValue a b k := by
  unfold HumHash.setValue HumHash.getValue
  by_cases heq : (ns1, ns2, key) = (a, b, k)
  · simp [heq]
  · rw [if_neg heq]
    simp only [List.find?_cons, heq, decide_False, List.find?_filter]
    congr 2
    funext e
    by_cases he : e.1 = (a, b, k)
    · have h1 : e.1 ≠ (ns1, ns2, key) := fun h2 => heq (h2.symm.trans he)
      have d1 : decide (e.1 ≠ (ns1, ns2, key)) = true := decide_eq_true h1
      have d2 : decide (e.1 = (a, b, k)) = true := decide_eq_true he
      simp only [d1, d2]
      rfl
    · have d2 : decide (e.1 = (a, b, k)) = false := decide_eq_false he
      simp only [d2]
      simp

end hum

namespace hum

/-- Writes under keys other than `key` do not change what `key` reads as. -/
theorem getValue_foldl_of_ne (kv : Str → Str × Str) (ns1 ns2 key : Str) (back : List Str)
    (store : HumHash) (h : ∀ q ∈ back, (kv q).1 ≠ key) :
    (back.foldl (fun st piece => st.setValue ns1 ns2 (kv piece).1 (kv piece).2) store).getValue
        ns1 ns2 key
      = store.getValue ns1 ns2 key := by
  induction back generalizing store with
  | nil => rfl
  | cons q rest ih =>
    rw [List.foldl_cons, ih _ (fun r hr => h r (List.mem_cons_of_mem _ hr)), getValue_setValue]
    have hne : ¬ (ns1, ns2, (kv q).1) = (ns1, ns2, key) := by
      intro e
      simp only [Prod.mk.injEq, true_and] at e
      exact h q (List.mem_cons_self _ _) e
    rw [if_neg hne]

/-- C24: for a directive body with the fields `ns1`, `ns2` and at least one
piece, `setParameters` stores for each piece, after the replacement of
`&colon;` by `:`, the key before the first `=` with the value after it, or
the whole piece with the value `true`, under `(ns1, ns2)`, in the order of
the pieces, so that the last piece with a given key decides its value; the
body `ns1:ns2:key1=value1:key2` gives `value1` for `key1` and `true` for
`key2`. -/
theorem setParameters_stores (split : Str → Char → List Str)
    (replaceOcc : Str → Str → Str → Str) (l : HumdrumLine) :
    (∀ (pdata ns1 ns2 p : Str) (ps : List Str), split pdata ':' = ns1 :: ns2 :: p :: ps →
      (setParameters split replaceOcc l pdata).parameters
        = (p :: ps).foldl (fun st piece => st.setValue ns1 ns2
            (parameterKeyValue (replaceOcc piece (str "&colon;") [':'])).1
            (parameterKeyValue (replaceOcc piece (str "&colon;") [':'])).2) l.parameters ∧
      (∀ key : Str,
        (∀ q ∈ p :: ps, (parameterKeyValue (replaceOcc q (str "&colon;") [':'])).1 ≠ key) →
        (setParameters split replaceOcc l pdata).parameters.getValue ns1 ns2 key
          = l.parameters.getValue ns1 ns2 key) ∧
      (∀ (front : List Str) (piece : Str) (back : List Str),
        p :: ps = front ++ piece :: back →
        (∀ q ∈ back, (parameterKeyValue (replaceOcc q (str "&colon;") [':'])).1
          ≠ (parameterKeyValue (replaceOcc piece (str "&colon;") [':'])).1) →
        (setParameters split replaceOcc l pdata).parameters.getValue ns1 ns2
            (parameterKeyValue (replaceOcc piece (str "&colon;") [':'])).1
          = (parameterKeyValue (replaceOcc piece (str "&colon;") [':'])).2)) ∧
    ((setParameters splitString replaceOccurrences l
        (str "ns1:ns2:key1=value1:key2")).parameters.getValue (str "ns1") (str "ns2")
        (str "key1") = str "value1" ∧
     (setParameters splitString replaceOccurrences l
        (str "ns1:ns2:key1=value1:key2")).parameters.getValue (str "ns1") (str "ns2")
        (str "key2") = str "true") := by
  have hstore : ∀ (sp : Str → Char → List Str) (ro : Str → Str → Str → Str)
      (pdata ns1 ns2 p : Str) (ps : List Str), sp pdata ':' = ns1 :: ns2 :: p :: ps →
      (setParameters sp ro l pdata).parameters
        = (p :: ps).foldl (fun st piece => st.setValue ns1 ns2
            (parameterKeyValue (ro piece (str "&colon;") [':'])).1
            (parameterKeyValue (ro piece (str "&colon;") [':'])).2) l.parameters := by
    intro sp ro pdata ns1 ns2 p ps hsplit
    unfold setParameters
    simp only [hsplit, List.length_cons]
    rw [if_neg (by omega), setParametersLoop_eq_foldl]
  constructor
  · intro pdata ns1 ns2 p ps hsplit
    refine ⟨hstore split replaceOcc pdata ns1 ns2 p ps hsplit, ?_, ?_⟩
    · intro key hne
      rw [hstore split replaceOcc pdata ns1 ns2 p ps hsplit]
      exact getValue_foldl_of_ne
        (fun q => parameterKeyValue (replaceOcc q (str "&colon;") [':'])) ns1 ns2 key _ _ hne
    · intro front piece back hdec hne
      rw [hstore split replaceOcc pdata ns1 ns2 p ps hsplit, hdec, List.foldl_append,
        List.foldl_cons]
      rw [getValue_foldl_of_ne
        (fun q => parameterKeyValue (replaceOcc q (str "&colon;") [':'])) ns1 ns2 _ back _ hne,
        getValue_setValue, if_pos rfl]
  · have hs : splitString (str "ns1:ns2:key1=value1:key2") ':'
        = [str "ns1", str "ns2", str "key1=value1", str "key2"] := by decide
    have h1 : parameterKeyValue (replaceOccurrences (str "key1=value1") (str "&colon;") [':'])
        = (str "key1", str "value1") := by decide
    have h2 : parameterKeyValue (replaceOccurrences (str "key2") (str "&colon;") [':'])
        = (str "key2", str "true") := by decide
    rw [hstore splitString replaceOccurrences _ _ _ _ _ hs]
    simp only [List.foldl_cons, List.foldl_nil, h1, h2, getValue_setValue]
    constructor
    · simp only [if_true]
      exact if_neg (by decide)
    · simp only [if_true]

/-- Witness of C24 on the body `ns1:ns2:key1=value1:key2`. -/
theorem setParameters_stores_witness :
    splitString (str "ns1:ns2:key1=value1:key2") ':'
      = str "ns1" :: str "ns2" :: str "key1=value1" :: [str "key2"] ∧
    (setParameters splitString replaceOccurrences (lineOf "!!x")
        (str "ns1:ns2:key1=value1:key2")).parameters
      = (str "key1=value1" :: [str "key2"]).foldl (fun st piece =>
          st.setValue (str "ns1") (str "ns2")
            (parameterKeyValue (replaceOccurrences piece (str "&colon;") [':'])).1
            (parameterKeyValue (replaceOccurrences piece (str "&colon;") [':'])).2)
          (lineOf "!!x").parameters :=
  ⟨by decide,
   ((setParameters_stores splitString replaceOccurrences (lineOf "!!x")).1
      (str "ns1:ns2:key1=value1:key2") (str "ns1") (str "ns2") (str "key1=value1")
      [str "key2"] (by decide)).1⟩

/-- C25: for a directive body with fewer than three colon-delimited fields
`setParameters(body)` leaves the parameter store (and the line) unchanged,
and `setParameters` given a line of at most two characters does too. -/
theorem setParameters_short (split : Str → Char → List Str)
    (replaceOcc : Str → Str → Str → Str) (l : HumdrumLine) :
    (∀ pdata : Str, (split pdata ':').length < 3 →
      setParameters split replaceOcc l pdata = l) ∧
    (∀ pLine : HumdrumLine, pLine.text.length ≤ 2 →
      setParametersFromLine split replaceOcc l pLine = l) := by
  constructor
  · intro pdata h
    unfold setParameters
    simp only [h, if_true]
  · intro pLine h
    unfold setParametersFromLine
    rw [if_pos h]

/-- Witness of C25 on the body `ns1:key=value`, of two fields, and on the
line `!!`. -/
theorem setParameters_short_witness :
    (splitString (str "ns1:key=value") ':').length < 3 ∧
    setParameters splitString replaceOccurrences (lineOf "4c") (str "ns1:key=value")
      = lineOf "4c" ∧
    setParametersFromLine splitString replaceOccurrences (lineOf "4c") (lineOf "!!")
      = lineOf "4c" :=
  ⟨by decide,
   (setParameters_short splitString replaceOccurrences (lineOf "4c")).1
      (str "ns1:key=value") (by decide),
   (setParameters_short splitString replaceOccurrences (lineOf "4c")).2
      (lineOf "!!") (by decide)⟩

end hum

namespace hum

/-! ## CSV ingestion: the scanning loop -/

theorem CsvRuns.refl (newcsv separator : Str) (st : CsvState) :
    CsvRuns newcsv separator st st :=
  ⟨0, by simp, fun _ => rfl⟩

theorem CsvRuns.trans {newcsv separator : Str} {st1 st2 st3 : CsvState}
    (h12 : CsvRuns newcsv separator st1 st2) (h23 : CsvRuns newcsv separator st2 st3) :
    CsvRuns newcsv separator st1 st3 := by
  obtain ⟨n, hn, hrun⟩ := h12
  obtain ⟨m, hm, hrun2⟩ := h23
  refine ⟨m + n, by push_cast; omega, ?_⟩
  intro fuel
  rw [← Nat.add_assoc, hrun, hrun2]

/-- One iteration that advances `i` is a run. -/
theorem CsvRuns.step (newcsv separator : Str) (st : CsvState)
    (hlt : st.i < (newcsv.length : Int)) (hadv : st.i + 1 ≤ (csvStep newcsv separator st).i) :
    CsvRuns newcsv separator st (csvStep newcsv separator st) := by
  refine ⟨1, by push_cast; omega, ?_⟩
  intro fuel
  rw [csvLoop, if_pos hlt]

/-- A run from the initial variables to variables with `i` at the end of the
text is what the loop returns with the fuel given by `setLineFromCsv`. -/
theorem csvLoop_of_runs (newcsv separator : Str) (st2 : CsvState)
    (h : CsvRuns newcsv separator { i := 0, inquote := false, output := [] } st2)
    (hend : st2.i = (newcsv.length : Int)) :
    csvLoop newcsv separator (newcsv.length + 1) { i := 0, inquote := false, output := [] }
      = some st2 := by
  obtain ⟨n, hn, hrun⟩ := h
  simp only at hn
  have hle : n ≤ newcsv.length := by omega
  have hfuel : newcsv.length + 1 = (newcsv.length - n) + 1 + n := by omega
  rw [hfuel, hrun, csvLoop, if_neg (by omega)]

theorem charAt_prefix_length (pre rest : Str) (c : Char) :
    charAt (pre ++ c :: rest) (pre.length : Int) = c := by
  have h0 : (0 : Int) ≤ (pre.length : Int) := by omega
  have h1 : ((pre.length : Int)).toNat = pre.length := by omega
  simp only [charAt, h0, if_true, h1, List.getD_eq_getElem?_getD]
  rw [List.getElem?_append_right (by omega)]
  simp

theorem charAt_prefix_length_succ (pre rest : Str) (c d : Char) :
    charAt (pre ++ c :: d :: rest) ((pre.length : Int) + 1) = d := by
  have h0 : (0 : Int) ≤ (pre.length : Int) + 1 := by omega
  have h1 : ((pre.length : Int) + 1).toNat = pre.length + 1 := by omega
  simp only [charAt, h0, if_true, h1, List.getD_eq_getElem?_getD]
  rw [List.getElem?_append_right (by omega)]
  simp

theorem charAt_prefix_length_succ_end (pre : Str) (c : Char) :
    charAt (pre ++ [c]) ((pre.length : Int) + 1) = '\x00' := by
  have h0 : (0 : Int) ≤ (pre.length : Int) + 1 := by omega
  have h1 : ((pre.length : Int) + 1).toNat = pre.length + 1 := by omega
  simp only [charAt, h0, if_true, h1, List.getD_eq_getElem?_getD]
  rw [List.getElem?_eq_none (by simp)]
  rfl

theorem substr_prefix_length (pre suf : Str) (n : Nat) :
    substr (pre ++ suf) (toSizeT (pre.length : Int)) n = suf.take n := by
  rw [toSizeT_natCast]
  simp [substr]

end hum

namespace hum

theorem csvRuns_of_step (s separator : Str) (st st2 : CsvState)
    (hlt : st.i < (s.length : Int)) (hstep : csvStep s separator st = st2)
    (hadv : st.i + 1 ≤ st2.i) : CsvRuns s separator st st2 := by
  subst hstep
  exact CsvRuns.step s separator st hlt hadv

/-- Outside quotes, a double quote opens a quoted part. -/
theorem csvRuns_open (s separator pre rest out : Str) (hs : s = pre ++ '"' :: rest) :
    CsvRuns s separator { i := (pre.length : Int), inquote := false, output := out }
      { i := ((pre ++ ['"']).length : Int), inquote := true, output := out } := by
  subst hs
  apply csvRuns_of_step
  · simp
  · simp [csvStep, charAt_prefix_length]
  · simp

/-- Inside quotes, two double quotes in a row give one double quote. -/
theorem csvRuns_doubled (s separator pre rest out : Str) (hs : s = pre ++ '"' :: '"' :: rest) :
    CsvRuns s separator { i := (pre.length : Int), inquote := true, output := out }
      { i := ((pre ++ ['"', '"']).length : Int), inquote := true, output := out ++ ['"'] } := by
  subst hs
  apply csvRuns_of_step
  · simp
    omega
  · have hlen : (pre.length : Int) < (pre.length : Int) + ((rest.length : Int) + 1 + 1) - 1 := by
      omega
    simp [csvStep, charAt_prefix_length, charAt_prefix_length_succ, hlen]
    omega
  · simp

/-- Inside quotes, a double quote that is not followed by another one closes
the quoted part. -/
theorem csvRuns_close (s separator pre rest out : Str) (hs : s = pre ++ '"' :: rest)
    (hrest : rest.head? ≠ some '"') :
    CsvRuns s separator { i := (pre.length : Int), inquote := true, output := out }
      { i := ((pre ++ ['"']).length : Int), inquote := false, output := out } := by
  subst hs
  have hnext : ¬ charAt (pre ++ '"' :: rest) ((pre.length : Int) + 1) = '"' := by
    cases rest with
    | nil =>
      rw [charAt_prefix_length_succ_end]
      decide
    | cons d ds =>
      rw [charAt_prefix_length_succ]
      intro hd
      exact hrest (by simp [hd])
  apply csvRuns_of_step
  · simp
  · simp [csvStep, charAt_prefix_length, hnext]
  · simp

/-- Inside quotes, a character other than the double quote is copied. -/
theorem csvRuns_copy_quoted (s separator pre rest out : Str) (c : Char)
    (hs : s = pre ++ c :: rest) (hc : c ≠ '"') :
    CsvRuns s separator { i := (pre.length : Int), inquote := true, output := out }
      { i := ((pre ++ [c]).length : Int), inquote := true, output := out ++ [c] } := by
  subst hs
  apply csvRuns_of_step
  · simp
  · simp [csvStep, charAt_prefix_length, hc]
  · simp

/-- Outside quotes and with the separator `,`, a comma gives a tab. -/
theorem csvRuns_comma (s pre rest out : Str) (hs : s = pre ++ ',' :: rest) :
    CsvRuns s [','] { i := (pre.length : Int), inquote := false, output := out }
      { i := ((pre ++ [',']).length : Int), inquote := false, output := out ++ ['\t'] } := by
  subst hs
  apply csvRuns_of_step
  · simp
  · simp [csvStep, charAt_prefix_length, substr_prefix_length]
  · simp

/-- Outside quotes and with the separator `,`, a character other than the
double quote and the comma is copied. -/
theorem csvRuns_copy_plain (s pre rest out : Str) (c : Char) (hs : s = pre ++ c :: rest)
    (hq : c ≠ '"') (hc : c ≠ ',') :
    CsvRuns s [','] { i := (pre.length : Int), inquote := false, output := out }
      { i := ((pre ++ [c]).length : Int), inquote := false, output := out ++ [c] } := by
  subst hs
  apply csvRuns_of_step
  · simp
  · simp [csvStep, charAt_prefix_length, substr_prefix_length, hq, hc]
  · simp

end hum

namespace hum

/-- Outside quotes and with the separator `,`, a text without double quote
is copied to the end with every comma turned into a tab. -/
theorem csvRuns_plain (s : Str) (suf pre out : Str) (hs : s = pre ++ suf)
    (hq : '"' ∉ suf) :
    CsvRuns s [','] { i := (pre.length : Int), inquote := false, output := out }
      { i := (s.length : Int), inquote := false,
        output := out ++ suf.map (fun c => if c = ',' then '\t' else c) } := by
  induction suf generalizing pre out with
  | nil =>
    subst hs
    simp only [List.append_nil, List.map_nil]
    exact CsvRuns.refl _ _ _
  | cons c rest ih =>
    have hc : c ≠ '"' := fun e => hq (e ▸ List.mem_cons_self _ _)
    have hrest : '"' ∉ rest := fun h => hq (List.mem_cons_of_mem _ h)
    have hs2 : s = (pre ++ [c]) ++ rest := by simp [hs]
    have hnext := ih (pre ++ [c])
      (out ++ [if c = ',' then '\t' else c]) hs2 hrest
    have hout : out ++ [if c = ',' then '\t' else c]
          ++ rest.map (fun c => if c = ',' then '\t' else c)
        = out ++ (c :: rest).map (fun c => if c = ',' then '\t' else c) := by simp
    rw [hout] at hnext
    by_cases hcomma : c = ','
    · subst hcomma
      have hfirst := csvRuns_comma s pre rest out hs
      simp only [if_true] at hnext
      exact CsvRuns.trans hfirst hnext
    · have hfirst := csvRuns_copy_plain s pre rest out c hs hc hcomma
      simp only [if_neg hcomma] at hnext
      exact CsvRuns.trans hfirst hnext

/-- Inside quotes, the escaped form of a field text is read back as the
field text. -/
theorem csvRuns_escaped (s separator : Str) (field pre rest out : Str)
    (hs : s = pre ++ csvEscape field ++ rest) :
    CsvRuns s separator { i := (pre.length : Int), inquote := true, output := out }
      { i := ((pre ++ csvEscape field).length : Int), inquote := true,
        output := out ++ field } := by
  induction field generalizing pre out with
  | nil =>
    simp only [csvEscape, List.append_nil]
    exact CsvRuns.refl _ _ _
  | cons c cs ih =>
    by_cases hc : c = '"'
    · subst hc
      have hs1 : s = pre ++ '"' :: '"' :: (csvEscape cs ++ rest) := by
        simp [hs, csvEscape]
      have hfirst := csvRuns_doubled s separator pre (csvEscape cs ++ rest) out hs1
      have hs2 : s = (pre ++ ['"', '"']) ++ csvEscape cs ++ rest := by
        simp [hs, csvEscape]
      have hnext := ih (pre ++ ['"', '"']) (out ++ ['"']) hs2
      have hres := CsvRuns.trans hfirst hnext
      simpa [csvEscape] using hres
    · have hs1 : s = pre ++ c :: (csvEscape cs ++ rest) := by
        simp [hs, csvEscape, hc]
      have hfirst := csvRuns_copy_quoted s separator pre (csvEscape cs ++ rest) out c hs1 hc
      have hs2 : s = (pre ++ [c]) ++ csvEscape cs ++ rest := by
        simp [hs, csvEscape, hc]
      have hnext := ih (pre ++ [c]) (out ++ [c]) hs2
      have hres := CsvRuns.trans hfirst hnext
      simpa [csvEscape, hc] using hres

/-- Outside quotes, a quoted field that is not followed by a double quote
is read back as its field text. -/
theorem csvRuns_quoted (s separator : Str) (field pre tail out : Str)
    (hs : s = pre ++ csvQuote field ++ tail) (htail : tail.head? ≠ some '"') :
    CsvRuns s separator { i := (pre.length : Int), inquote := false, output := out }
      { i := ((pre ++ csvQuote field).length : Int), inquote := false,
        output := out ++ field } := by
  have hs1 : s = pre ++ '"' :: (csvEscape field ++ '"' :: tail) := by
    simp [hs, csvQuote]
  have hopen := csvRuns_open s separator pre (csvEscape field ++ '"' :: tail) out hs1
  have hs2 : s = (pre ++ ['"']) ++ csvEscape field ++ ('"' :: tail) := by
    simp [hs, csvQuote]
  have hfield := csvRuns_escaped s separator field (pre ++ ['"']) ('"' :: tail) out hs2
  have hs3 : s = (pre ++ ['"'] ++ csvEscape field) ++ '"' :: tail := by
    simp [hs, csvQuote]
  have hclose := csvRuns_close s separator (pre ++ ['"'] ++ csvEscape field) tail
    (out ++ field) hs3 htail
  have hres := CsvRuns.trans (CsvRuns.trans hopen hfield) hclose
  have hpre : pre ++ ['"'] ++ csvEscape field ++ ['"'] = pre ++ csvQuote field := by
    simp [csvQuote]
  rw [hpre] at hres
  exact hres

theorem csvEncode_cons_cons (f g : Str) (rest : List Str) :
    csvEncode (f :: g :: rest) = csvQuote f ++ [','] ++ csvEncode (g :: rest) := by
  simp [csvEncode, List.intercalate, List.intersperse]

theorem csvEncode_single (f : Str) : csvEncode [f] = csvQuote f := by
  simp [csvEncode, List.intercalate]

/-- With the separator `,`, the CSV text of a non-empty list of fields is
read back as the fields joined by tabs. -/
theorem csvRuns_fields (s : Str) (fields : List Str) (hne : fields ≠ []) (pre out : Str)
    (hs : s = pre ++ csvEncode fields) :
    CsvRuns s [','] { i := (pre.length : Int), inquote := false, output := out }
      { i := (s.length : Int), inquote := false,
        output := out ++ ['\t'].intercalate fields } := by
  induction fields generalizing pre out with
  | nil => exact absurd rfl hne
  | cons f rest ih =>
    cases rest with
    | nil =>
      rw [csvEncode_single] at hs
      have hs1 : s = pre ++ csvQuote f ++ [] := by simp [hs]
      have h := csvRuns_quoted s [','] f pre [] out hs1 (by simp)
      have hlen : pre ++ csvQuote f = s := by simp [hs]
      rw [hlen] at h
      simpa [List.intercalate] using h
    | cons g gs =>
      rw [csvEncode_cons_cons] at hs
      have hs1 : s = pre ++ csvQuote f ++ (',' :: csvEncode (g :: gs)) := by simp [hs]
      have hq := csvRuns_quoted s [','] f pre (',' :: csvEncode (g :: gs)) out hs1
        (by simp)
      have hs2 : s = (pre ++ csvQuote f) ++ ',' :: csvEncode (g :: gs) := by simp [hs]
      have hc := csvRuns_comma s (pre ++ csvQuote f) (csvEncode (g :: gs)) (out ++ f) hs2
      have hs3 : s = (pre ++ csvQuote f ++ [',']) ++ csvEncode (g :: gs) := by simp [hs]
      have hrest := ih (by simp) (pre ++ csvQuote f ++ [',']) (out ++ f ++ ['\t']) hs3
      have hres := CsvRuns.trans (CsvRuns.trans hq hc) hrest
      rw [intercalate_tab_cons_cons]
      simpa using hres

end hum

namespace hum

/-! ## CSV ingestion: the claims -/

/-- The test of `setLineFromCsv` for a text taken verbatim is that the text
starts with `!!`. -/
theorem verbatim_test_iff (s : Str) :
    (s.length ≥ 2 ∧ charAt s 0 = '!' ∧ charAt s 1 = '!') ↔ s.take 2 = ['!', '!'] := by
  match s with
  | [] => simp
  | [c] => simp
  | c :: d :: rest => simp [charAt]

/-- The two branches of `setLineFromCsv` on a non-empty CSV text. -/
theorem setLineFromCsv_of_ne_nil (humNumDefault : HumNum) (l : HumdrumLine)
    (csv separator : Str) (hne : csv ≠ []) :
    setLineFromCsv humNumDefault l csv separator =
      if (stripCarriageReturn csv).take 2 = ['!', '!'] then
        some (mkHumdrumLineFromString humNumDefault (stripCarriageReturn csv))
      else
        match csvLoop (stripCarriageReturn csv) separator
            ((stripCarriageReturn csv).length + 1) { i := 0, inquote := false, output := [] } with
        | none => none
        | some st => some { l with text := st.output } := by
  have hlen : ¬ csv.length < 1 := by
    cases csv with
    | nil => exact absurd rfl hne
    | cons c cs => simp
  unfold setLineFromCsv stripCarriageReturn
  simp only [if_neg hlen]
  by_cases hv : (if csv.length > 0 ∧ csv.getLast? = some '\x0d' then csv.take (csv.length - 1)
      else csv).take 2 = ['!', '!']
  · rw [if_pos ((verbatim_test_iff _).mpr hv), if_pos hv]
  · rw [if_neg (fun h => hv ((verbatim_test_iff _).mp h)), if_neg hv]

theorem csvEncode_head (fields : List Str) (hne : fields ≠ []) :
    ∃ rest : Str, csvEncode fields = '"' :: rest := by
  match fields, hne with
  | [f], _ => exact ⟨csvEscape f ++ ['"'], by simp [csvEncode_single, csvQuote]⟩
  | f :: g :: gs, _ =>
    exact ⟨csvEscape f ++ ['"'] ++ [','] ++ csvEncode (g :: gs),
      by simp [csvEncode_cons_cons, csvQuote]⟩

theorem csvEncode_getLast (fields : List Str) (hne : fields ≠ []) :
    (csvEncode fields).getLast? = some '"' := by
  induction fields with
  | nil => exact absurd rfl hne
  | cons f rest ih =>
    cases rest with
    | nil =>
      rw [csvEncode_single, csvQuote, List.getLast?_append]
      rfl
    | cons g gs =>
      rw [csvEncode_cons_cons, List.getLast?_append, ih (by simp)]
      rfl

/-- C26: for every non-empty list of field texts, `setLineFromCsv` with the
separator `,` on the comma-joined fields, each wrapped in double quotes with
every inner double quote doubled, sets the line text to the fields joined by
tabs; the CSV field `"a""b"` gives `a"b`. -/
theorem setLineFromCsv_quoted_fields (humNumDefault : HumNum) (l : HumdrumLine) :
    (∀ fields : List Str, fields ≠ [] →
      setLineFromCsv humNumDefault l (csvEncode fields) [',']
        = some { l with text := ['\t'].intercalate fields }) ∧
    setLineFromCsv humNumDefault l (str "\"a\"\"b\"") [',']
      = some { l with text := str "a\"b" } := by
  have hgen : ∀ fields : List Str, fields ≠ [] →
      setLineFromCsv humNumDefault l (csvEncode fields) [',']
        = some { l with text := ['\t'].intercalate fields } := by
    intro fields hne
    obtain ⟨rest, hhead⟩ := csvEncode_head fields hne
    have hlast := csvEncode_getLast fields hne
    have hnil : csvEncode fields ≠ [] := by rw [hhead]; simp
    have hstrip : stripCarriageReturn (csvEncode fields) = csvEncode fields := by
      rw [stripCarriageReturn_eq, if_neg]
      rw [hlast]
      decide
    have hverb : ¬ (csvEncode fields).take 2 = ['!', '!'] := by
      rw [hhead]
      cases rest <;> simp
    have hruns := csvRuns_fields (csvEncode fields) fields hne [] [] (by simp)
    have hloop := csvLoop_of_runs (csvEncode fields) [','] _ hruns rfl
    rw [setLineFromCsv_of_ne_nil humNumDefault l _ _ hnil, hstrip, if_neg hverb, hloop]
    simp
  refine ⟨hgen, ?_⟩
  have henc : csvEncode [str "a\"b"] = str "\"a\"\"b\"" := by decide
  have h := hgen [str "a\"b"] (by simp)
  rw [henc] at h
  rw [h]
  simp [List.intercalate]

/-- Witness of C26 on the three fields `a,b`, `c"d` and the empty field. -/
theorem setLineFromCsv_quoted_fields_witness :
    [str "a,b", str "c\"d", str ""] ≠ [] ∧
    setLineFromCsv 0 (lineOf "") (csvEncode [str "a,b", str "c\"d", str ""]) [',']
      = some { lineOf "" with text := ['\t'].intercalate [str "a,b", str "c\"d", str ""] } :=
  ⟨by decide,
   (setLineFromCsv_quoted_fields 0 (lineOf "")).1 [str "a,b", str "c\"d", str ""]
     (by decide)⟩

/-- C27: for a non-empty CSV text that does not start with `!!`, holds no
double quote and does not end in a carriage return, `setLineFromCsv` with the
separator `,` sets the line text to the CSV text with every comma replaced
by a tab and every other character unchanged. -/
theorem setLineFromCsv_plain (humNumDefault : HumNum) (l : HumdrumLine) (csv : Str)
    (hne : csv ≠ []) (hverb : csv.take 2 ≠ ['!', '!']) (hq : '"' ∉ csv)
    (hcr : csv.getLast? ≠ some '\x0d') :
    setLineFromCsv humNumDefault l csv [',']
      = some { l with text := csv.map (fun c => if c = ',' then '\t' else c) } := by
  have hstrip : stripCarriageReturn csv = csv := by
    rw [stripCarriageReturn_eq, if_neg hcr]
  have hruns := csvRuns_plain csv csv [] [] (by simp) hq
  have hloop := csvLoop_of_runs csv [','] _ hruns rfl
  rw [setLineFromCsv_of_ne_nil humNumDefault l _ _ hne, hstrip, if_neg hverb, hloop]
  simp

/-- Witness of C27 on the CSV text `4c,4d,.`. -/
theorem setLineFromCsv_plain_witness :
    str "4c,4d,." ≠ [] ∧ (str "4c,4d,.").take 2 ≠ ['!', '!'] ∧ '"' ∉ str "4c,4d,." ∧
    (str "4c,4d,.").getLast? ≠ some '\x0d' ∧
    setLineFromCsv 0 (lineOf "") (str "4c,4d,.") [',']
      = some { lineOf "" with
          text := (str "4c,4d,.").map (fun c => if c = ',' then '\t' else c) } :=
  ⟨by decide, by decide, by decide, by decide,
   setLineFromCsv_plain 0 (lineOf "") (str "4c,4d,.") (by decide) (by decide) (by decide)
     (by decide)⟩

/-- A text that starts with `!!` still does once one trailing carriage
return is removed. -/
theorem stripCarriageReturn_bang_bang (rest : Str) :
    (stripCarriageReturn ('!' :: '!' :: rest)).take 2 = ['!', '!'] := by
  rw [stripCarriageReturn_eq]
  cases rest with
  | nil => decide
  | cons c cs =>
    split
    · simp [List.dropLast]
    · rfl

/-- C28 (failing input): on a CSV text that starts with `!!`,
`setLineFromCsv` makes the line the one that the constructor
`HumdrumLine(const string&)` builds from the text without one trailing
carriage return. The constructor removes one more carriage return and starts
from no tokens and no owner: the CSV text `!!x` followed by two carriage
returns gives the text `!!x`, not `!!x` followed by one carriage return, and
the two tokens of the line it is called on are gone. -/
theorem setLineFromCsv_verbatim_reconstructs :
    (∀ (humNumDefault : HumNum) (l : HumdrumLine) (rest separator : Str),
      setLineFromCsv humNumDefault l ('!' :: '!' :: rest) separator
        = some (mkHumdrumLineFromString humNumDefault
            (stripCarriageReturn ('!' :: '!' :: rest)))) ∧
    (∀ (humNumDefault : HumNum) (l : HumdrumLine) (rest separator : Str),
      (setLineFromCsv humNumDefault l ('!' :: '!' :: rest) separator).map (fun r => r.text)
        = some (stripCarriageReturn (stripCarriageReturn ('!' :: '!' :: rest)))) ∧
    stripCarriageReturn (str "!!x\r\r") = str "!!x\r" ∧
    (setLineFromCsv 0 (lineOf "") (str "!!x\r\r") [',']).map (fun r => r.text)
      = some (str "!!x") ∧
    exampleTerminatorLine.tokens.length = 2 ∧
    (setLineFromCsv 0 exampleTerminatorLine (str "!!x") [',']).map (fun r => r.tokens)
      = some [] := by
  have hgen : ∀ (humNumDefault : HumNum) (l : HumdrumLine) (rest separator : Str),
      setLineFromCsv humNumDefault l ('!' :: '!' :: rest) separator
        = some (mkHumdrumLineFromString humNumDefault
            (stripCarriageReturn ('!' :: '!' :: rest))) := by
    intro humNumDefault l rest separator
    rw [setLineFromCsv_of_ne_nil humNumDefault l _ _ (by simp),
      if_pos (stripCarriageReturn_bang_bang rest)]
  refine ⟨hgen, ?_, by decide, ?_, by decide, ?_⟩
  · intro humNumDefault l rest separator
    rw [hgen]
    rfl
  · have h := hgen 0 (lineOf "") (str "x\r\r") [',']
    have e : ('!' :: '!' :: str "x\r\r") = str "!!x\r\r" := by decide
    rw [e] at h
    rw [h]
    decide
  · have h := hgen 0 exampleTerminatorLine (str "x") [',']
    have e : ('!' :: '!' :: str "x") = str "!!x" := by decide
    rw [e] at h
    rw [h]
    rfl

end hum

namespace hum

/-! ## Terminators and lazy tokens -/

/-- The two character tests of `isTerminator` on a line without tokens hold
exactly when the text starts with `*!`. -/
theorem equalChar_star_bang (l : HumdrumLine) :
    (equalChar l 1 '!' && equalChar l 0 '*') = true ↔ l.text.take 2 = ['*', '!'] := by
  cases htext : l.text with
  | nil => simp [equalChar_nil l htext]
  | cons c cs =>
    cases cs with
    | nil => simp [equalChar_one_single l c htext]
    | cons d ds =>
      rw [equalChar_one_cons l c d ds htext, equalChar_zero_cons l c (d :: ds) htext]
      simp only [Bool.and_eq_true, decide_eq_true_eq, List.take_succ_cons, List.take_zero,
        List.cons.injEq, and_true]
      exact And.comm

/-- A line whose text starts with `*!` is an interpretation and not an
exclusive interpretation. -/
theorem interp_of_star_bang (l : HumdrumLine) (h : l.text.take 2 = ['*', '!']) :
    isInterp l = true ∧ isExclusive l = false := by
  cases htext : l.text with
  | nil => rw [htext] at h; simp at h
  | cons c cs =>
    cases cs with
    | nil => rw [htext] at h; simp at h
    | cons d ds =>
      rw [htext] at h
      simp only [List.take_succ_cons, List.take_zero, List.cons.injEq, and_true] at h
      obtain ⟨hc, hd⟩ := h
      unfold isInterp isExclusive
      rw [equalChar_one_cons l c d ds htext, equalChar_zero_cons l c (d :: ds) htext, hc, hd]
      decide

/-- The loop of `isTerminator` on non-`NULL` tokens returns whether every
token is a terminator. -/
theorem isTerminatorLoop_live (f : HumdrumToken → Bool) (toks : List HumdrumToken) :
    isTerminatorLoop f (toks.map some) = some (toks.all f) := by
  induction toks with
  | nil => rfl
  | cons t rest ih =>
    simp only [List.map_cons, isTerminatorLoop, List.all_cons]
    cases h : f t
    · simp
    · simp [ih]

/-- C31: on a line with no parsed tokens `isTerminator` returns, and it is
true iff the text starts with the two characters `*!`, in which case the line
is an interpretation and not an exclusive interpretation; on a line with
parsed (non-`NULL`) tokens it returns, and it is true iff every token is a
terminator token. -/
theorem isTerminator_value (isTerminatorToken : HumdrumToken → Bool) (l : HumdrumLine) :
    (l.tokens = [] →
      (∃ b : Bool, isTerminator isTerminatorToken l = some b ∧
        (b = true ↔ l.text.take 2 = ['*', '!'])) ∧
      (isTerminator isTerminatorToken l = some true →
        isInterp l = true ∧ isExclusive l = false)) ∧
    (∀ toks : List HumdrumToken, toks ≠ [] → l.tokens = toks.map some →
      ∃ b : Bool, isTerminator isTerminatorToken l = some b ∧
        (b = true ↔ ∀ t ∈ toks, isTerminatorToken t = true)) := by
  constructor
  · intro h
    have hval : isTerminator isTerminatorToken l
        = some (equalChar l 1 '!' && equalChar l 0 '*') := by
      simp [isTerminator, getTokenCount, h]
    refine ⟨⟨_, hval, equalChar_star_bang l⟩, ?_⟩
    intro ht
    rw [hval] at ht
    exact interp_of_star_bang l ((equalChar_star_bang l).mp (Option.some.inj ht))
  · intro toks hne ht
    refine ⟨toks.all isTerminatorToken, ?_, ?_⟩
    · have hcount : ¬ getTokenCount l = 0 := by
        cases toks with
        | nil => exact absurd rfl hne
        | cons t ts =>
          simp only [getTokenCount, ht, List.map_cons, List.length_cons]
          omega
      simp only [isTerminator, if_neg hcount, ht, isTerminatorLoop_live]
    · simp [List.all_eq_true]

/-- Witness of C31 on the line `*!x` without tokens and on the line with the
two parsed tokens `*-`, `*-`. -/
theorem isTerminator_value_witness :
    ((∃ b : Bool, isTerminator exampleIsTerminatorToken (lineOf "*!x") = some b ∧
        (b = true ↔ (lineOf "*!x").text.take 2 = ['*', '!'])) ∧
      (isTerminator exampleIsTerminatorToken (lineOf "*!x") = some true →
        isInterp (lineOf "*!x") = true ∧ isExclusive (lineOf "*!x") = false)) ∧
    ∃ b : Bool, isTerminator exampleIsTerminatorToken exampleTerminatorLine = some b ∧
      (b = true ↔
        ∀ t ∈ [({ text := ['*', '-'] } : HumdrumToken), { text := ['*', '-'] }],
          exampleIsTerminatorToken t = true) :=
  ⟨(isTerminator_value exampleIsTerminatorToken (lineOf "*!x")).1 rfl,
   (isTerminator_value exampleIsTerminatorToken exampleTerminatorLine).2
      [{ text := ['*', '-'] }, { text := ['*', '-'] }] (by decide) rfl⟩

/-- C32: on a line with no tokens `getTokens` tokenizes the current text as
`createTokensFromLine` does, stores the tokens in the line and returns them;
on a line that already has tokens it returns those tokens and leaves the line
as it is, whatever the text of the line. -/
theorem getTokens_lazy (l : HumdrumLine) :
    (l.tokens = [] →
      getTokens l = ((createTokensFromLine l).1, (createTokensFromLine l).1.tokens)) ∧
    (l.tokens ≠ [] →
      getTokens l = (l, l.tokens) ∧
      ∀ text2 : Str, (getTokens { l with text := text2 }).2 = l.tokens) := by
  constructor
  · intro h
    simp [getTokens, h]
  · intro h
    have hlen : ¬ l.tokens.length = 0 := fun e => h (List.length_eq_zero.mp e)
    constructor
    · simp [getTokens, hlen]
    · intro text2
      simp [getTokens, hlen]

/-- Witness of C32 on the line `a<TAB>b` without tokens, and on the line
with the two parsed tokens `*-`, `*-` whose text is replaced by `x`. -/
theorem getTokens_lazy_witness :
    getTokens (lineOf "a\tb")
      = ((createTokensFromLine (lineOf "a\tb")).1,
         (createTokensFromLine (lineOf "a\tb")).1.tokens) ∧
    tokenTexts (getTokens (lineOf "a\tb")).2 = [['a'], ['b']] ∧
    getTokens exampleTerminatorLine = (exampleTerminatorLine, exampleTerminatorLine.tokens) ∧
    (getTokens { exampleTerminatorLine with text := ['x'] }).2 = exampleTerminatorLine.tokens :=
  ⟨(getTokens_lazy (lineOf "a\tb")).1 rfl, by decide,
   ((getTokens_lazy exampleTerminatorLine).2 (by decide)).1,
   ((getTokens_lazy exampleTerminatorLine).2 (by decide)).2 ['x']⟩

end hum

namespace hum

/-! ## Inverse round trip -/

/-- The texts of the tokens made from a list of field texts are these
fields. -/
theorem tokenTexts_map_newToken (L : List Str) : tokenTexts (L.map newToken) = L := by
  induction L with
  | nil => rfl
  | cons x xs ih =>
    simp only [tokenTexts, List.map_cons, newToken] at ih ⊢
    simp [ih]

/-- C33: for every non-empty list of tokens in which no text contains a tab,
the last text is non-empty (or the list is the single empty text), and the
tab-joined text does not start with `!!`, `createLineFromTokens` succeeds and
sets the line text to the tab-joined texts, and `createTokensFromLine` on the
result returns the number of tokens and yields tokens with exactly the same
texts in the same order. -/
theorem tokens_inverse_roundtrip (l : HumdrumLine) (toks : List HumdrumToken)
    (hne : toks ≠ [])
    (htab : ∀ t ∈ toks, '\t' ∉ t.text)
    (hlast : (toks.map (fun t => t.text)).getLast? ≠ some [] ∨
      toks.map (fun t => t.text) = [[]])
    (hnc : (['\t'].intercalate (toks.map (fun t => t.text))).take 2 ≠ ['!', '!']) :
    ∃ l1 : HumdrumLine,
      createLineFromTokens { l with tokens := toks.map some } = some l1 ∧
      l1.text = ['\t'].intercalate (toks.map (fun t => t.text)) ∧
      tokenTexts (createTokensFromLine l1).1.tokens = toks.map (fun t => t.text) ∧
      (createTokensFromLine l1).2 = (toks.length : Int) := by
  refine ⟨{ l with tokens := toks.map some,
                   text := ['\t'].intercalate (toks.map (fun t => t.text)) }, ?_, rfl, ?_⟩
  · simp only [createLineFromTokens, createLineLoop_some, List.nil_append, Option.map_some']
  · refine (?_ : ∀ l1 : HumdrumLine,
      l1.text = ['\t'].intercalate (toks.map (fun t => t.text)) →
      tokenTexts (createTokensFromLine l1).1.tokens = toks.map (fun t => t.text) ∧
        (createTokensFromLine l1).2 = (toks.length : Int)) _ rfl
    intro l1 htext
    have hcount : (createTokensFromLine l1).2 = ((createTokensFromLine l1).1.tokens.length : Int) := by
      simp only [createTokensFromLine]
    have hlen : ∀ L : List Str, tokenTexts (createTokensFromLine l1).1.tokens = L →
        (createTokensFromLine l1).1.tokens = L.map newToken →
        L = toks.map (fun t => t.text) →
        tokenTexts (createTokensFromLine l1).1.tokens = toks.map (fun t => t.text) ∧
          (createTokensFromLine l1).2 = (toks.length : Int) := by
      intro L h1 h2 h3
      refine ⟨h1.trans h3, ?_⟩
      rw [hcount, h2, h3]
      simp
    by_cases hsingle : toks.map (fun t => t.text) = [[]]
    · have hnil : l1.text = [] := by
        rw [htext, hsingle]
        rfl
      have htok := (createTokensFromLine_single l1 (Or.inl hnil)).1
      rw [hnil] at htok
      have htok2 : (createTokensFromLine l1).1.tokens = [([] : Str)].map newToken := by
        rw [htok]
        rfl
      exact hlen [[]] (by rw [htok2, tokenTexts_map_newToken]) htok2 hsingle.symm
    · have hlast2 : (toks.map (fun t => t.text)).getLast? ≠ some [] := by
        rcases hlast with h | h
        · exact h
        · exact absurd h hsingle
      have htexts_ne : toks.map (fun t => t.text) ≠ [] := by
        intro h
        exact hne (List.map_eq_nil_iff.mp h)
      have hnotab : ∀ x ∈ toks.map (fun t => t.text), '\t' ∉ x := by
        intro x hx
        obtain ⟨t, ht, rfl⟩ := List.mem_map.mp hx
        exact htab t ht
      have hsplit : l1.text.splitOn '\t' = toks.map (fun t => t.text) := by
        rw [htext]
        exact List.splitOn_intercalate _ '\t' hnotab htexts_ne
      have hne1 : l1.text ≠ [] := by
        intro h
        rw [h] at hsplit
        rw [List.splitOn_nil] at hsplit
        exact hsingle hsplit.symm
      have hnc1 : l1.text.take 2 ≠ ['!', '!'] := by
        rw [htext]
        exact hnc
      have htok := createTokensFromLine_tokens l1 hne1 hnc1
      have hdrop : splitTabsDropEmptyLast l1.text = toks.map (fun t => t.text) := by
        unfold splitTabsDropEmptyLast
        rw [hsplit, if_neg hlast2]
      rw [hdrop] at htok
      exact hlen _ (by rw [htok, tokenTexts_map_newToken]) htok rfl

/-- Witness of C33 on the two tokens `4c`, `4d`. -/
theorem tokens_inverse_roundtrip_witness :
    ∃ l1 : HumdrumLine,
      createLineFromTokens
          { lineOf "" with tokens := [({ text := str "4c" } : HumdrumToken),
              { text := str "4d" }].map some } = some l1 ∧
      l1.text = ['\t'].intercalate
        ([({ text := str "4c" } : HumdrumToken), { text := str "4d" }].map (fun t => t.text)) ∧
      tokenTexts (createTokensFromLine l1).1.tokens
        = [({ text := str "4c" } : HumdrumToken), { text := str "4d" }].map (fun t => t.text) ∧
      (createTokensFromLine l1).2
        = ([({ text := str "4c" } : HumdrumToken), { text := str "4d" }].length : Int) :=
  tokens_inverse_roundtrip (lineOf "") [{ text := str "4c" }, { text := str "4d" }]
    (by decide) (by decide) (by decide) (by decide)

end hum

namespace hum

/-! ## Track analysis: the table indices -/

/-- C34 (as stated): the only token of a data line carries the spine-info
string `2147483648`; its parsed track is the `int` `-2147483648`, `maxtrack`
stays `0`, the tables get length `1`, the track is not between `0` and
`maxtrack`, the index `-2147483648` is out of range and `analyzeTracks` does
not return. -/
theorem analyzeTracks_indices_stated_fails :
    hasSpines exampleOverflowLine = true ∧
    exampleOverflowLine.tokens = [some (tokenWithSpineInfo "2147483648")] ∧
    (analyzeTracksParseLoop exampleOverflowLine.tokens 0).map
        (fun r => (tokenTracks r.1, r.2)) = some ([-2147483648], 0) ∧
    resizeTable (wrapInt (0 + 1)) = some [0] ∧
    ¬ (0 ≤ trackScanLoop (str "2147483648") ∧ trackScanLoop (str "2147483648") ≤ 0) ∧
    tableGet [0] (trackScanLoop (str "2147483648")) = none ∧
    analyzeTracks exampleOverflowLine [] = none := by
  decide

/-- C34 (amended): on a line with spines and non-`NULL` tokens whose parsed
tracks are all from `0` to `2147483646` (which holds when the first run of
digits of every spine-info string has a decimal value of at most
`2147483646`, so for the empty list and for strings without a digit), the
first loop of `analyzeTracks` ends with a `maxtrack` that is `0` for an empty
token list and the largest parsed track otherwise; every track `t` has
`0 ≤ t ≤ maxtrack`; the two tables are created with length `maxtrack + 1`,
the population table still has that length after the counting loop, every
track indexes both tables in range, and `analyzeTracks` returns without an
out-of-range access. -/
theorem analyzeTracks_indices_in_range (l : HumdrumLine) (err : Str)
    (toks : List HumdrumToken) (hs : hasSpines l = true) (ht : l.tokens = toks.map some)
    (hfit : ∀ t ∈ toks, 0 ≤ trackScanLoop t.spineInfo ∧ trackScanLoop t.spineInfo ≤ 2147483646) :
    (∃ (parsed : List HumdrumToken) (maxtrack : Int) (table subtracks : List Int),
      analyzeTracksParseLoop l.tokens 0 = some (parsed.map some, maxtrack) ∧
      parsed.map (fun t => t.track) = toks.map (fun t => trackScanLoop t.spineInfo) ∧
      (toks = [] → maxtrack = 0) ∧
      (toks ≠ [] → ∃ t ∈ parsed, t.track = maxtrack) ∧
      (∀ t ∈ parsed, 0 ≤ t.track ∧ t.track ≤ maxtrack) ∧
      resizeTable (wrapInt (maxtrack + 1)) = some table ∧
      (table.length : Int) = maxtrack + 1 ∧
      analyzeTracksCountLoop (parsed.map some) table = some subtracks ∧
      (subtracks.length : Int) = maxtrack + 1 ∧
      (∀ t ∈ parsed, ∃ s c : Int, tableGet subtracks t.track = some s ∧
        tableGet table t.track = some c) ∧
      ∃ r : HumdrumLine × Bool, analyzeTracks l err = some r) ∧
    (∀ info : Str, decimalValue (firstDigitRun info) ≤ 2147483646 →
      0 ≤ trackScanLoop info ∧ trackScanLoop info ≤ 2147483646) := by
  refine ⟨?_, fun info h => (trackScanLoop_fits info h).2⟩
  obtain ⟨m, hparse, hm0, _, hall, hatt⟩ := analyzeTracksParseLoop_max toks
  have hm1 : m ≤ 2147483646 := by
    rcases hatt with h | ⟨t, htmem, h⟩
    · omega
    · rw [← h]
      exact (hfit t htmem).2
  have hresize := resizeTable_of_fits m hm0 hm1
  have hrange : ∀ u ∈ toks.map (fun t => t.setTrack (trackScanLoop t.spineInfo)),
      tableGet (List.replicate (toSizeT (m + 1)) (0 : Int)) u.track = some 0 := by
    intro u hu
    obtain ⟨t, htmem, rfl⟩ := List.mem_map.mp hu
    exact tableGet_replicate m _ (hfit t htmem).1 (hall t htmem)
  obtain ⟨subtracks, hcount, hpop⟩ := analyzeTracksCountLoop_spec
    (toks.map (fun t => t.setTrack (trackScanLoop t.spineInfo)))
    (List.replicate (toSizeT (m + 1)) (0 : Int)) (fun u hu => ⟨0, hrange u hu⟩)
  have hlen0 : ((List.replicate (toSizeT (m + 1)) (0 : Int)).length : Int) = m + 1 := by
    rw [List.length_replicate]
    unfold toSizeT
    rw [if_pos (by omega)]
    omega
  obtain ⟨out, hrun, _, _⟩ := analyzeTracks_spec l err toks hs ht hfit
  refine ⟨toks.map (fun t => t.setTrack (trackScanLoop t.spineInfo)), m,
    List.replicate (toSizeT (m + 1)) (0 : Int), subtracks,
    ?_, ?_, ?_, ?_, ?_, hresize, hlen0, hcount, ?_, ?_, ⟨_, hrun⟩⟩
  · rw [ht, hparse]
  · simp [HumdrumToken.setTrack, Function.comp_def]
  · intro hnil
    rw [hnil] at hparse
    simp only [List.map_nil, analyzeTracksParseLoop, Option.some.injEq, Prod.mk.injEq,
      true_and] at hparse
    exact hparse.symm
  · intro hne
    rcases hatt with h | ⟨t, htmem, h⟩
    · cases toks with
      | nil => exact absurd rfl hne
      | cons t0 rest =>
        refine ⟨t0.setTrack (trackScanLoop t0.spineInfo), List.mem_map.mpr
          ⟨t0, List.mem_cons_self _ _, rfl⟩, ?_⟩
        have h1 := hall t0 (List.mem_cons_self _ _)
        have h2 := (hfit t0 (List.mem_cons_self _ _)).1
        simp only [HumdrumToken.setTrack]
        omega
    · exact ⟨t.setTrack (trackScanLoop t.spineInfo), List.mem_map.mpr ⟨t, htmem, rfl⟩, h⟩
  · intro u hu
    obtain ⟨t, htmem, rfl⟩ := List.mem_map.mp hu
    exact ⟨(hfit t htmem).1, hall t htmem⟩
  · rw [analyzeTracksCountLoop_length _ _ _ hcount]
    exact hlen0
  · intro u hu
    exact ⟨_, 0, hpop u.track 0 (hrange u hu), hrange u hu⟩

/-- Witness of C34 (amended) on the data line whose tokens carry the
spine-info strings (empty), `ab` and `12`. -/
theorem analyzeTracks_indices_in_range_witness :
    hasSpines exampleNoDigitLine = true ∧
    exampleNoDigitLine.tokens = exampleNoDigitTokens.map some ∧
    (∀ t ∈ exampleNoDigitTokens,
      0 ≤ trackScanLoop t.spineInfo ∧ trackScanLoop t.spineInfo ≤ 2147483646) ∧
    ∃ (parsed : List HumdrumToken) (maxtrack : Int) (table subtracks : List Int),
      analyzeTracksParseLoop exampleNoDigitLine.tokens 0 = some (parsed.map some, maxtrack) ∧
      parsed.map (fun t => t.track)
        = exampleNoDigitTokens.map (fun t => trackScanLoop t.spineInfo) ∧
      (exampleNoDigitTokens = [] → maxtrack = 0) ∧
      (exampleNoDigitTokens ≠ [] → ∃ t ∈ parsed, t.track = maxtrack) ∧
      (∀ t ∈ parsed, 0 ≤ t.track ∧ t.track ≤ maxtrack) ∧
      resizeTable (wrapInt (maxtrack + 1)) = some table ∧
      (table.length : Int) = maxtrack + 1 ∧
      analyzeTracksCountLoop (parsed.map some) table = some subtracks ∧
      (subtracks.length : Int) = maxtrack + 1 ∧
      (∀ t ∈ parsed, ∃ s c : Int, tableGet subtracks t.track = some s ∧
        tableGet table t.track = some c) ∧
      ∃ r : HumdrumLine × Bool, analyzeTracks exampleNoDigitLine [] = some r :=
  ⟨by decide, rfl, by decide,
    (analyzeTracks_indices_in_range exampleNoDigitLine [] exampleNoDigitTokens (by decide) rfl
      (by decide)).1⟩

end hum

namespace hum

/-! ## CSV ingestion: the two overloads and the end of the scan -/

/-- C35 (failing input): the overload of `setLineFromCsv` that takes a C
string never reads its `separator` and scans with the separator `,`; on the
CSV text `a;b` with the separator `;` the string overload gives the text `a`,
tab, `b` and the C-string overload gives the text `a;b`. -/
theorem setLineFromCsv_overloads_differ :
    (∀ (humNumDefault : HumNum) (l : HumdrumLine) (csv separator : Str),
      setLineFromCsvCStr humNumDefault l csv separator
        = setLineFromCsv humNumDefault l (fromCStr csv) [',']) ∧
    (setLineFromCsv 0 (lineOf "") (str "a;b") [';']).map (fun r => r.text)
      = some (str "a\tb") ∧
    (setLineFromCsvCStr 0 (lineOf "") (str "a;b") [';']).map (fun r => r.text)
      = some (str "a;b") ∧
    (setLineFromCsvCStr 0 (lineOf "") (str "a;b") [';']).map (fun r => r.text)
      ≠ (setLineFromCsv 0 (lineOf "") (str "a;b") [';']).map (fun r => r.text) := by
  refine ⟨fun _ _ _ _ => rfl, by decide, by decide, by decide⟩

/-- The advance of the scan index in one iteration of the loop of
`setLineFromCsv`. -/
theorem csvStep_index (newcsv separator : Str) (st : CsvState) :
    (csvStep newcsv separator st).i =
      if st.inquote = true ∧ charAt newcsv st.i = '"' ∧ charAt newcsv (st.i + 1) = '"'
          ∧ st.i < (newcsv.length : Int) - 1 then st.i + 2
      else if st.inquote = false ∧ charAt newcsv st.i ≠ '"'
          ∧ substr newcsv (toSizeT st.i) separator.length = separator then
        st.i + (separator.length : Int)
      else st.i + 1 := by
  unfold csvStep
  by_cases h1 : charAt newcsv st.i = '"' ∧ st.inquote = false
  · have hq : ¬ (st.inquote = true ∧ charAt newcsv st.i = '"' ∧ charAt newcsv (st.i + 1) = '"'
        ∧ st.i < (newcsv.length : Int) - 1) := by
      intro h
      rw [h1.2] at h
      exact absurd h.1 (by decide)
    have hs : ¬ (st.inquote = false ∧ charAt newcsv st.i ≠ '"'
        ∧ substr newcsv (toSizeT st.i) separator.length = separator) := fun h => h.2.1 h1.1
    rw [if_pos h1, if_neg hq, if_neg hs]
  · rw [if_neg h1]
    by_cases h2 : st.inquote = true ∧ charAt newcsv st.i = '"' ∧ charAt newcsv (st.i + 1) = '"'
        ∧ st.i < (newcsv.length : Int) - 1
    · rw [if_pos h2, if_pos h2]
      simp only []
      omega
    · rw [if_neg h2, if_neg h2]
      by_cases h3 : charAt newcsv st.i = '"'
      · have hs : ¬ (st.inquote = false ∧ charAt newcsv st.i ≠ '"'
            ∧ substr newcsv (toSizeT st.i) separator.length = separator) := fun h => h.2.1 h3
        rw [if_pos h3, if_neg hs]
      · rw [if_neg h3]
        by_cases h4 : st.inquote = false
            ∧ substr newcsv (toSizeT st.i) separator.length = separator
        · have hs : st.inquote = false ∧ charAt newcsv st.i ≠ '"'
              ∧ substr newcsv (toSizeT st.i) separator.length = separator := ⟨h4.1, h3, h4.2⟩
          rw [if_pos h4, if_pos hs]
          simp only []
          omega
        · have hs : ¬ (st.inquote = false ∧ charAt newcsv st.i ≠ '"'
              ∧ substr newcsv (toSizeT st.i) separator.length = separator) :=
            fun h => h4 ⟨h.1, h.2.2⟩
          rw [if_neg h4, if_neg hs]

/-- With a non-empty separator every iteration moves the scan index
forward. -/
theorem csvStep_index_lt (newcsv separator : Str) (hsep : separator ≠ []) (st : CsvState) :
    st.i < (csvStep newcsv separator st).i := by
  have hlen : 0 < separator.length := List.length_pos.mpr hsep
  rw [csvStep_index]
  split
  · omega
  · split <;> omega

/-- With a non-empty separator the scanning loop ends within as many
iterations as characters are left, with the index at or past the end. -/
theorem csvLoop_returns (newcsv separator : Str) (hsep : separator ≠ []) (fuel : Nat) :
    ∀ st : CsvState, ((newcsv.length : Int) - st.i).toNat < fuel →
      ∃ st2 : CsvState, csvLoop newcsv separator fuel st = some st2 ∧
        (newcsv.length : Int) ≤ st2.i := by
  induction fuel with
  | zero => intro st h; omega
  | succ n ih =>
    intro st h
    unfold csvLoop
    by_cases hi : st.i < (newcsv.length : Int)
    · rw [if_pos hi]
      apply ih
      have := csvStep_index_lt newcsv separator hsep st
      omega
    · rw [if_neg hi]
      exact ⟨st, rfl, by omega⟩

/-- C36: for every CSV text and every non-empty separator, one iteration of
the scanning loop of `setLineFromCsv` adds 2 to the scan index on a doubled
quote inside quotes, the separator length on a separator outside quotes, and
1 otherwise, so the index strictly increases; the loop started at index 0
ends within `size()` iterations with the index at or past the end, and
`setLineFromCsv` returns. -/
theorem setLineFromCsv_scan_terminates (separator : Str) (hsep : separator ≠ []) :
    (∀ (newcsv : Str) (st : CsvState),
      (csvStep newcsv separator st).i =
        (if st.inquote = true ∧ charAt newcsv st.i = '"' ∧ charAt newcsv (st.i + 1) = '"'
            ∧ st.i < (newcsv.length : Int) - 1 then st.i + 2
         else if st.inquote = false ∧ charAt newcsv st.i ≠ '"'
            ∧ substr newcsv (toSizeT st.i) separator.length = separator then
           st.i + (separator.length : Int)
         else st.i + 1) ∧
      st.i < (csvStep newcsv separator st).i) ∧
    (∀ newcsv : Str, ∃ st2 : CsvState,
      csvLoop newcsv separator (newcsv.length + 1) { i := 0, inquote := false, output := [] }
        = some st2 ∧ (newcsv.length : Int) ≤ st2.i) ∧
    (∀ (humNumDefault : HumNum) (l : HumdrumLine) (csv : Str), ∃ l2 : HumdrumLine,
      setLineFromCsv humNumDefault l csv separator = some l2) := by
  have hloop : ∀ newcsv : Str, ∃ st2 : CsvState,
      csvLoop newcsv separator (newcsv.length + 1) { i := 0, inquote := false, output := [] }
        = some st2 ∧ (newcsv.length : Int) ≤ st2.i := by
    intro newcsv
    apply csvLoop_returns newcsv separator hsep
    simp only []
    omega
  refine ⟨fun newcsv st => ⟨csvStep_index newcsv separator st,
    csvStep_index_lt newcsv separator hsep st⟩, hloop, ?_⟩
  intro humNumDefault l csv
  by_cases hne : csv = []
  · rw [hne]
    exact ⟨l, rfl⟩
  · rw [setLineFromCsv_of_ne_nil humNumDefault l csv separator hne]
    by_cases hv : (stripCarriageReturn csv).take 2 = ['!', '!']
    · rw [if_pos hv]
      exact ⟨_, rfl⟩
    · obtain ⟨st2, h2, _⟩ := hloop (stripCarriageReturn csv)
      rw [if_neg hv, h2]
      exact ⟨_, rfl⟩

/-- Witness of C36 with the separator `,`. -/
theorem setLineFromCsv_scan_terminates_witness :
    (∀ (newcsv : Str) (st : CsvState),
      (csvStep newcsv [','] st).i =
        (if st.inquote = true ∧ charAt newcsv st.i = '"' ∧ charAt newcsv (st.i + 1) = '"'
            ∧ st.i < (newcsv.length : Int) - 1 then st.i + 2
         else if st.inquote = false ∧ charAt newcsv st.i ≠ '"'
            ∧ substr newcsv (toSizeT st.i) [','].length = [','] then
           st.i + ([','].length : Int)
         else st.i + 1) ∧
      st.i < (csvStep newcsv [','] st).i) ∧
    (∀ newcsv : Str, ∃ st2 : CsvState,
      csvLoop newcsv [','] (newcsv.length + 1) { i := 0, inquote := false, output := [] }
        = some st2 ∧ (newcsv.length : Int) ≤ st2.i) ∧
    (∀ (humNumDefault : HumNum) (l : HumdrumLine) (csv : Str), ∃ l2 : HumdrumLine,
      setLineFromCsv humNumDefault l csv [','] = some l2) :=
  setLineFromCsv_scan_terminates [','] (by decide)

end hum
